import Mathlib

/-!
Dali: shapes, strides and array views

A shallow embedding of the array layer of Dali (`dali/array/shape.cpp`,
`dali/array/array.cpp`, `dali/array/function/function.h`, ...).

Conventions of the embedding

* C++ `int` values are modelled by `Int`.  An `int` has 32 bits: where the code
  multiplies sizes (`hypercube_volume`, `shape_to_trivial_strides`,
  `normalize_shape`) the model reduces every product to the 32-bit two's
  complement range with `wrap_int`, which is what the compiled code computes
  when a product leaves the range.  The mathematical products are kept apart
  under the names `exact_volume` and `exact_trivial_strides`, and the
  statements that need products to fit say so with `fits_int`.  Sums of
  offsets and arithmetic on indices are not reduced.  `/` and `%` on `int`
  truncate towards zero and are modelled by `Int.tdiv` and `Int.tmod`.
* `std::vector<int>` is modelled by `List Int`.
* `ASSERT2(cond, msg)` raises a `std::runtime_error` when `cond` is false; a
  function that may raise returns `Except String _`, the string being a short
  form of the message.
* `std::shared_ptr<ArrayState>` is modelled by an address into an explicit
  heap, so that two `Array` handles that share one `ArrayState` observe each
  other's mutations.
* The element stored at a position of a memory block is modelled by an `Int`,
  whatever the dtype of the views over the block.
-/

namespace Dali

/-! ## dali/array/shape.cpp -/

/-- The value an `int` holds after an operation whose mathematical result is `x`: the
representative of `x` modulo `2^32` in the range from `-2^31` to `2^31 - 1`. -/
def wrap_int (x : Int) : Int :=
  (x + 2147483648) % 4294967296 - 2147483648

/-- The product of the entries of a shape, accumulated from the left starting at one
(`std::accumulate(shape.begin(), shape.end(), 1, std::multiplies<int>())`); every
product is an `int`. -/
def hypercube_volume (shape : List Int) : Int :=
  shape.foldl (fun acc x => wrap_int (acc * x)) 1

/-- A shape makes sense when every entry is strictly positive. -/
def shape_strictly_positive (shape : List Int) : Bool :=
  shape.all (fun x => decide (0 < x))

/-- Broadcast shape to shape: the absolute value of every entry. -/
def bshape2shape (bshape : List Int) : List Int :=
  bshape.map (fun x => (x.natAbs : Int))

/-- Row-major strides of a shape: the loop of `shape_to_trivial_strides` runs from the
last axis to the first, storing `residual_shape` and then multiplying it by the
size of the axis (`residual_shape *= shape[i]`, an `int` product).  The helper returns
the strides of the suffix together with the final value of `residual_shape`. -/
def trivial_strides_aux : List Int → List Int × Int
  | [] => ([], 1)
  | x :: xs =>
    let r := trivial_strides_aux xs
    (r.2 :: r.1, wrap_int (r.2 * x))

/-- The strides that arise from a shape when memory is laid out in row-major order. -/
def shape_to_trivial_strides (shape : List Int) : List Int :=
  (trivial_strides_aux shape).1

/-! ## dali/array/array.cpp: miscellaneous utilities -/

/-- Whether a computation raised a fatal error. -/
def raises {α : Type} (r : Except String α) : Bool :=
  match r with
  | .error _ => true
  | .ok _ => false

/-- The loop of `normalize_shape`: `i` is the loop index, `undefined_dim` the position
of the wildcard seen so far (`-1` when none), `known_shape_volume` the `int` product of
the non-negative entries seen so far (`known_shape_volume *= new_shape[i]`). -/
def normalize_shape_loop :
    List Int → Nat → Int → Int → Except String (Int × Int)
  | [], _, undefined_dim, known_shape_volume => .ok (undefined_dim, known_shape_volume)
  | x :: rest, i, undefined_dim, known_shape_volume =>
    if x < 0 then
      if undefined_dim = -1 then
        normalize_shape_loop rest (i + 1) ((i : Int)) known_shape_volume
      else
        .error "new shape can only specify one unknown dimension"
    else
      normalize_shape_loop rest (i + 1) undefined_dim (wrap_int (known_shape_volume * x))

/-- Resolution of the wildcard dimension of a reshape target against the volume of the
current shape.  Both volumes are `int` values; their quotient is an `int` as well, but
for `INT_MIN / -1`, which C++ leaves undefined. -/
def normalize_shape (current_shape new_shape : List Int) : Except String (List Int) :=
  match normalize_shape_loop new_shape 0 (-1) 1 with
  | .error e => .error e
  | .ok (undefined_dim, known_shape_volume) =>
    if undefined_dim ≠ -1 then
      if known_shape_volume = 0 then
        .ok new_shape
      else
        let current_volume := hypercube_volume current_shape
        if Int.tmod current_volume known_shape_volume = 0 then
          .ok (new_shape.set undefined_dim.toNat (Int.tdiv current_volume known_shape_volume))
        else
          .error "cannot deduce unknown dimension"
    else
      .ok new_shape

/-! ## Vocabulary of the statements about volumes and `normalize_shape` -/

/-- Whether a mathematical integer is the value of some `int`: it lies between `-2^31`
and `2^31 - 1`. -/
def fits_int (x : Int) : Bool :=
  decide (-2147483648 ≤ x) && decide (x < 2147483648)

/-- The product of the entries of a shape as a mathematical integer. -/
def exact_volume (shape : List Int) : Int :=
  shape.foldl (fun acc x => acc * x) 1

/-- The row-major strides of a shape as mathematical integers, with the product of all
the entries: the stride of an axis is the product of the sizes of the axes after it. -/
def exact_strides_aux : List Int → List Int × Int
  | [] => ([], 1)
  | x :: xs =>
    let r := exact_strides_aux xs
    (r.2 :: r.1, r.2 * x)

/-- The row-major strides of a shape as mathematical integers. -/
def exact_trivial_strides (shape : List Int) : List Int :=
  (exact_strides_aux shape).1

/-- The wildcard entries of a reshape target: its negative entries. -/
def wildcards (new_shape : List Int) : List Int :=
  new_shape.filter (fun x => decide (x < 0))

/-- The product of the entries of a reshape target that are not wildcards. -/
def known_volume (new_shape : List Int) : Int :=
  (new_shape.filter (fun x => decide (0 ≤ x))).foldr (fun x acc => x * acc) 1


/-! ## dali/array/array.cpp: the array descriptor and its heap -/

/-- Element types of an array. -/
inductive DType where
  | DTYPE_FLOAT
  | DTYPE_DOUBLE
  | DTYPE_INT32
  deriving DecidableEq, Repr

/-- The descriptor shared by the handles of one array: `memory` is the identity of the
`SynchronizedMemory` block, `offset` the position of the first element in it, and an
empty `strides` stands for the row-major strides of `shape`. -/
structure ArrayState where
  shape : List Int
  memory : Nat
  offset : Int
  strides : List Int
  dtype : DType
  deriving DecidableEq, Repr

/-- An array handle: `state` is the `std::shared_ptr<ArrayState>`, an address into the
heap, and `none` is the null pointer of a default-constructed (stateless) array. -/
structure Array where
  state : Option Nat
  deriving DecidableEq, Repr

/-- The objects reachable through the shared pointers: the `ArrayState` objects by
address, and the contents of the memory blocks (element position to stored value). -/
structure Heap where
  states : List ArrayState
  memories : List (Int → Int)

/-- Allocation of a new `ArrayState` (`std::make_shared<ArrayState>`). -/
def Heap.alloc_state (h : Heap) (st : ArrayState) : Array × Heap :=
  ({ state := some h.states.length }, { h with states := h.states ++ [st] })

/-- Allocation of a new memory block (`std::make_shared<SynchronizedMemory>`) with the
given contents; returns the identity of the block. -/
def Heap.alloc_memory (h : Heap) (contents : Int → Int) : Nat × Heap :=
  (h.memories.length, { h with memories := h.memories ++ [contents] })

/-- Assignment to `state->strides`. -/
def Heap.set_strides (h : Heap) (p : Nat) (strides : List Int) : Heap :=
  match h.states[p]? with
  | none => h
  | some st => { h with states := h.states.set p { st with strides := strides } }

/-- The contents of a memory block. -/
def Heap.contents (h : Heap) (memory : Nat) : Int → Int :=
  h.memories.getD memory (fun _ => 0)

/-- Embedding of `compact_strides`: strides that are the row-major strides of the shape are
removed. -/
def compact_strides (shape strides : List Int) : Except String (List Int) :=
  if strides.length = 0 then .ok strides
  else if strides.length ≠ shape.length then
    .error "Not the same number of strides as dimensions."
  else if shape_to_trivial_strides shape = strides then .ok []
  else .ok strides

/-- Whether the handle is the null pointer. -/
def Array.is_stateless (a : Array) : Bool :=
  a.state.isNone

/-- Dereference of the state pointer by an accessor that calls `alert_stateless_call`:
a stateless handle raises.  A shared pointer never dangles; an address outside the
heap is reported as an error as well. -/
def Array.deref (a : Array) (h : Heap) (fieldname : String) : Except String ArrayState :=
  match a.state with
  | none =>
    .error (fieldname ++ " must not be called on Array initialized with empty constructor.")
  | some p =>
    match h.states[p]? with
    | none => .error "dangling state pointer"
    | some st => .ok st

/-- The accessor `Array::shape`. -/
def Array.shape (a : Array) (h : Heap) : Except String (List Int) :=
  (a.deref h "shape").map (fun st => st.shape)

/-- The accessor `Array::offset`. -/
def Array.offset (a : Array) (h : Heap) : Except String Int :=
  (a.deref h "offset").map (fun st => st.offset)

/-- The accessor `Array::strides`. -/
def Array.strides (a : Array) (h : Heap) : Except String (List Int) :=
  (a.deref h "strides").map (fun st => st.strides)

/-- The accessor `Array::dtype`. -/
def Array.dtype (a : Array) (h : Heap) : Except String DType :=
  (a.deref h "dtype").map (fun st => st.dtype)

/-- The accessor `Array::memory`: the null pointer for a stateless array. -/
def Array.memory (a : Array) (h : Heap) : Option Nat :=
  match a.deref h "memory" with
  | .error _ => none
  | .ok st => some st.memory

/-- Embedding of `Array::ndim`: zero for a stateless array. -/
def Array.ndim (a : Array) (h : Heap) : Nat :=
  match a.deref h "ndim" with
  | .error _ => 0
  | .ok st => st.shape.length

/-- Embedding of `Array::number_of_elements`: zero for a stateless array. -/
def Array.number_of_elements (a : Array) (h : Heap) : Int :=
  match a.deref h "number_of_elements" with
  | .error _ => 0
  | .ok st => hypercube_volume st.shape

/-- The strides of a descriptor with the empty list expanded (`Array::normalized_strides`). -/
def ArrayState.normalized_strides (st : ArrayState) : List Int :=
  if st.strides.length > 0 then st.strides else shape_to_trivial_strides st.shape

/-- Embedding of `Array::normalized_strides`. -/
def Array.normalized_strides (a : Array) (h : Heap) : Except String (List Int) :=
  (a.deref h "strides").map (fun st => st.normalized_strides)

/-- The loop of `Array::bshape`: the size of an axis of stride zero is negated. -/
def bshape_loop : List Int → List Int → List Int
  | s :: shape, d :: strides =>
    (if d = 0 then - (s.natAbs : Int) else s) :: bshape_loop shape strides
  | shape, _ => shape

/-- Embedding of `Array::bshape` on a descriptor. -/
def ArrayState.bshape (st : ArrayState) : List Int :=
  if st.strides.length = 0 then st.shape else bshape_loop st.shape st.strides

/-- Embedding of `Array::bshape`. -/
def Array.bshape (a : Array) (h : Heap) : Except String (List Int) :=
  (a.deref h "strides").map (fun st => st.bshape)

/-- The constructor `Array(shape, memory, offset, strides, dtype)`: it checks the shape,
compacts the strides and allocates a new descriptor. -/
def Array.from_memory (shape : List Int) (memory : Nat) (offset : Int) (strides : List Int)
    (dtype : DType) (h : Heap) : Except String (Array × Heap) :=
  if shape_strictly_positive shape = false then
    .error "shape elements must be strictly positive."
  else
    match compact_strides shape strides with
    | .error e => .error e
    | .ok new_strides =>
      if new_strides.length = 0 ∨ new_strides.length = shape.length then
        .ok (h.alloc_state
          { shape := shape, memory := memory, offset := offset, strides := new_strides,
            dtype := dtype })
      else
        .error "stride and shape size must be the same (unless strides are compacted)."

/-- Embedding of `Array::initialize`, under the name `initialize_shape`: a new memory block
of the volume of the shape, here with the given contents, and a new descriptor with
offset zero and no strides. -/
def Array.initialize_shape (shape : List Int) (dtype : DType) (contents : Int → Int)
    (h : Heap) : Except String (Array × Heap) :=
  if shape_strictly_positive shape = false then
    .error "Shape elements must be strictly positive."
  else
    let m := h.alloc_memory contents
    .ok (m.2.alloc_state
      { shape := shape, memory := m.1, offset := 0, strides := [], dtype := dtype })

/-- Embedding of `Array::broadcast_axis_internal`: the stride of the axis is set to zero in
the shared descriptor. -/
def Array.broadcast_axis_internal (a : Array) (axis : Int) (h : Heap) :
    Except String Heap :=
  if ¬ (0 ≤ axis ∧ axis < ((a.ndim h : Nat) : Int)) then
    .error "broadcast dimension must be less the dimensionality of broadcasted tensor"
  else
    match a.state, a.normalized_strides h with
    | some p, .ok ns => .ok (h.set_strides p (ns.set axis.toNat 0))
    | _, .error e => .error e
    | none, _ => .error "strides must not be called on Array initialized with empty constructor."

/-- The loop of `Array::initialize_with_bshape` over the axes from `i` on. -/
def initialize_with_bshape_loop (a : Array) : List Int → Nat → Heap → Except String Heap
  | [], _, h => .ok h
  | b :: rest, i, h =>
    if b < 0 then
      if b = -1 then
        match a.broadcast_axis_internal ((i : Int)) h with
        | .error e => .error e
        | .ok h1 => initialize_with_bshape_loop a rest (i + 1) h1
      else .error "Currently only one-sized broadcasting is supported."
    else initialize_with_bshape_loop a rest (i + 1) h

/-- Embedding of `Array::initialize_with_bshape`. -/
def Array.initialize_with_bshape (bshape : List Int) (dtype : DType) (contents : Int → Int)
    (h : Heap) : Except String (Array × Heap) :=
  match Array.initialize_shape (bshape2shape bshape) dtype contents h with
  | .error e => .error e
  | .ok (a, h1) =>
    match initialize_with_bshape_loop a bshape 0 h1 with
    | .error e => .error e
    | .ok h2 => .ok (a, h2)

/-! ### Elements of a view -/

/-- The sum of the products of indices and strides, axis by axis. -/
def strided_offset : List Int → List Int → Int
  | i :: indices, d :: strides => i * d + strided_offset indices strides
  | _, _ => 0

/-- A multi-index is in bounds when it has one entry per axis, each non-negative and
below the size of its axis. -/
def in_bounds : List Int → List Int → Bool
  | [], [] => true
  | i :: indices, s :: shape => decide (0 ≤ i) && (decide (i < s) && in_bounds indices shape)
  | _, _ => false

/-- The position in its memory block of the element of a view at a multi-index: the offset
of the view plus the strided offset of the index (as in `Array::operator()`, where
`delta_offset` accumulates `index_at_dim * stride_at_dim`). -/
def ArrayState.element_offset (st : ArrayState) (indices : List Int) : Int :=
  st.offset + strided_offset indices st.normalized_strides

/-- The value stored at a multi-index of a view. -/
def ArrayState.element (st : ArrayState) (h : Heap) (indices : List Int) : Int :=
  h.contents st.memory (st.element_offset indices)

/-- The multi-index of the element at a row-major position of a shape. -/
def unravel_index : List Int → Int → List Int
  | [], _ => []
  | _ :: shape, index =>
    (index / exact_volume shape) :: unravel_index shape (index % exact_volume shape)

/-! ### dali/array/function/function.h -/

/-- The loop of `Function::initialize_output_array` that looks for a broadcasted
dimension bigger than one in the destination. -/
def broadcast_reshaped_output (out_bshape : List Int) : Bool :=
  out_bshape.any (fun dim_size => decide (dim_size < -1))

/-- The loop of `Function::initialize_output_array` that compares the deduced broadcast
shape with the shape of the destination, axis by axis. -/
def output_bshape_compatible_loop : List Int → List Int → Bool
  | b :: output_bshape, s :: out_shape =>
    if b ≠ -1 ∧ (b.natAbs : Int) ≠ s then false
    else output_bshape_compatible_loop output_bshape out_shape
  | _, _ => true

/-- Embedding of `Function::initialize_output_array`.  The two flags are the static members
`disable_output_shape_check` and `disable_output_dtype_check` of the function class
(both false in `Function`); `contents` is the content of a freshly allocated memory
block; the device of the output is not part of the model.  Returns the destination
handle and the heap. -/
def initialize_output_array (disable_output_shape_check disable_output_dtype_check : Bool)
    (out : Array) (output_dtype : DType) (output_bshape : List Int)
    (contents : Int → Int) (h : Heap) : Except String (Array × Heap) :=
  if out.is_stateless then
    Array.initialize_with_bshape
      (output_bshape.map (fun dim => if dim < -1 then (dim.natAbs : Int) else dim))
      output_dtype contents h
  else
    match out.deref h "shape" with
    | .error e => .error e
    | .ok st =>
      if ¬ disable_output_shape_check ∧ broadcast_reshaped_output st.bshape then
        .error "Cannot assign to broadcasted output with broadcasted dimension bigger than 1"
      else if ¬ disable_output_shape_check ∧
          ¬ (st.shape.length = output_bshape.length ∧
              output_bshape_compatible_loop output_bshape st.shape) then
        .error "Cannot assign result of this shape to a location of that shape."
      else if disable_output_dtype_check ∨ st.dtype = output_dtype then
        .ok (out, h)
      else
        .error "Cannot assign result of this dtype to a location of that dtype."

/-! ### Contiguity, reshape and transpose -/

/-- The loop of `Array::contiguous_memory`: an axis of size above one whose stride is not the
row-major stride makes the view non-contiguous. -/
def contiguous_memory_loop : List Int → List Int → List Int → Bool
  | s :: shape, t :: ts, n :: ns =>
    if 1 < s ∧ t ≠ n then false else contiguous_memory_loop shape ts ns
  | _, _, _ => true

/-- Embedding of `Array::contiguous_memory` on a descriptor. -/
def ArrayState.contiguous_memory (st : ArrayState) : Bool :=
  if st.strides.isEmpty then true
  else contiguous_memory_loop st.shape (shape_to_trivial_strides st.shape) st.strides

/-- Embedding of `Array::contiguous_memory`: raises on a stateless array. -/
def Array.contiguous_memory (a : Array) (h : Heap) : Except String Bool :=
  match a.state with
  | none => .error "contiguous_memory must not be called with stateless Array."
  | some _ => (a.deref h "strides").map (fun st => st.contiguous_memory)

/-- Modelled from the spec: `op::identity` is not in the sources at hand; the spec calls
its result "an elementwise-identity copy", "the materialized result of an Expression
evaluation (fresh allocation sized by shape inference)".  The destination is a
stateless array prepared by `Function::initialize_output_array` with the broadcast
shape of the argument, and the new memory block holds the elements of the argument
in row-major order. -/
def op_identity (a : Array) (h : Heap) : Except String (Array × Heap) :=
  match a.deref h "bshape" with
  | .error e => .error e
  | .ok st =>
    initialize_output_array false false { state := none } st.dtype st.bshape
      (fun j => st.element h (unravel_index st.shape j)) h

/-- Embedding of `Array::ascontiguousarray`: the result is the same handle when the memory is
contiguous and a copy otherwise; then the strides of the descriptor of the result are
cleared. -/
def Array.ascontiguousarray (a : Array) (h : Heap) : Except String (Array × Heap) :=
  match a.contiguous_memory h with
  | .error e => .error e
  | .ok cm =>
    match (if cm then .ok (a, h) else op_identity a h) with
    | .error e => .error e
    | .ok (ret, h1) =>
      match ret.state with
      | none => .error "null state"
      | some p => .ok (ret, h1.set_strides p [])

/-- The loop of `Array::dimshuffle`: `current_shape` carries the marks `-1` left on the
axes already picked; returns the new shape and the new strides. -/
def dimshuffle_loop (current_strides : List Int) :
    List Int → List Int → Except String (List Int × List Int)
  | [], _ => .ok ([], [])
  | p :: pattern, current_shape =>
    let pick_from := if p < 0 then p + (current_shape.length : Int) else p
    if ¬ (0 ≤ pick_from ∧ pick_from < (current_shape.length : Int)) then
      .error "tranpose axis must be positive and less than the dimensionality of the array"
    else if current_shape.getD pick_from.toNat 0 = -1 then
      .error "duplicate dimension in dimshuffle pattern"
    else
      match dimshuffle_loop current_strides pattern (current_shape.set pick_from.toNat (-1)) with
      | .error e => .error e
      | .ok (newshape, newstrides) =>
        .ok (current_shape.getD pick_from.toNat 0 :: newshape,
             current_strides.getD pick_from.toNat 0 :: newstrides)

/-- Embedding of `Array::dimshuffle`. -/
def Array.dimshuffle (a : Array) (pattern : List Int) (h : Heap) :
    Except String (Array × Heap) :=
  if pattern.length ≠ a.ndim h then
    .error "number of dimensions in dimshuffle does not correspond to the dimensionality"
  else
    match a.deref h "shape" with
    | .error e => .error e
    | .ok st =>
      match dimshuffle_loop st.normalized_strides pattern st.shape with
      | .error e => .error e
      | .ok (newshape, newstrides) =>
        Array.from_memory newshape st.memory st.offset newstrides st.dtype h

/-- The permutation built by `Array::transpose()`: `permutation[i] = ndim - i - 1`. -/
def transpose_permutation (ndim : Nat) : List Int :=
  (List.range ndim).map (fun (i : Nat) => (ndim : Int) - (i : Int) - 1)

/-- Embedding of `Array::transpose()`: all the axes reversed. -/
def Array.transpose (a : Array) (h : Heap) : Except String (Array × Heap) :=
  a.dimshuffle (transpose_permutation (a.ndim h)) h

/-- The constructor `Array(shape, dtype, preferred_device)` of a fresh array. -/
def Array.fresh (shape : List Int) (dtype : DType) (contents : Int → Int) (h : Heap) :
    Except String (Array × Heap) :=
  Array.initialize_shape shape dtype contents h

/-! ### Equality -/

/-- Embedding of `Array::state_equals`. -/
def Array.state_equals (left right : Array) : Bool :=
  if left.is_stateless && right.is_stateless then true
  else if left.is_stateless != right.is_stateless then false
  else decide (left.state = right.state)

/-- Embedding of `Array::equals`; `all_equals` stands for the reduction `op::all_equals`, which is not
in the sources at hand. -/
def Array.equals (all_equals : Array → Array → Heap → Bool) (left right : Array) (h : Heap) :
    Except String Bool :=
  if Array.state_equals left right then .ok true
  else
    match left.shape h with
    | .error e => .error e
    | .ok left_shape =>
      match right.shape h with
      | .error e => .error e
      | .ok right_shape =>
        if left_shape ≠ right_shape then .ok false
        else if left.is_stateless != right.is_stateless then .ok false
        else .ok (all_equals left right h)

/-- Embedding of `Array::allclose`; `all_close` stands for the reduction `op::all_close` at the given
tolerance, which is not in the sources at hand. -/
def Array.allclose (all_close : Array → Array → Heap → Bool) (left right : Array) (h : Heap) :
    Except String Bool :=
  if left.is_stateless && right.is_stateless then .ok true
  else if left.is_stateless != right.is_stateless then .ok false
  else
    match left.shape h with
    | .error e => .error e
    | .ok left_shape =>
      match right.shape h with
      | .error e => .error e
      | .ok right_shape =>
        if left_shape ≠ right_shape then .ok false
        else .ok (all_close left right h)

/-! ### Vocabulary of the statements about views -/

/-- The invariant that the constructors of `Array` establish on a descriptor: the sizes are
strictly positive, and the strides are either compacted away or one per axis. -/
def ArrayState.well_formed (st : ArrayState) : Bool :=
  shape_strictly_positive st.shape &&
    (st.strides.isEmpty || decide (st.strides.length = st.shape.length))

/-- The handle is stateful and its shared pointer leads to the descriptor `st`. -/
def Array.points_to (a : Array) (h : Heap) (st : ArrayState) : Prop :=
  ∃ p, a.state = some p ∧ h.states[p]? = some st

/-- The heap without any object. -/
def Heap.empty : Heap := { states := [], memories := [] }

/-! ### Concrete descriptors and heaps -/

/-- A view of shape `{1, 3}` whose first axis is broadcast: strides `{0, 1}`. -/
def broadcast_row_state : ArrayState :=
  { shape := [1, 3], memory := 0, offset := 0, strides := [0, 1], dtype := DType.DTYPE_FLOAT }

/-- A heap with the single view `broadcast_row_state` over one memory block. -/
def broadcast_row_heap : Heap :=
  { states := [broadcast_row_state], memories := [fun i => i] }

/-- A fresh vector of the given length, as `Array({n})` builds it. -/
def vector_state (n : Int) : ArrayState :=
  { shape := [n], memory := 0, offset := 0, strides := [], dtype := DType.DTYPE_FLOAT }

/-- A heap with a single fresh vector of the given length. -/
def vector_heap (n : Int) : Heap :=
  { states := [vector_state n], memories := [fun _ => 0] }

/-- A view of shape `{2, 65536, 65536}` with the strides `{0, 65536, 1}`. -/
def wrapped_state : ArrayState :=
  { shape := [2, 65536, 65536], memory := 0, offset := 0, strides := [0, 65536, 1],
    dtype := DType.DTYPE_FLOAT }

/-- A heap with the single view `wrapped_state`. -/
def wrapped_heap : Heap :=
  { states := [wrapped_state], memories := [fun _ => 0] }

/-- The transpose of a fresh `{3, 2}` array: shape `{2, 3}` with strides `{1, 2}`. -/
def transposed_state : ArrayState :=
  { shape := [2, 3], memory := 0, offset := 0, strides := [1, 2], dtype := DType.DTYPE_FLOAT }

/-- A heap with the single view `transposed_state` over a memory block that stores at
each position the position itself. -/
def transposed_heap : Heap :=
  { states := [transposed_state], memories := [fun i => i] }

/-! ## dali/array/jit/jit_runner.cpp: the key of the compilation cache -/

/-- Modelled from the spec: `utils::Hasher` is not in the sources at hand.  A hasher starts
from `seed`, and `add` folds one more value into its state with `combine`; `value` is the
state.  Nothing is assumed about `combine`. -/
structure Hasher where
  seed : Nat
  combine : Nat → Int → Nat

/-- An entry of `node_to_info_t`. -/
structure CompilationInfo where
  computation_rank : Int
  hash : Nat

/-- The map `node_to_info_t`, from the address of an expression node to its entry. -/
abbrev node_to_info_t := Nat → CompilationInfo

/-- Assignment of the field `computation_rank` of the entry of a node. -/
def set_computation_rank (node_to_info : node_to_info_t) (node : Nat) (rank : Int) :
    node_to_info_t :=
  fun n => if n = node then { node_to_info n with computation_rank := rank } else node_to_info n

/-- Assignment of the field `hash` of the entry of a node. -/
def set_hash (node_to_info : node_to_info_t) (node : Nat) (hash : Nat) : node_to_info_t :=
  fun n => if n = node then { node_to_info n with hash := hash } else node_to_info n

/-- A `JITRunner`: `self` is its address (`this`), `root` the address of the expression
`root_`, and `root_compilation_info` the virtual method `compute_node_compilation_info`
of the root, which fills the entries of the root and of the nodes below it. -/
structure JITRunner where
  self : Nat
  root : Nat
  root_compilation_info : Int → List Int → node_to_info_t → node_to_info_t

/-- Embedding of `JITRunner::compute_node_compilation_info`; `optype_hash` is the static
member of the class, the hash of its type name. -/
def JITRunner.compute_node_compilation_info (hasher : Hasher) (optype_hash : Nat)
    (runner : JITRunner) (desired_computation_rank : Int)
    (desired_computation_shape : List Int) (node_to_info : node_to_info_t) : node_to_info_t :=
  let info1 := set_computation_rank node_to_info runner.self desired_computation_rank
  let info2 := runner.root_compilation_info desired_computation_rank
    desired_computation_shape info1
  set_hash info2 runner.self
    (hasher.combine (hasher.combine hasher.seed (optype_hash : Int)) desired_computation_rank)

/-- The hash computed at the start of `JITRunner::compile`: the device type and the hash of
the entry of the runner. -/
def JITRunner.compile_hash (hasher : Hasher) (runner : JITRunner) (device_type : Int)
    (node_to_info : node_to_info_t) : Nat :=
  hasher.combine (hasher.combine hasher.seed device_type)
    ((node_to_info runner.self).hash : Int)

/-- Modelled from the spec: the compiler `array_op_compiler` is not in the sources at hand;
it "caches compiled kernels by structural hash".  Its state is the code compiled so far,
by hash. -/
structure Compiler where
  modules : List (Nat × String)

/-- Modelled from the spec: `Compiler::load` tells whether a module of that hash is
available. -/
def Compiler.load (c : Compiler) (hash : Nat) : Bool :=
  (c.modules.lookup hash).isSome

/-- Modelled from the spec: `Compiler::compile` compiles the code and keeps it under the
hash. -/
def Compiler.compile (c : Compiler) (hash : Nat) (code : String) : Compiler :=
  { modules := (hash, code) :: c.modules }

/-- Modelled from the spec: `Compiler::get_function` hands back the function kept under the
hash. -/
def Compiler.get_function (c : Compiler) (hash : Nat) : Option String :=
  c.modules.lookup hash

/-- Embedding of `JITRunner::compile`; `code_template` is the result of `get_code_template` for this
runner and `always_recompile` the value of `should_always_recompile()`.  Returns the
function handed back and the compiler. -/
def JITRunner.compile (hasher : Hasher) (runner : JITRunner) (device_type : Int)
    (node_to_info : node_to_info_t) (code_template : String) (always_recompile : Bool)
    (c : Compiler) : Option String × Compiler :=
  let hash := runner.compile_hash hasher device_type node_to_info
  let c1 := if !c.load hash || always_recompile then c.compile hash code_template else c
  (c1.get_function hash, c1)

/-- A hasher for the concrete runs: `combine h v = 31 * h + |v| + 1`. -/
def example_hasher : Hasher :=
  { seed := 7, combine := fun h v => 31 * h + v.natAbs + 1 }

/-- A root whose entry receives the given structural hash. -/
def example_root (node hash : Nat) : Int → List Int → node_to_info_t → node_to_info_t :=
  fun rank _ info => set_hash (set_computation_rank info node rank) node hash

/-- A runner at address 1 over a root at address 10 of structural hash 111. -/
def example_runner_a : JITRunner :=
  { self := 1, root := 10, root_compilation_info := example_root 10 111 }

/-- A runner at address 2 over a root at address 20 of structural hash 222. -/
def example_runner_b : JITRunner :=
  { self := 2, root := 20, root_compilation_info := example_root 20 222 }

/-- The map `node_to_info_t` before any node is visited. -/
def empty_node_to_info : node_to_info_t :=
  fun _ => { computation_rank := 0, hash := 0 }

/-! ## dali/tensor/op/unary_scalar_rdiv.cu.cpp -/

/-- Modelled from the spec: the class `Tensor` is not in the sources at hand; a tensor is a
"value+gradient pair", the value `w` and the gradient `dw`, with the flag `constant`.
The elements are modelled by rational numbers, with exact arithmetic in place of
floating point. -/
structure Tensor where
  w : List ℚ
  dw : List ℚ
  constant : Bool

/-- The functor `square` of `dali/math/TensorFunctions.h`: `a * a`. -/
def functor_square (a : ℚ) : ℚ := a * a

/-- The forward value of `tensor_ops::scalar_div(scalar, t)`: `op::scalar_div(scalar, t.w)`,
the scalar divided by every element, with a zero gradient. -/
def scalar_div_forward (scalar : ℚ) (t : Tensor) : Tensor :=
  { w := t.w.map (fun x => scalar / x), dw := t.w.map (fun _ => 0), constant := false }

/-- The closure that `tensor_ops::scalar_div(scalar, t)` registers on the tape:
`MAYBE_GRAD(t) += -scalar / lazy::square(out.dw)`, elementwise.  `MAYBE_GRAD` is defined
in a header that is not in the sources at hand; following the spec ("constant tensors
never register backward closures for their own inputs") it stands for the gradient of
`t` unless `t` is constant.  Returns `t` after the update. -/
def scalar_div_backward (scalar : ℚ) (t out : Tensor) : Tensor :=
  if t.constant then t
  else { t with dw := List.zipWith (fun g d => g + (-scalar) / functor_square d) t.dw out.dw }

/-- The rule of the claim: every element of the gradient of `t` receives the output
gradient times the derivative of `scalar / x` at the element of `t.w`. -/
def scalar_div_gradient_rule (scalar : ℚ) (t out : Tensor) : List ℚ :=
  List.zipWith (fun gd x => gd.1 + gd.2 * (-scalar / x ^ 2)) (List.zip t.dw out.dw) t.w

/-! ## Loading arrays saved by numpy -/

/-- The size in bytes of a `double`. -/
def sizeof_double : Int := 8

/-- The size in bytes of a `float`. -/
def sizeof_float : Int := 4

/-- The size in bytes of an `int32_t`. -/
def sizeof_int32_t : Int := 4

/-- Embedding of `npy_detect_dtype`: every branch that does not return early runs its
assertion and, when the assertion holds, falls through to the final `return DTYPE_FLOAT`. -/
def npy_detect_dtype (dtype : Char) (word_size : Int) : Except String DType :=
  if dtype = 'f' then
    if word_size = sizeof_double then .ok DType.DTYPE_DOUBLE
    else if word_size = sizeof_float then .ok DType.DTYPE_FLOAT
    else if word_size = sizeof_double ∨ word_size = sizeof_float then .ok DType.DTYPE_FLOAT
    else .error "attempted to load a npy array of floats with dtype different from float or doubles"
  else if dtype = 'i' then
    if word_size = sizeof_int32_t then .ok DType.DTYPE_INT32
    else if word_size = sizeof_double ∨ word_size = sizeof_float then .ok DType.DTYPE_FLOAT
    else .error "can only load numpy arrays with dtype float or double"
  else
    if dtype = 'i' ∨ dtype = 'f' then .ok DType.DTYPE_FLOAT
    else .error "attempted to load a npy array with dtype different from float or int"

/-! ## Ranges -/

/-- The conversion of a `double` to `int`: the fractional part is discarded, which rounds
toward zero. Doubles are modelled by rationals, so the model describes the conversion of
the values that are exact doubles and whose integer part fits in an `int`; C++ leaves the
conversion of a larger value undefined. -/
def double_to_int (x : ℚ) : Int :=
  if 0 ≤ x then Rat.floor x else -Rat.floor (-x)

/-- The length computed by `Array::arange(start, stop, step)`:
`int length = ((stop - start) + step - 1) / (step)`, evaluated in doubles and then
converted to `int`.  The arithmetic of the model is exact, so it describes the calls in
which every intermediate value is an exact double, such as whole numbers and halves. -/
def arange_length (start stop step : ℚ) : Int :=
  double_to_int (((stop - start) + step - 1) / step)

/-- Embedding of `Array::arange(start, stop, step, dtype)`; `contents` stands for the memory
cells after the assignment of `initializer::arange(start, step)`, which leaves the
descriptor alone. -/
def Array.arange (start stop step : ℚ) (dtype : DType) (contents : Int → Int) (h : Heap) :
    Except String (Array × Heap) :=
  let length := arange_length start stop step
  if ¬ (length > 0) then .error "Array length must be non-zero"
  else Array.fresh [length] dtype contents h

/-! ## String helpers of `utils`

A `std::string` is a list of characters. -/

/-- The loop run by `std::find_if` in `utils::is_number` with the stateful predicate of the
source: `true` when no character is found, that is when the end of the string is reached. -/
def is_number_scan : Bool → List Char → Bool
  | _, [] => true
  | is_decimal, c :: rest =>
    if is_decimal then
      if c = '.' then false
      else if !c.isDigit then false
      else is_number_scan true rest
    else
      if c = '.' then is_number_scan true rest
      else if !c.isDigit then false
      else is_number_scan false rest

/-- Embedding of `utils::is_number`. -/
def is_number (s : List Char) : Bool :=
  let is_negative := decide (s.head? = some '-')
  if is_negative && s.length == 1 then false
  else !s.isEmpty && is_number_scan false (s.drop (if is_negative then 1 else 0))

/-- Embedding of `utils::startswith`: `full.compare(0, beginning.length(), beginning)`
compares the characters themselves. -/
def startswith (full beginning : List Char) : Bool :=
  if full.length ≥ beginning.length then decide (full.take beginning.length = beginning)
  else false

/-- The loop of `utils::prefix_match` over the candidates. -/
def prefix_match_loop : List (List Char) → List Char → Except String (List Char)
  | [], _ => .error "Could not find match"
  | candidate :: rest, input =>
    if candidate.length < input.length then prefix_match_loop rest input
    else if startswith candidate input then .ok candidate
    else prefix_match_loop rest input

/-- Embedding of `utils::prefix_match`. -/
def prefix_match (candidates : List (List Char)) (input : List Char) :
    Except String (List Char) :=
  if candidates.isEmpty then .error "Empty set of candidates for prefix matching."
  else prefix_match_loop candidates input

/-- The reading of the specification: `input` is a prefix of `candidate` when letters are
compared ignoring case. -/
def starts_ignoring_case (candidate input : List Char) : Bool :=
  startswith (candidate.map Char.toLower) (input.map Char.toLower)

/-! ## The memory bank

A pointer is a natural number and `NULL` is zero. The concurrent map `blobs` is a
finite map from sizes to boxes of pointers, the last element of a box being its back. -/

/-- The device kinds `memory_ops::DEVICE_CPU` and `memory_ops::DEVICE_GPU`. -/
inductive Device where
  | DEVICE_CPU
  | DEVICE_GPU
  deriving DecidableEq, Repr

/-- A pointer together with its device (`memory_ops::DevicePtr`). -/
structure DevicePtr where
  device : Device
  ptr : Nat
  deriving DecidableEq, Repr

/-- The null pointer. -/
def NULL : Nat := 0

/-- Embedding of `memory_bank::DeviceBank`; the two counters are `unsigned long long`. -/
structure DeviceBank where
  blobs : Nat → Option (List Nat)
  num_allocations : Nat
  total_memory : Nat

/-- The two global banks `cpu_bank` and `gpu_bank`. -/
structure Banks where
  cpu_bank : DeviceBank
  gpu_bank : DeviceBank

/-- The conversion of an `int` to `unsigned long long`. -/
def to_unsigned_long_long (amount : Int) : Nat :=
  (amount % 2 ^ 64).toNat

/-- Embedding of `memory_bank::get_bank`; `use_cuda` tells whether `DALI_USE_CUDA` is
defined. -/
def get_bank (use_cuda : Bool) (banks : Banks) (device : Device) : Except String DeviceBank :=
  if device = Device.DEVICE_CPU then .ok banks.cpu_bank
  else if use_cuda && decide (device = Device.DEVICE_GPU) then .ok banks.gpu_bank
  else .error "Wrong device passed to Device enum"

/-- Writing back through the reference returned by `get_bank`. -/
def set_bank (banks : Banks) (device : Device) (bank : DeviceBank) : Banks :=
  if device = Device.DEVICE_CPU then { banks with cpu_bank := bank }
  else { banks with gpu_bank := bank }

/-- The map operation `upsert(key, fn, val)`: `fn` is applied to the box of an existing key,
a missing key is inserted with the box `val`. -/
def upsert (blobs : Nat → Option (List Nat)) (key : Nat) (fn : List Nat → List Nat)
    (val : List Nat) : Nat → Option (List Nat) :=
  fun k =>
    if k = key then
      match blobs key with
      | some deposit_box => some (fn deposit_box)
      | none => some val
    else blobs k

/-- The map operation `update_fn(key, fn)`: `fn` is applied to the box of an existing key and
nothing happens for a missing key. -/
def update_fn (blobs : Nat → Option (List Nat)) (key : Nat) (fn : List Nat → List Nat) :
    Nat → Option (List Nat) :=
  fun k =>
    if k = key then
      match blobs key with
      | some deposit_box => some (fn deposit_box)
      | none => none
    else blobs k

/-- Embedding of `memory_bank::deposit`. -/
def deposit (use_cuda : Bool) (banks : Banks) (dev_ptr : DevicePtr) (amount : Int)
    (_inner_dimension : Int) : Except String Banks :=
  match get_bank use_cuda banks dev_ptr.device with
  | .error e => .error e
  | .ok bank =>
    .ok (set_bank banks dev_ptr.device
      { bank with
        blobs := upsert bank.blobs (to_unsigned_long_long amount)
          (fun deposit_box => deposit_box ++ [dev_ptr.ptr]) [dev_ptr.ptr] })

/-- Embedding of `memory_bank::allocate`; `memory_ops_allocate` stands for the allocation by
the device, `memory_ops::allocate`. -/
def allocate (use_cuda : Bool) (memory_ops_allocate : Device → Int → Int → DevicePtr)
    (banks : Banks) (device : Device) (amount : Int) (inner_dimension : Int) :
    Except String (DevicePtr × Banks) :=
  match get_bank use_cuda banks device with
  | .error e => .error e
  | .ok bank =>
    let key := to_unsigned_long_long amount
    let memory : Nat :=
      match bank.blobs key with
      | some deposit_box => if deposit_box.isEmpty then NULL else deposit_box.getLastD NULL
      | none => NULL
    let blobs := update_fn bank.blobs key
      (fun deposit_box => if deposit_box.isEmpty then deposit_box else deposit_box.dropLast)
    if memory ≠ NULL then
      .ok ({ device := device, ptr := memory }, set_bank banks device { bank with blobs := blobs })
    else
      .ok (memory_ops_allocate device amount inner_dimension,
        set_bank banks device
          { blobs := blobs
            num_allocations := (bank.num_allocations + 1) % 2 ^ 64
            total_memory := to_unsigned_long_long ((bank.total_memory : Int) + amount) })

/-- The pointers pooled in a bank for a size, the most recently deposited last. -/
def DeviceBank.pooled (bank : DeviceBank) (amount : Int) : List Nat :=
  (bank.blobs (to_unsigned_long_long amount)).getD []

/-- A bank with nothing pooled and both counters at zero. -/
def DeviceBank.empty : DeviceBank :=
  { blobs := fun _ => none, num_allocations := 0, total_memory := 0 }

/-- The banks at program start. -/
def Banks.empty : Banks :=
  { cpu_bank := DeviceBank.empty, gpu_bank := DeviceBank.empty }

/-! ## Broadcasting an axis -/

/-- Embedding of `Array::normalize_axis`. -/
def Array.normalize_axis (a : Array) (axis : Int) (h : Heap) : Int :=
  if axis < 0 then ((a.ndim h : Nat) : Int) + axis else axis

/-- Embedding of `Array::broadcast_axis`. The copy `Array out(*this, false)` takes the branch
`state = other.state` of the copy constructor, so `out` holds the same descriptor address. -/
def Array.broadcast_axis (a : Array) (axis : Int) (h : Heap) : Except String (Array × Heap) :=
  let out : Array := { state := a.state }
  let axis := a.normalize_axis axis h
  if ¬ (axis ≥ 0 ∧ axis < ((a.ndim h : Nat) : Int)) then
    .error "broadcast_axis axis must be positive and less than the dimensionality of the array"
  else
    match a.shape h with
    | .error e => .error e
    | .ok shape =>
      if shape.getD axis.toNat 0 ≠ 1 then
        .error "axis to be broadcasted must have dimension 1"
      else
        match out.broadcast_axis_internal axis h with
        | .error e => .error e
        | .ok h1 => .ok (out, h1)

/-! ## Concatenation -/

/-- One round of the inner loop of `ConcatenateFunction::deduce_output_bshape`, at the
axis `shape_idx`. -/
def concatenate_merge_step (axis : Int) (other_bshape : List Int) (base_bshape : List Int)
    (shape_idx : Nat) : Except String (List Int) :=
  if (shape_idx : Int) ≠ axis then
    if base_bshape.getD shape_idx 0 ≠ other_bshape.getD shape_idx 0 then
      if base_bshape.getD shape_idx 0 = -1 then
        .ok (base_bshape.set shape_idx ((other_bshape.getD shape_idx 0).natAbs : Int))
      else
        .error "all the input array dimensions except for the concatenation axis must match exactly"
    else .ok base_bshape
  else
    .ok (base_bshape.set axis.toNat
      (base_bshape.getD axis.toNat 0 + ((other_bshape.getD shape_idx 0).natAbs : Int)))

/-- The inner loop of `ConcatenateFunction::deduce_output_bshape` over all axes. -/
def concatenate_merge (axis : Int) (other_bshape : List Int) (base_bshape : List Int) :
    Except String (List Int) :=
  (List.range base_bshape.length).foldlM (concatenate_merge_step axis other_bshape) base_bshape

/-- The outer loop of `ConcatenateFunction::deduce_output_bshape` over the arrays. -/
def concatenate_loop (axis : Int) (h : Heap) : List Array → List Int → Except String (List Int)
  | [], base_bshape => .ok base_bshape
  | arr :: rest, base_bshape =>
    if arr.ndim h ≠ base_bshape.length then
      .error "concatenate requires all argument arrays to have same dimensionality"
    else
      match arr.bshape h with
      | .error e => .error e
      | .ok other_bshape =>
        match concatenate_merge axis other_bshape base_bshape with
        | .error e => .error e
        | .ok merged => concatenate_loop axis h rest merged

/-- Embedding of `ConcatenateFunction::deduce_output_bshape`. -/
def ConcatenateFunction.deduce_output_bshape (arrays : List Array) (axis : Int) (h : Heap) :
    Except String (List Int) :=
  match arrays with
  | [] => .error "concatenate requires have at least one array argument (got 0)"
  | first :: _ =>
    match first.bshape h with
    | .error e => .error e
    | .ok base_bshape =>
      if ¬ (0 ≤ axis ∧ axis < (base_bshape.length : Int)) then
        .error "concatenation axis must be greater than 0 and less than input array dimensionality"
      else concatenate_loop axis h arrays (base_bshape.set axis.toNat 0)

/-- A heap with a `3 x 2` array at address 0 and, at address 1, a `1 x 2` array whose
first axis is broadcast. -/
def concatenate_heap : Heap :=
  { states := [{ shape := [3, 2], memory := 0, offset := 0, strides := [],
                 dtype := DType.DTYPE_FLOAT },
               { shape := [1, 2], memory := 1, offset := 0, strides := [0, 1],
                 dtype := DType.DTYPE_FLOAT }],
    memories := [fun _ => 0, fun _ => 0] }

/-! ## Gathering from rows -/

/-- What `op2::gather_from_rows` reads of an `Operation`: its rank, its dtype and its
broadcast shape. -/
structure Operation where
  ndim : Int
  dtype : DType
  bshape : List Int

/-- Embedding of `GatherFromRowsState::bshape`. -/
def GatherFromRowsState.bshape (source indices : Operation) : List Int :=
  let res := source.bshape.drop 2
  if indices.bshape.length > 0 then indices.bshape ++ res else 1 :: res

/-- Embedding of `GatherFromRowsState::ndim`. -/
def GatherFromRowsState.ndim (source : Operation) : Int :=
  source.ndim - 1

/-- Embedding of `GatherFromRowsState::dtype`. -/
def GatherFromRowsState.dtype (source : Operation) : DType :=
  source.dtype

/-- Embedding of `op2::gather_from_rows`. -/
def gather_from_rows (source indices : Operation) : Except String Operation :=
  if ¬ (source.ndim > 1) then
    .error "gather must be called on source with ndim >= 2"
  else if indices.dtype ≠ DType.DTYPE_INT32 then
    .error "indices must be integers"
  else if ¬ (indices.ndim ≤ 1) then
    .error "indices must have rank 1 or lower [Note: support for higher ranks coming soon]"
  else if indices.bshape.length > 0 ∧
      ¬ (indices.bshape.getD 0 0 ≤ source.bshape.getD 0 0 ∨ indices.bshape.getD 0 0 = -1 ∨
        source.bshape.getD 0 0 = -1) then
    .error "dimension 1 of indices must be less than or equal to first dimension of source"
  else
    .ok { ndim := GatherFromRowsState.ndim source
          dtype := GatherFromRowsState.dtype source
          bshape := GatherFromRowsState.bshape source indices }

/-! ## Text files of key and values

A file is the list of its characters; writing a file returns its contents and reading one
takes them. An `unordered_map` from strings to vectors of strings is a list of entries
with distinct keys, a new key being added at the end. -/

/-- The successive results of `std::getline(stream, item, delim)` until it fails; `item` is
the line read so far. A last line without delimiter is returned when it is not empty. -/
def getline_loop (delim : Char) : List Char → List Char → List (List Char)
  | [], item => if item.isEmpty then [] else [item]
  | c :: rest, item =>
    if c = delim then item :: getline_loop delim rest []
    else getline_loop delim rest (item ++ [c])

/-- Embedding of `utils::split(s, delim, keep_empty_strings)`. -/
def split (s : List Char) (delim : Char) (keep_empty_strings : Bool) : List (List Char) :=
  (getline_loop delim s []).filter (fun item => !item.isEmpty || keep_empty_strings)

/-- The statement `map[key].emplace_back(value)`. -/
def map_emplace_back :
    List (List Char × List (List Char)) → List Char → List Char →
      List (List Char × List (List Char))
  | [], key, value => [(key, [value])]
  | (k, values) :: rest, key, value =>
    if k = key then (k, values ++ [value]) :: rest
    else (k, values) :: map_emplace_back rest key value

/-- The body of the loop of `utils::text_to_map` for one line; the first character of an
empty line reads as the terminating zero. -/
def text_to_map_line (keep_empty_strings : Bool) (map : List (List Char × List (List Char)))
    (line : List Char) : List (List Char × List (List Char)) :=
  if line.headD (Char.ofNat 0) ≠ '=' ∧ line.headD (Char.ofNat 0) ≠ '-' ∧
      line.headD (Char.ofNat 0) ≠ '#' then
    let tokens := split line ' ' keep_empty_strings
    if tokens.length > 1 then
      (tokens.drop 1).foldl (fun m token => map_emplace_back m (tokens.headD []) token) map
    else map
  else map

/-- Embedding of `utils::text_to_map` on the contents of the file; `keep_empty_strings` is
the default argument of `utils::split`. -/
def text_to_map (keep_empty_strings : Bool) (contents : List Char) :
    List (List Char × List (List Char)) :=
  (getline_loop '\n' contents []).foldl (text_to_map_line keep_empty_strings) []

/-- Embedding of `utils::map_to_file`: the contents written, one line per entry. -/
def map_to_file : List (List Char × List (List Char)) → List Char
  | [] => []
  | (key, values) :: rest =>
    key ++ (values.flatMap (fun v => ' ' :: v)) ++ ['\n'] ++ map_to_file rest

/-- Lookup of a key in a map. -/
def map_find (map : List (List Char × List (List Char))) (key : List Char) :
    Option (List (List Char)) :=
  (map.find? (fun kv => decide (kv.1 = key))).map (fun kv => kv.2)

/-! ## Loading a Fortran-ordered array -/

/-- The fields of `cnpy::NpyArray` that the loader reads; `shape` holds the sizes as the
loader copies them into a vector of `int`. -/
structure NpyArray where
  data : Int → Int
  shape : List Int
  word_size : Int
  dtype : Char
  fortran_order : Bool

/-- Modelled from the spec: `SynchronizedMemory::adopt_buffer`, whose code is not part of
the sources; the memory block takes the buffer of the caller as its contents, without
allocation. -/
def Heap.adopt_buffer (h : Heap) (memory : Nat) (buffer : Int → Int) : Heap :=
  { h with memories := h.memories.set memory buffer }

/-- Embedding of `load_npy_from_npyarray`; `contents` stands for the cells of the newly
allocated memory before the buffer is adopted. -/
def load_npy_from_npyarray (arr : NpyArray) (contents : Int → Int) (h : Heap) :
    Except String (Array × Heap) :=
  match npy_detect_dtype arr.dtype arr.word_size with
  | .error e => .error e
  | .ok dtype =>
    let loaded : Except String (Array × Heap) :=
      if arr.fortran_order then
        match Array.fresh arr.shape.reverse dtype contents h with
        | .error e => .error e
        | .ok (a, h1) => a.transpose h1
      else Array.fresh arr.shape dtype contents h
    match loaded with
    | .error e => .error e
    | .ok (a, h2) =>
      match a.memory h2 with
      | none => .error "memory must not be called on Array initialized with empty constructor."
      | some m => .ok (a, h2.adopt_buffer m arr.data)

/-- The column-major strides of a shape, as the specification states them: the stride of
axis `i` is the product of the sizes of the axes before `i`. -/
def column_major_strides (shape : List Int) : List Int :=
  (List.range shape.length).map (fun (i : Nat) => (shape.take i).prod)

/-- The buffer position of a multi-index in column-major order, as the specification
states it: the sum over the axes `k` of `i_k` times the product of the sizes of the axes
before `k`. -/
def column_major_position (shape indices : List Int) : Int :=
  ((List.range shape.length).map
    (fun (k : Nat) => indices.getD k 0 * (shape.take k).prod)).sum

/-! ## More helpers of `utils` -/

/-- Embedding of `utils::arange(start, end)`: a vector of `end - start` entries is created
and the entry at `i` is set to `i`. A negative length cannot be allocated. -/
def arange (start end_ : Int) : Except String (List Int) :=
  if end_ - start < 0 then .error "cannot create a vector of negative length"
  else .ok ((List.range (end_ - start).toNat).map (fun (i : Nat) => (i : Int)))

/-- The reading of the specification: the `n` consecutive integers from `start` on. -/
def consecutive_from (start : Int) (n : Nat) : List Int :=
  (List.range n).map (fun (i : Nat) => start + (i : Int))

/-- The character that `ch = ss.get()` yields at the end of the stream: `EOF`, which is -1,
converted to `char`. -/
def eof_char : Char := Char.ofNat 255

/-- The state of the loop of `utils::split_str`: the tokens so far, the token being read and
`inside`, the number of characters of the delimiter matched so far; `delimiter_ptr` is
always `delimiter.begin() + inside`. -/
structure SplitState where
  tokens : List (List Char)
  token : List Char
  inside : Nat

/-- The body of the loop of `utils::split_str` for the character `ch`. -/
def split_str_step (delimiter : List Char) (s : SplitState) (ch : Char) : SplitState :=
  if ch = delimiter.getD s.inside (Char.ofNat 0) then
    if s.inside + 1 = delimiter.length then
      { tokens := s.tokens ++ [s.token], token := [], inside := 0 }
    else { s with inside := s.inside + 1 }
  else
    if s.inside > 0 then
      { s with token := s.token ++ delimiter.take s.inside ++ [ch], inside := 0 }
    else { s with token := s.token ++ [ch] }

/-- Embedding of `utils::split_str`. The loop `while (ss)` runs once for every character and
once more for the character read at the end of the stream. -/
def split_str (original delimiter : List Char) : List (List Char) :=
  let s := (original ++ [eof_char]).foldl (split_str_step delimiter)
    { tokens := [], token := [], inside := 0 }
  if s.inside > 0 then s.tokens ++ [s.token ++ delimiter.take s.inside]
  else if s.token.length > 0 then s.tokens ++ [s.token.dropLast]
  else s.tokens

/-! ## Flat indices of kernel views (`array_view.h`) -/

/-- The loop of `index_to_dim` from the first axis on: `index % shape[i]`, then
`index /= shape[i]`. -/
def index_to_dim_loop : List Int → Int → List Int
  | [], _ => []
  | s :: shape, index => Int.tmod index s :: index_to_dim_loop shape (Int.tdiv index s)

/-- Embedding of `index_to_dim(index, shape)`. -/
def index_to_dim (index : Int) (shape : List Int) : List Int :=
  index_to_dim_loop shape index

/-- The loop of `indices_to_offset(shape, indices)` over the axes from the last to the first,
given here in that order. -/
def indices_to_offset_loop : List Int → List Int → Int → Int → Int
  | s :: shape, i :: indices, offset, volume =>
    indices_to_offset_loop shape indices (offset + volume * i) (volume * s)
  | _, _, offset, _ => offset

/-- Embedding of `indices_to_offset(shape, indices)`. -/
def indices_to_offset (shape indices : List Int) : Int :=
  indices_to_offset_loop shape.reverse indices.reverse 0 1

/-- Embedding of `Shape::numel`. -/
def numel (shape : List Int) : Int :=
  shape.foldl (fun volume s => volume * s) 1

/-! ## The patience of the sentiment driver (`lstm_sentiment.cpp`) -/

/-- The variables of the training loop that the validation pass updates; the scores are
modelled by rationals. -/
structure TrainingState where
  patience : ℚ
  best_validation_score : ℚ × ℚ
  epoch : Int
  best_epoch : Int

/-- The update of the training loop after the validation pass has returned
`new_validation`. -/
def validation_update (s : TrainingState) (new_validation : ℚ × ℚ) : TrainingState :=
  let s1 : TrainingState :=
    if new_validation.1 + 1 / 1000000 < s.best_validation_score.1 then
      { s with patience := s.patience + 1 }
    else
      { s with patience := max (s.patience - 1) 0, best_validation_score := new_validation }
  if s1.best_validation_score ≠ new_validation then s1
  else { s1 with best_epoch := s1.epoch }

/-- The reading of the specification: the new recall exceeds the best recall by at least
`1e-6`. -/
def exceeds_best (new_recall best_recall : ℚ) : Prop :=
  best_recall + 1 / 1000000 ≤ new_recall

/-! ## The visualizer (`visualizer.cpp`) -/

/-- What the visualizer sees of a `redox::Redox` connection: the result of `connect`, the
reply to the command `EXISTS key` (`none` when the command fails) and the messages
published so far, each with its channel. -/
structure Redox where
  connect_result : Bool
  exists_reply : String → Option Int
  published : List (String × String)

/-- The fields of a `Visualizer`. -/
structure Visualizer where
  my_namespace : String
  connected : Bool
  rdx : Redox

/-- Embedding of the constructor `Visualizer::Visualizer(my_namespace, other_rdx)`; `new_rdx`
is the connection made on the fly when none is passed. The `throw` statements and the
failed `assert` are the errors. The periodic ping that the constructor schedules at its end
is left out. -/
def Visualizer.create (my_namespace : String) (other_rdx : Option Redox) (new_rdx : Redox) :
    Except String Visualizer :=
  let rdx : Redox :=
    match other_rdx with
    | none => new_rdx
    | some other => other
  let connected : Bool :=
    match other_rdx with
    | none => new_rdx.connect_result
    | some _ => true
  if !connected then .error "VISUALIZER ERROR: can't connect to redis."
  else
    match rdx.exists_reply ("namespace_" ++ my_namespace) with
    | none => .error "Assertion failed: key_exists.ok()"
    | some reply =>
      if reply = 1 then .error "VISUALIZER ERROR: visualizer name already in use: "
      else .ok { my_namespace := my_namespace, connected := connected, rdx := rdx }

/-- Embedding of `Visualizer::feed(const json11::Json& obj)`; `dump` is the text `obj.dump()`. -/
def Visualizer.feed (v : Visualizer) (dump : String) : Visualizer :=
  if !v.connected then v
  else
    { v with
      rdx := { v.rdx with published := v.rdx.published ++ [("feed_" ++ v.my_namespace, dump)] } }

/-! ## Redirection lists -/

/-- The lambda `checker` of `stream_to_redirection_list`: its result and the new value of the
captured variable `saw_dash`. -/
def checker (saw_dash : Bool) (ch : Char) : Bool × Bool :=
  if saw_dash then
    if ch = '>' then (true, saw_dash)
    else (false, decide (ch = '-'))
  else (false, decide (ch = '-'))

/-- The call `std::find_if(line.begin(), line.end(), checker)` from the position `pos` on:
the position found (`none` for `line.end()`) and the value of `saw_dash` afterwards. -/
def find_if_checker : Bool → List Char → Nat → Option Nat × Bool
  | saw_dash, [], _ => (none, saw_dash)
  | saw_dash, ch :: rest, pos =>
    if (checker saw_dash ch).1 then (some pos, (checker saw_dash ch).2)
    else find_if_checker (checker saw_dash ch).2 rest (pos + 1)

/-- The call `mapping.emplace(key, value)`: nothing is inserted when the key is present. -/
def map_emplace (mapping : List (List Char × List Char)) (key value : List Char) :
    List (List Char × List Char) :=
  if mapping.any (fun kv => decide (kv.1 = key)) then mapping
  else mapping ++ [(key, value)]

/-- The body of the loop of `stream_to_redirection_list` for one line, on the pair of
`saw_dash` and the mapping. A match at the first character would build the key from a range
that ends before the start of the line, which has no defined result. -/
def redirection_line (state : Bool × List (List Char × List Char)) (line : List Char) :
    Except String (Bool × List (List Char × List Char)) :=
  match find_if_checker state.1 line 0 with
  | (none, saw_dash) => .ok (saw_dash, state.2)
  | (some pos_end_arrow, saw_dash) =>
    if pos_end_arrow = 0 then .error "range before the start of the line"
    else
      .ok (saw_dash,
        map_emplace state.2 (line.take (pos_end_arrow - 1)) (line.drop (pos_end_arrow + 1)))

/-- Embedding of `stream_to_redirection_list(fp, mapping)` on the contents of the stream. -/
def stream_to_redirection_list (contents : List Char) (mapping : List (List Char × List Char)) :
    Except String (List (List Char × List Char)) :=
  ((getline_loop '\n' contents []).foldlM redirection_line (false, mapping)).map
    (fun state => state.2)

/-! ## Flat element access -/

/-- The loop of `Array::operator()(index_t)` over the axes from the last to the first, given
here in that order: `idx % shape[dim]` is weighed by the stride and `idx` is divided by
`shape[dim]`. -/
def flat_access_loop : List Int → List Int → Int → Int → Int
  | s :: shape, n :: ns, idx, delta_offset =>
    flat_access_loop shape ns (Int.tdiv idx s) (delta_offset + Int.tmod idx s * n)
  | _, _, _, delta_offset => delta_offset

/-- The value of `delta_offset` in `Array::operator()(index_t)` on a descriptor. -/
def ArrayState.delta_offset (st : ArrayState) (idx : Int) : Int :=
  if st.contiguous_memory then idx
  else flat_access_loop st.shape.reverse st.normalized_strides.reverse idx 0

/-- Embedding of `Array::operator()(index_t idx)`. -/
def Array.operator_call (a : Array) (idx : Int) (h : Heap) : Except String (Array × Heap) :=
  if ¬ (0 ≤ idx ∧ idx ≤ a.number_of_elements h) then
    .error "Index must be in [0, number_of_elements]."
  else
    match a.contiguous_memory h with
    | .error e => .error e
    | .ok _ =>
      match a.deref h "memory" with
      | .error e => .error e
      | .ok st =>
        Array.from_memory [] st.memory (st.offset + st.delta_offset idx) [] st.dtype h

/-- The row-major flat index of a multi-index, as the specification states it: the sum over
the axes `k` of `i_k` times the product of the sizes of the axes after `k`. -/
def row_major_flat_index (shape indices : List Int) : Int :=
  ((List.range shape.length).map
    (fun (k : Nat) => indices.getD k 0 * (shape.drop (k + 1)).prod)).sum

/-! ## Reductions of `op2` (`reducers.cpp`)

The expression nodes that the reducers build or meet. The reducer nodes are those of
`reducers.cpp`; the buffer and scalar nodes are not in the sources at hand. -/

/-- The nodes of an expression. Modelled from the spec: the node `array`, a "buffer
reference" with its broadcast shape and dtype, which "can report whether two adjacent axes
are collapsible into one", here by the flag `collapsible` that tells whether its layout
allows it; and the node `scalar`, a "scalar reference", built by `Operation(0)`. -/
inductive OperationState where
  | array (bshape : List Int) (dtype : DType) (collapsible : Bool)
  | scalar (value : Int)
  | all_reducer (functor_name : String) (argument : OperationState)
  | axis_reducer (functor_name : String) (argument : OperationState)
  | argument_all_reducer (functor_name : String) (argument : OperationState)
  | argument_axis_reducer (functor_name : String) (argument : OperationState)

/-- The method `bshape`: `AllReducerOperationState::bshape` returns the empty shape and
`AxisReducerOperationState::bshape` removes the last entry of the shape of its argument;
the argument reducers inherit them. -/
def OperationState.bshape : OperationState → List Int
  | .array bshape _ _ => bshape
  | .scalar _ => []
  | .all_reducer _ _ => []
  | .axis_reducer _ argument => argument.bshape.dropLast
  | .argument_all_reducer _ _ => []
  | .argument_axis_reducer _ argument => argument.bshape.dropLast

/-- The method `ndim`: `AllReducerOperationState::ndim` returns zero and
`AxisReducerOperationState::ndim` returns `std::max(argument_->ndim() - 1, 0)`. -/
def OperationState.ndim : OperationState → Int
  | .array bshape _ _ => (bshape.length : Int)
  | .scalar _ => 0
  | .all_reducer _ _ => 0
  | .axis_reducer _ argument => max (argument.ndim - 1) 0
  | .argument_all_reducer _ _ => 0
  | .argument_axis_reducer _ argument => max (argument.ndim - 1) 0

/-- The method `dtype`: the reducers return the dtype of their argument and the argument
reducers return `DTYPE_INT32`. -/
def OperationState.dtype : OperationState → DType
  | .array _ dtype _ => dtype
  | .scalar _ => DType.DTYPE_INT32
  | .all_reducer _ argument => argument.dtype
  | .axis_reducer _ argument => argument.dtype
  | .argument_all_reducer _ _ => DType.DTYPE_INT32
  | .argument_axis_reducer _ _ => DType.DTYPE_INT32

/-- The method `is_dim_collapsible_with_dim_minus_one`: `AllReducerOperationState` returns
true and `AxisReducerOperationState` asks its argument about `dim - 1`. -/
def OperationState.is_dim_collapsible_with_dim_minus_one : OperationState → Int → Bool
  | .array _ _ collapsible, _ => collapsible
  | .scalar _, _ => false
  | .all_reducer _ _, _ => true
  | .axis_reducer _ argument, dim => argument.is_dim_collapsible_with_dim_minus_one (dim - 1)
  | .argument_all_reducer _ _, _ => true
  | .argument_axis_reducer _ argument, dim =>
    argument.is_dim_collapsible_with_dim_minus_one (dim - 1)

/-- Modelled from the spec: two adjacent axes of a buffer collapsed "into one", the axis
`dim - 1` taking the product of the two sizes and the axis `dim` being removed. -/
def collapse_axes (bshape : List Int) (dim : Int) : List Int :=
  if 1 ≤ dim ∧ dim < (bshape.length : Int) then
    (bshape.set (dim.toNat - 1)
      (bshape.getD (dim.toNat - 1) 0 * bshape.getD dim.toNat 0)).eraseIdx dim.toNat
  else bshape

/-- The method `collapse_dim_with_dim_minus_one`: `AxisReducerOperationState` and
`ArgumentAxisReducerOperationState` build the same reducer over their argument collapsed at
`dim - 1`. -/
def OperationState.collapse_dim_with_dim_minus_one : OperationState → Int → OperationState
  | .array bshape dtype collapsible, dim => .array (collapse_axes bshape dim) dtype collapsible
  | .scalar value, _ => .scalar value
  | .all_reducer functor_name argument, _ => .all_reducer functor_name argument
  | .axis_reducer functor_name argument, dim =>
    .axis_reducer functor_name (argument.collapse_dim_with_dim_minus_one (dim - 1))
  | .argument_all_reducer functor_name argument, _ =>
    .argument_all_reducer functor_name argument
  | .argument_axis_reducer functor_name argument, dim =>
    .argument_axis_reducer functor_name (argument.collapse_dim_with_dim_minus_one (dim - 1))

/-- The method `transpose`: `AllReducerOperationState::transpose` returns the node itself,
and the axis reducers transpose their argument by the permutation extended with the last
axis. Modelled from the spec for a buffer: transposing "permutes axes", the axis `i` of the
result being the axis `permutation[i]` of the buffer as in `Array::dimshuffle`, and only the
identity leaves the layout as it is. -/
def OperationState.transpose : OperationState → List Int → OperationState
  | .array bshape dtype collapsible, permutation =>
    .array (permutation.map (fun p => bshape.getD p.toNat 0)) dtype
      (collapsible &&
        decide (permutation = (List.range permutation.length).map (fun (i : Nat) => (i : Int))))
  | .scalar value, _ => .scalar value
  | .all_reducer functor_name argument, _ => .all_reducer functor_name argument
  | .axis_reducer functor_name argument, permutation =>
    .axis_reducer functor_name (argument.transpose (permutation ++ [(permutation.length : Int)]))
  | .argument_all_reducer functor_name argument, _ =>
    .argument_all_reducer functor_name argument
  | .argument_axis_reducer functor_name argument, permutation =>
    .argument_axis_reducer functor_name
      (argument.transpose (permutation ++ [(permutation.length : Int)]))

/-- Embedding of `op2::all_reduce`. -/
def all_reduce (a : OperationState) (reducer_name : String) : OperationState :=
  .all_reducer reducer_name a

/-- The first loop of `op2::axis_reduce`: negative axes are shifted by `ndim` and every axis
is asserted to lie in range (`ndim` is not zero here). -/
def normalize_axes (ndim : Int) : List Int → Except String (List Int)
  | [] => .ok []
  | axis :: axes =>
    let normalized := if axis < 0 then axis + ndim else axis
    if ¬ (normalized ≥ 0 ∧ normalized < ndim) then
      .error "Reduction axis must strictly positive and less than the number of dimensions"
    else
      match normalize_axes ndim axes with
      | .error e => .error e
      | .ok rest => .ok (normalized :: rest)

/-- The second loop of `op2::axis_reduce` over the sorted axes: an axis marked before is a
duplicate. -/
def mark_reduced_dims : List Int → List Bool → Except String (List Bool)
  | [], reduced_dims => .ok reduced_dims
  | axis :: axes, reduced_dims =>
    if reduced_dims.getD axis.toNat false then
      .error "axis_reduce received duplicate axes to operate on"
    else mark_reduced_dims axes (reduced_dims.set axis.toNat true)

/-- The last loop of `op2::axis_reduce`, with `remaining` for
`num_low_axes_to_reduce - axes_used_up`. -/
def reduce_low_axes (reducer_name : String) : Nat → Int → OperationState → OperationState
  | 0, _, res => res
  | remaining + 1, collapsed_ndim, res =>
    let next :=
      if remaining + 1 = 1 then OperationState.axis_reducer reducer_name res
      else if res.is_dim_collapsible_with_dim_minus_one collapsed_ndim then
        res.collapse_dim_with_dim_minus_one collapsed_ndim
      else OperationState.axis_reducer reducer_name res
    reduce_low_axes reducer_name remaining (collapsed_ndim - 1) next

/-- Embedding of `op2::axis_reduce`. -/
def axis_reduce (a : OperationState) (reducer_name : String) (axes : List Int) :
    Except String OperationState :=
  if axes.length = 0 then .ok a
  else if a.ndim = 0 then .ok a
  else
    match normalize_axes a.ndim axes with
    | .error e => .error e
    | .ok normalized =>
      let normalized_axes := normalized.insertionSort (fun x y => x ≤ y)
      match mark_reduced_dims normalized_axes (List.replicate a.ndim.toNat false) with
      | .error e => .error e
      | .ok reduced_dims =>
        if (normalized_axes.length : Int) = a.ndim then .ok (all_reduce a reducer_name)
        else
          let num_low_dims := (reduced_dims.reverse.takeWhile (fun b => b)).length
          let all_reductions_are_low_dim := decide (num_low_dims = normalized_axes.length)
          let new_axes_order : List Int :=
            ((List.range reduced_dims.length).filter (fun i => !reduced_dims.getD i false) ++
              (List.range reduced_dims.length).filter (fun i => reduced_dims.getD i false)).map
              (fun (i : Nat) => (i : Int))
          let res := if !all_reductions_are_low_dim then a.transpose new_axes_order else a
          .ok (reduce_low_axes reducer_name normalized_axes.length (a.ndim - 1) res)

/-- Embedding of `op2::argument_all_reduce`. -/
def argument_all_reduce (a : OperationState) (reducer_name : String) : OperationState :=
  .argument_all_reducer reducer_name a

/-- Embedding of `op2::argument_axis_reduce`. -/
def argument_axis_reduce (a : OperationState) (reducer_name : String) (axis : Int) :
    Except String OperationState :=
  if a.ndim = 0 then .ok (.scalar 0)
  else
    let normalized_axis := if axis < 0 then axis + a.ndim else axis
    if ¬ (normalized_axis ≥ 0 ∧ normalized_axis < a.ndim) then
      .error "Reduction axis must strictly positive and less than the number of dimensions"
    else if a.ndim = 1 then .ok (argument_all_reduce a reducer_name)
    else
      let res :=
        if normalized_axis ≠ a.ndim - 1 then
          let axes := (List.range a.ndim.toNat).map (fun (i : Nat) => (i : Int))
          let axes1 := axes.set (axes.length - 1) normalized_axis
          let axes2 := axes1.set normalized_axis.toNat ((axes.length : Int) - 1)
          a.transpose axes2
        else a
      .ok (.argument_axis_reducer reducer_name res)

/-- Embedding of `op2::argmax(x, axis)`. -/
def argmax (x : OperationState) (axis : Int) : Except String OperationState :=
  argument_axis_reduce x "reducers::maximum" axis

/-- Embedding of `op2::argmin(x, axis)`. -/
def argmin (x : OperationState) (axis : Int) : Except String OperationState :=
  argument_axis_reduce x "reducers::minimum" axis

/-- Embedding of `op2::sum(x, axes)`. -/
def sum (x : OperationState) (axes : List Int) : Except String OperationState :=
  axis_reduce x "reducers::sum" axes

/-- The reading of the specification: an axis "after adding n to negative values". -/
def normalize_axis_value (ndim axis : Int) : Int :=
  if axis < 0 then axis + ndim else axis

/-- The reading of the specification: the shape "with the reduced axes removed and the
remaining axes in their original order". -/
def remove_axes (shape : List Int) (axes : List Int) : List Int :=
  ((List.range shape.length).filter (fun (i : Nat) => decide ((i : Int) ∉ axes))).map
    (fun (i : Nat) => shape.getD i 0)

/-! # Theorems -/

/-! ## The range of `int` -/

theorem wrap_int_of_fits (x : Int) (h : fits_int x = true) : wrap_int x = x := by
  simp only [fits_int, Bool.and_eq_true, decide_eq_true_eq] at h
  unfold wrap_int
  omega

theorem fits_int_wrap_int (x : Int) : fits_int (wrap_int x) = true := by
  simp only [fits_int, wrap_int, Bool.and_eq_true, decide_eq_true_eq]
  omega

theorem fits_int_iff (x : Int) :
    fits_int x = true ↔ -2147483648 ≤ x ∧ x < 2147483648 := by
  simp [fits_int]

theorem wrap_int_mul_left (a b : Int) : wrap_int (wrap_int a * b) = wrap_int (a * b) := by
  have hq : wrap_int a = a - 4294967296 * ((a + 2147483648) / 4294967296) := by
    unfold wrap_int
    omega
  have hsum : (a - 4294967296 * ((a + 2147483648) / 4294967296)) * b + 2147483648 =
      (a * b + 2147483648) + 4294967296 * (-(((a + 2147483648) / 4294967296) * b)) := by
    ring
  rw [hq]
  unfold wrap_int
  rw [hsum, Int.add_mul_emod_self_left]

theorem wrap_int_mul_right (a b : Int) : wrap_int (a * wrap_int b) = wrap_int (a * b) := by
  rw [mul_comm, wrap_int_mul_left, mul_comm]

theorem wrap_int_wrap_int (a : Int) : wrap_int (wrap_int a) = wrap_int a :=
  wrap_int_of_fits _ (fits_int_wrap_int a)

/-! ## Volumes -/

theorem exact_volume_foldl (xs : List Int) (k : Int) :
    xs.foldl (fun acc x => acc * x) k = k * xs.foldr (fun x acc => x * acc) 1 := by
  induction xs generalizing k with
  | nil => simp
  | cons x xs ih => simp only [List.foldl_cons, List.foldr_cons, ih]; ring

theorem exact_volume_eq_foldr (xs : List Int) :
    exact_volume xs = xs.foldr (fun x acc => x * acc) 1 := by
  unfold exact_volume; rw [exact_volume_foldl]; ring

theorem exact_volume_cons (x : Int) (xs : List Int) :
    exact_volume (x :: xs) = x * exact_volume xs := by
  simp [exact_volume_eq_foldr]

theorem exact_volume_eq_prod (xs : List Int) : exact_volume xs = xs.prod := by
  induction xs with
  | nil => rfl
  | cons x xs ih => rw [exact_volume_cons, ih, List.prod_cons]

theorem hypercube_volume_foldl (xs : List Int) :
    ∀ k : Int, xs.foldl (fun acc x => wrap_int (acc * x)) (wrap_int k) =
      wrap_int (xs.foldl (fun acc x => acc * x) k) := by
  induction xs with
  | nil => intro k; rfl
  | cons x xs ih =>
    intro k
    simp only [List.foldl_cons]
    rw [wrap_int_mul_left, ih]

/-- The volume that the code computes is the mathematical product reduced to an `int`. -/
theorem hypercube_volume_eq_wrap (shape : List Int) :
    hypercube_volume shape = wrap_int (exact_volume shape) := by
  unfold hypercube_volume exact_volume
  exact hypercube_volume_foldl shape 1

/-- The volume that the code computes is the mathematical product when the product fits. -/
theorem hypercube_volume_of_fits (shape : List Int)
    (hfit : fits_int (exact_volume shape) = true) :
    hypercube_volume shape = exact_volume shape := by
  rw [hypercube_volume_eq_wrap, wrap_int_of_fits _ hfit]

theorem fits_int_hypercube_volume (shape : List Int) :
    fits_int (hypercube_volume shape) = true := by
  rw [hypercube_volume_eq_wrap]
  exact fits_int_wrap_int _

/-! ## The wildcard of a reshape target -/

theorem wildcards_cons_neg (x : Int) (xs : List Int) (hx : x < 0) :
    wildcards (x :: xs) = x :: wildcards xs := by
  simp [wildcards, hx]

theorem wildcards_cons_nonneg (x : Int) (xs : List Int) (hx : ¬ x < 0) :
    wildcards (x :: xs) = wildcards xs := by
  simp [wildcards, hx]

theorem known_volume_cons_neg (x : Int) (xs : List Int) (hx : x < 0) :
    known_volume (x :: xs) = known_volume xs := by
  have : ¬ 0 ≤ x := by omega
  simp [known_volume, this]

theorem known_volume_cons_nonneg (x : Int) (xs : List Int) (hx : ¬ x < 0) :
    known_volume (x :: xs) = x * known_volume xs := by
  have : 0 ≤ x := by omega
  simp [known_volume, this]

theorem normalize_shape_loop_spec (xs : List Int) :
    ∀ (i : Nat) (u k : Int), wrap_int k = k →
      normalize_shape_loop xs i u k =
        if (wildcards xs).length = 0 then .ok (u, wrap_int (k * known_volume xs))
        else if u = -1 ∧ (wildcards xs).length = 1 then
          .ok (((i + xs.findIdx (fun x => decide (x < 0)) : Nat) : Int),
            wrap_int (k * known_volume xs))
        else .error "new shape can only specify one unknown dimension" := by
  induction xs with
  | nil => intro i u k hk; simp [normalize_shape_loop, wildcards, known_volume, hk]
  | cons x xs ih =>
    intro i u k hk
    unfold normalize_shape_loop
    by_cases hx : x < 0
    · rw [wildcards_cons_neg x xs hx, known_volume_cons_neg x xs hx]
      simp only [hx, if_true]
      by_cases hu : u = -1
      · simp only [hu, if_true, ih _ _ _ hk]
        have hne : ¬ ((i : Int) = -1) := by omega
        by_cases hw : (wildcards xs).length = 0
        · simp [hw, List.findIdx_cons, hx]
        · simp [hw, hne]
      · simp [hu]
    · rw [wildcards_cons_nonneg x xs hx, known_volume_cons_nonneg x xs hx]
      simp only [hx, if_false, ih _ _ _ (wrap_int_wrap_int _), wrap_int_mul_left, mul_assoc]
      have hidx : (x :: xs).findIdx (fun x => decide (x < 0)) =
          xs.findIdx (fun x => decide (x < 0)) + 1 := by
        simp [List.findIdx_cons, hx]
      rw [hidx]
      have hcast : (((i + 1 + xs.findIdx (fun x => decide (x < 0)) : Nat) : Int)) =
          ((i + (xs.findIdx (fun x => decide (x < 0)) + 1) : Nat) : Int) := by
        congr 1; omega
      rw [hcast]

theorem normalize_shape_eq (cur ns : List Int) :
    normalize_shape cur ns =
      if (wildcards ns).length = 0 then .ok ns
      else if (wildcards ns).length = 1 then
        if wrap_int (known_volume ns) = 0 then .ok ns
        else if Int.tmod (hypercube_volume cur) (wrap_int (known_volume ns)) = 0 then
          .ok (ns.set (ns.findIdx (fun x => decide (x < 0)))
            (Int.tdiv (hypercube_volume cur) (wrap_int (known_volume ns))))
        else .error "cannot deduce unknown dimension"
      else .error "new shape can only specify one unknown dimension" := by
  unfold normalize_shape
  rw [normalize_shape_loop_spec _ _ _ _ (by decide)]
  by_cases h0 : (wildcards ns).length = 0
  · simp [h0]
  · by_cases h1 : (wildcards ns).length = 1
    · have hne : ¬ (((0 + ns.findIdx (fun x => decide (x < 0)) : Nat) : Int) = -1) := by
        omega
      simp only [h0, h1, if_false, if_true, true_and, one_mul, ne_eq, hne, not_false_eq_true]
      simp
    · simp [h0, h1]

theorem filter_nonneg_of_all (xs : List Int) (h : ∀ x ∈ xs, 0 ≤ x) :
    wildcards xs = [] ∧ known_volume xs = exact_volume xs := by
  constructor
  · simp only [wildcards, List.filter_eq_nil_iff]
    intro x hx; have := h x hx; simp; omega
  · have : xs.filter (fun x => decide (0 ≤ x)) = xs := by
      rw [List.filter_eq_self]
      intro x hx; have := h x hx; simpa using this
    simp [known_volume, this, exact_volume_eq_foldr]

theorem one_wildcard_at (ns : List Int) :
    ∀ (k : Nat) (hk : k < ns.length), ns[k] < 0 →
      (∀ (j : Nat) (hj : j < ns.length), j ≠ k → 0 ≤ ns[j]) →
      (wildcards ns).length = 1 ∧ ns.findIdx (fun x => decide (x < 0)) = k ∧
        known_volume ns = exact_volume (ns.eraseIdx k) := by
  induction ns with
  | nil => intro k hk; simp at hk
  | cons x xs ih =>
    intro k hk hneg hoth
    cases k with
    | zero =>
      simp only [List.getElem_cons_zero] at hneg
      have hall : ∀ y ∈ xs, 0 ≤ y := by
        intro y hy
        obtain ⟨j, hj, rfl⟩ := List.getElem_of_mem hy
        have := hoth (j + 1) (by simp; omega) (by omega)
        simpa using this
      obtain ⟨hw, hkv⟩ := filter_nonneg_of_all xs hall
      refine ⟨?_, ?_, ?_⟩
      · simp [wildcards, hneg] at hw ⊢; simpa using hw
      · simp [List.findIdx_cons, hneg]
      · simp [known_volume, hneg] at hkv ⊢; exact hkv
    | succ k =>
      have hx : 0 ≤ x := by simpa using hoth 0 (by simp) (by omega)
      have hx' : ¬ x < 0 := by omega
      simp only [List.getElem_cons_succ] at hneg
      have hk' : k < xs.length := by simpa using hk
      obtain ⟨h1, h2, h3⟩ := ih k hk' hneg (by
        intro j hj hjk
        have := hoth (j + 1) (by simp; omega) (by omega)
        simpa using this)
      refine ⟨?_, ?_, ?_⟩
      · simpa [wildcards, hx'] using h1
      · simp [List.findIdx_cons, hx', h2]
      · simp [known_volume, hx, exact_volume_cons] at h3 ⊢
        exact Or.inl h3

theorem exact_volume_set (ns : List Int) :
    ∀ (k : Nat) (_ : k < ns.length) (v : Int),
      exact_volume (ns.set k v) = v * exact_volume (ns.eraseIdx k) := by
  induction ns with
  | nil => intro k hk; simp at hk
  | cons x xs ih =>
    intro k hk v
    cases k with
    | zero => simp [exact_volume_cons]
    | succ k =>
      have hk' : k < xs.length := by simpa using hk
      simp only [List.set_cons_succ, List.eraseIdx_cons_succ, exact_volume_cons, ih k hk' v]
      ring

/-- C7, counterexample: the volume of `current_shape = {65536, 65536}` is `2^32`, and the
other entry `2` of `new_shape = {-1, 2}` divides it, so the claim gives `{2147483648, 2}`;
the code computes the volume as the `int` `0` and returns `{0, 2}`. -/
theorem normalize_shape_wraps_current_volume :
    exact_volume [65536, 65536] = 4294967296 ∧
      exact_volume (([-1, 2] : List Int).eraseIdx 0) = 2 ∧
      exact_volume (([-1, 2] : List Int).eraseIdx 0) ∣ exact_volume [65536, 65536] ∧
      ([-1, 2] : List Int).set 0
          (exact_volume [65536, 65536] / exact_volume (([-1, 2] : List Int).eraseIdx 0)) =
        [2147483648, 2] ∧
      hypercube_volume [65536, 65536] = 0 ∧
      normalize_shape [65536, 65536] [-1, 2] = .ok [0, 2] ∧
      normalize_shape [65536, 65536] [-1, 2] ≠
        .ok (([-1, 2] : List Int).set 0
          (exact_volume [65536, 65536] / exact_volume (([-1, 2] : List Int).eraseIdx 0))) := by
  refine ⟨by decide, by decide, by decide, by decide, by decide, rfl, ?_⟩
  intro h
  have h2 : ([0, 2] : List Int) = [2147483648, 2] := Except.ok.inj h
  exact absurd h2 (by decide)

/-- C7, amended. Wildcard resolution of `normalize_shape`: when `new_shape` has exactly one
negative entry, at position `k`, the volume `V` of `current_shape` and the product `K` of
the other entries of `new_shape` fit in an `int`, and `K` is nonzero and divides `V`, the
result is `new_shape` with entry `k` replaced by `V / K`, a shape of volume `V`; when
`new_shape` has no negative entry the result is `new_shape` unchanged. -/
theorem normalize_shape_wildcard_resolution (current_shape new_shape : List Int) :
    (∀ (k : Nat) (hk : k < new_shape.length), new_shape[k] < 0 →
      (∀ (j : Nat) (hj : j < new_shape.length), j ≠ k → 0 ≤ new_shape[j]) →
      fits_int (exact_volume current_shape) = true →
      fits_int (exact_volume (new_shape.eraseIdx k)) = true →
      exact_volume (new_shape.eraseIdx k) ≠ 0 →
      exact_volume (new_shape.eraseIdx k) ∣ exact_volume current_shape →
      normalize_shape current_shape new_shape =
          .ok (new_shape.set k
            (exact_volume current_shape / exact_volume (new_shape.eraseIdx k))) ∧
        exact_volume (new_shape.set k
            (exact_volume current_shape / exact_volume (new_shape.eraseIdx k))) =
          exact_volume current_shape ∧
        hypercube_volume (new_shape.set k
            (exact_volume current_shape / exact_volume (new_shape.eraseIdx k))) =
          hypercube_volume current_shape) ∧
    ((∀ x ∈ new_shape, 0 ≤ x) → normalize_shape current_shape new_shape = .ok new_shape) := by
  constructor
  · intro k hk hneg hoth hV hKfit hK hdvd
    obtain ⟨h1, h2, h3⟩ := one_wildcard_at new_shape k hk hneg hoth
    have hdiv : Int.tdiv (exact_volume current_shape) (exact_volume (new_shape.eraseIdx k))
        = exact_volume current_shape / exact_volume (new_shape.eraseIdx k) := by
      obtain ⟨c, hc⟩ := hdvd
      rw [hc, Int.mul_tdiv_cancel_left _ hK, Int.mul_ediv_cancel_left _ hK]
    have hset : exact_volume (new_shape.set k
        (exact_volume current_shape / exact_volume (new_shape.eraseIdx k))) =
          exact_volume current_shape := by
      rw [exact_volume_set new_shape k hk]
      exact Int.ediv_mul_cancel hdvd
    refine ⟨?_, hset, ?_⟩
    · rw [normalize_shape_eq, h1, h2, h3, wrap_int_of_fits _ hKfit,
        hypercube_volume_of_fits _ hV]
      simp [hK, Int.tmod_eq_zero_of_dvd hdvd, hdiv]
    · rw [hypercube_volume_eq_wrap, hset, hypercube_volume_eq_wrap]
  · intro hall
    obtain ⟨hw, _⟩ := filter_nonneg_of_all new_shape hall
    rw [normalize_shape_eq, hw]; simp

/-- C7, witness: the wildcard of `{2, -1, 3}` against the shape `{2, 3, 4}` resolves to `4`,
and `{4, 6}` is returned unchanged. -/
theorem normalize_shape_wildcard_resolution_witness :
    (normalize_shape [2, 3, 4] [2, -1, 3] = .ok [2, 4, 3] ∧
      exact_volume [2, 4, 3] = exact_volume [2, 3, 4] ∧
      hypercube_volume [2, 4, 3] = hypercube_volume [2, 3, 4]) ∧
    normalize_shape [2, 3, 4] [4, 6] = .ok [4, 6] :=
  ⟨(normalize_shape_wildcard_resolution [2, 3, 4] [2, -1, 3]).1 1 (by decide) (by decide)
      (by decide) (by decide) (by decide) (by decide) (by decide),
    (normalize_shape_wildcard_resolution [2, 3, 4] [4, 6]).2 (by decide)⟩

/-- C8, counterexample: `new_shape = {-1, 0}` has one wildcard and the product `0` of its
other entries does not divide the volume `6` of `current_shape = {6}`, yet
`normalize_shape` returns `{-1, 0}` without raising; and `new_shape = {-1, 3, 1431655766}`
has one wildcard and the product `4294967298` of its other entries does not divide `6`,
yet the code, whose `int` product is `2`, returns `{3, 3, 1431655766}`. -/
theorem normalize_shape_returns_on_nondividing_product :
    ((wildcards [-1, 0]).length = 1 ∧
      ¬ (known_volume [-1, 0] ∣ exact_volume [6]) ∧
      normalize_shape [6] [-1, 0] = .ok [-1, 0] ∧
      raises (normalize_shape [6] [-1, 0]) = false) ∧
    ((wildcards [-1, 3, 1431655766]).length = 1 ∧
      known_volume [-1, 3, 1431655766] = 4294967298 ∧
      ¬ (known_volume [-1, 3, 1431655766] ∣ exact_volume [6]) ∧
      normalize_shape [6] [-1, 3, 1431655766] = .ok [3, 3, 1431655766] ∧
      raises (normalize_shape [6] [-1, 3, 1431655766]) = false) := by
  refine ⟨⟨by decide, by decide, rfl, by decide⟩, ⟨by decide, by decide, by decide, rfl,
    by decide⟩⟩

/-- C8, amended: when the volume of `current_shape` and the product of the entries of
`new_shape` that are not wildcards fit in an `int`, `normalize_shape` raises exactly when
`new_shape` has more than one wildcard entry, or has one wildcard while the product of
its other entries is nonzero and does not divide the volume of `current_shape`; in
every other case it returns. -/
theorem normalize_shape_raises_iff (current_shape new_shape : List Int)
    (hV : fits_int (exact_volume current_shape) = true)
    (hK : fits_int (known_volume new_shape) = true) :
    raises (normalize_shape current_shape new_shape) = true ↔
      1 < (wildcards new_shape).length ∨
        ((wildcards new_shape).length = 1 ∧ known_volume new_shape ≠ 0 ∧
          ¬ known_volume new_shape ∣ exact_volume current_shape) := by
  rw [normalize_shape_eq, wrap_int_of_fits _ hK, hypercube_volume_of_fits _ hV]
  by_cases h0 : (wildcards new_shape).length = 0
  · simp [h0, raises]
  · by_cases h1 : (wildcards new_shape).length = 1
    · by_cases hK0 : known_volume new_shape = 0
      · simp [h1, hK0, raises]
      · by_cases hd : known_volume new_shape ∣ exact_volume current_shape
        · simp [h1, hK0, hd, Int.tmod_eq_zero_of_dvd hd, raises]
        · have hm : ¬ Int.tmod (exact_volume current_shape) (known_volume new_shape) = 0 :=
            fun h => hd (Int.dvd_of_tmod_eq_zero h)
          simp [h1, hK0, hd, hm, raises]
    · have : 1 < (wildcards new_shape).length := by omega
      simp [h0, h1, this, raises]

/-- C8, witness: against the shape `{6}`, `{-1, 4}` raises (`4` does not divide `6`). -/
theorem normalize_shape_raises_iff_witness :
    fits_int (exact_volume [6]) = true ∧ fits_int (known_volume [-1, 4]) = true ∧
    (raises (normalize_shape [6] [-1, 4]) = true ↔
      1 < (wildcards [-1, 4]).length ∨
        ((wildcards [-1, 4]).length = 1 ∧ known_volume [-1, 4] ≠ 0 ∧
          ¬ known_volume [-1, 4] ∣ exact_volume [6])) ∧
    raises (normalize_shape [6] [-1, 4]) = true :=
  ⟨by decide, by decide, normalize_shape_raises_iff [6] [-1, 4] (by decide) (by decide),
    by decide⟩
/-! ## Row-major strides -/

theorem exact_strides_aux_snd (xs : List Int) :
    (exact_strides_aux xs).2 = exact_volume xs := by
  induction xs with
  | nil => rfl
  | cons x xs ih => simp [exact_strides_aux, ih, exact_volume_cons, mul_comm]

theorem exact_trivial_strides_nil : exact_trivial_strides [] = [] := rfl

theorem exact_trivial_strides_cons (x : Int) (xs : List Int) :
    exact_trivial_strides (x :: xs) = exact_volume xs :: exact_trivial_strides xs := by
  simp [exact_trivial_strides, exact_strides_aux, exact_strides_aux_snd]

theorem exact_trivial_strides_length (xs : List Int) :
    (exact_trivial_strides xs).length = xs.length := by
  induction xs with
  | nil => rfl
  | cons x xs ih => simp [exact_trivial_strides_cons, ih]

theorem exact_volume_append (xs ys : List Int) :
    exact_volume (xs ++ ys) = exact_volume xs * exact_volume ys := by
  induction xs with
  | nil => simp [exact_volume]
  | cons x xs ih => simp [exact_volume_cons, ih, mul_assoc]

theorem exact_trivial_strides_concat (xs : List Int) (x : Int) :
    exact_trivial_strides (xs ++ [x]) =
      (exact_trivial_strides xs).map (fun d => d * x) ++ [1] := by
  induction xs with
  | nil => simp [exact_trivial_strides_cons, exact_trivial_strides_nil, exact_volume]
  | cons y ys ih =>
    simp [exact_trivial_strides_cons, ih, exact_volume_append, exact_volume_cons,
      exact_volume]

/-! ## The strides that the code computes -/

theorem trivial_strides_aux_eq (xs : List Int) :
    trivial_strides_aux xs =
      ((exact_strides_aux xs).1.map wrap_int, wrap_int (exact_strides_aux xs).2) := by
  induction xs with
  | nil => rfl
  | cons x xs ih => simp [trivial_strides_aux, exact_strides_aux, ih, wrap_int_mul_left]

/-- The strides that the code computes are the mathematical row-major strides reduced to
`int` values. -/
theorem shape_to_trivial_strides_eq_map (shape : List Int) :
    shape_to_trivial_strides shape = (exact_trivial_strides shape).map wrap_int := by
  simp [shape_to_trivial_strides, exact_trivial_strides, trivial_strides_aux_eq]

theorem shape_to_trivial_strides_nil : shape_to_trivial_strides [] = [] := rfl

theorem shape_to_trivial_strides_cons (x : Int) (xs : List Int) :
    shape_to_trivial_strides (x :: xs) = hypercube_volume xs :: shape_to_trivial_strides xs := by
  simp [shape_to_trivial_strides_eq_map, exact_trivial_strides_cons, hypercube_volume_eq_wrap]

theorem shape_to_trivial_strides_length (xs : List Int) :
    (shape_to_trivial_strides xs).length = xs.length := by
  simp [shape_to_trivial_strides_eq_map, exact_trivial_strides_length]

theorem exact_volume_pos (shape : List Int) (hpos : shape_strictly_positive shape = true) :
    0 < exact_volume shape := by
  induction shape with
  | nil => decide
  | cons s shape ih =>
    simp only [shape_strictly_positive, List.all_cons, Bool.and_eq_true, decide_eq_true_eq] at hpos
    rw [exact_volume_cons]
    exact mul_pos hpos.1 (ih (by simpa [shape_strictly_positive] using hpos.2))

theorem shape_strictly_positive_cons (s : Int) (shape : List Int) :
    shape_strictly_positive (s :: shape) = true ↔
      0 < s ∧ shape_strictly_positive shape = true := by
  simp [shape_strictly_positive]

theorem fits_int_exact_volume_tail (x : Int) (xs : List Int)
    (hpos : shape_strictly_positive (x :: xs) = true)
    (hfit : fits_int (exact_volume (x :: xs)) = true) :
    fits_int (exact_volume xs) = true := by
  rw [shape_strictly_positive_cons] at hpos
  have hv := exact_volume_pos xs hpos.2
  rw [exact_volume_cons, fits_int_iff] at hfit
  rw [fits_int_iff]
  constructor
  · omega
  · nlinarith [hpos.1, hfit.2]

/-- The strides that the code computes are the mathematical row-major strides when the
sizes are positive and their product fits in an `int`. -/
theorem shape_to_trivial_strides_of_fits (shape : List Int)
    (hpos : shape_strictly_positive shape = true)
    (hfit : fits_int (exact_volume shape) = true) :
    shape_to_trivial_strides shape = exact_trivial_strides shape := by
  induction shape with
  | nil => rfl
  | cons x xs ih =>
    have htail := fits_int_exact_volume_tail x xs hpos hfit
    rw [shape_strictly_positive_cons] at hpos
    rw [shape_to_trivial_strides_cons, exact_trivial_strides_cons, ih hpos.2 htail,
      hypercube_volume_of_fits _ htail]

theorem exact_volume_reverse (shape : List Int) :
    exact_volume shape.reverse = exact_volume shape := by
  rw [exact_volume_eq_prod, exact_volume_eq_prod, List.prod_reverse]

/-! ## The contiguity loop -/

theorem contiguous_memory_loop_self (shape : List Int) :
    ∀ ts : List Int, contiguous_memory_loop shape ts ts = true := by
  induction shape with
  | nil => intro ts; simp [contiguous_memory_loop]
  | cons s shape ih =>
    intro ts
    cases ts with
    | nil => simp [contiguous_memory_loop]
    | cons t ts => simp [contiguous_memory_loop, ih]

theorem contiguous_memory_loop_concat (shape : List Int) :
    ∀ (ts ns : List Int), shape.length = ts.length → shape.length = ns.length →
      ∀ (s t n : Int),
        contiguous_memory_loop (shape ++ [s]) (ts ++ [t]) (ns ++ [n]) =
          (contiguous_memory_loop shape ts ns && !(decide (1 < s) && decide (t ≠ n))) := by
  induction shape with
  | nil =>
    intro ts ns h1 h2 s t n
    have ht : ts = [] := List.length_eq_zero.mp h1.symm
    have hn : ns = [] := List.length_eq_zero.mp h2.symm
    subst ht; subst hn
    by_cases h : 1 < s ∧ t ≠ n
    · simp [contiguous_memory_loop, h]
    · simp only [List.nil_append, contiguous_memory_loop, h, if_false]
      simp only [not_and, not_not] at h
      simp
      by_cases hs : 1 < s
      · exact Or.inr (h hs)
      · exact Or.inl (by omega)
  | cons x shape ih =>
    intro ts ns h1 h2 s t n
    cases ts with
    | nil => simp at h1
    | cons t' ts =>
      cases ns with
      | nil => simp at h2
      | cons n' ns =>
        simp only [List.length_cons, add_left_inj] at h1 h2
        simp only [List.cons_append, contiguous_memory_loop]
        by_cases h : 1 < x ∧ t' ≠ n'
        · simp [h]
        · simp only [h, if_false]
          exact ih ts ns h1 h2 s t n

theorem contiguous_memory_loop_reverse (shape : List Int) :
    ∀ (ts ns : List Int), shape.length = ts.length → shape.length = ns.length →
      contiguous_memory_loop shape.reverse ts.reverse ns.reverse =
        contiguous_memory_loop shape ts ns := by
  induction shape with
  | nil => intro ts ns _ _; simp [contiguous_memory_loop]
  | cons x shape ih =>
    intro ts ns h1 h2
    cases ts with
    | nil => simp at h1
    | cons t ts =>
      cases ns with
      | nil => simp at h2
      | cons n ns =>
        simp only [List.length_cons, add_left_inj] at h1 h2
        simp only [List.reverse_cons]
        rw [contiguous_memory_loop_concat _ _ _ (by simpa using h1) (by simpa using h2),
          ih ts ns h1 h2]
        by_cases h : 1 < x ∧ t ≠ n
        · simp [contiguous_memory_loop, h]
        · simp only [contiguous_memory_loop, h, if_false]
          simp only [not_and, not_not] at h
          simp
          intro _
          by_cases hs : 1 < x
          · exact Or.inr (h hs)
          · exact Or.inl (by omega)

/-- The number of axes of size above one. -/
theorem exact_volume_eq_one_of_no_large (shape : List Int)
    (hpos : shape_strictly_positive shape = true)
    (h : (shape.filter (fun x => decide (1 < x))).length = 0) :
    exact_volume shape = 1 := by
  induction shape with
  | nil => rfl
  | cons x xs ih =>
    simp only [shape_strictly_positive, List.all_cons, Bool.and_eq_true, decide_eq_true_eq] at hpos
    by_cases hx : 1 < x
    · simp [hx] at h
    · simp only [hx, decide_False, List.filter_cons_of_neg, Bool.false_eq_true,
        not_false_eq_true] at h
      have hx1 : x = 1 := by omega
      rw [exact_volume_cons, ih (by simpa [shape_strictly_positive] using hpos.2) h, hx1]
      rfl

theorem transposed_contiguous_iff (shape : List Int) :
    ∀ acc : Int, 1 ≤ acc → shape_strictly_positive shape = true →
      (contiguous_memory_loop shape
          ((exact_trivial_strides shape.reverse).reverse.map (fun d => acc * d))
          (exact_trivial_strides shape) = true ↔
        ((shape.filter (fun x => decide (1 < x))).length = 0 ∨
          ((shape.filter (fun x => decide (1 < x))).length = 1 ∧ acc = 1))) := by
  induction shape with
  | nil => intro acc _ _; simp [contiguous_memory_loop]
  | cons x xs ih =>
    intro acc hacc hpos
    have hpos' := hpos
    simp only [shape_strictly_positive, List.all_cons, Bool.and_eq_true, decide_eq_true_eq] at hpos
    have hxs : shape_strictly_positive xs = true := by
      simpa [shape_strictly_positive] using hpos.2
    have hstep : (exact_trivial_strides (x :: xs).reverse).reverse.map (fun d => acc * d) =
        acc :: (exact_trivial_strides xs.reverse).reverse.map (fun d => (acc * x) * d) := by
      simp [exact_trivial_strides_concat, List.map_reverse, Function.comp_def]
      intro a _; ring
    rw [hstep, exact_trivial_strides_cons]
    simp only [contiguous_memory_loop]
    have hih := ih (acc * x) (by nlinarith [hpos.1]) hxs
    by_cases hx : 1 < x
    · have hne : acc * x ≠ 1 := by nlinarith
      simp only [hx, true_and, decide_True, List.filter_cons_of_pos, List.length_cons]
      by_cases hv : acc = exact_volume xs
      · simp only [hv, ne_eq, not_true_eq_false, if_false]
        rw [← hv, hih]
        constructor
        · rintro (h0 | ⟨_, h1⟩)
          · right
            refine ⟨by omega, ?_⟩
            rw [hv, exact_volume_eq_one_of_no_large xs hxs h0]
          · exact absurd h1 hne
        · rintro (h0 | ⟨h1, _⟩)
          · omega
          · left; omega
      · simp only [ne_eq, hv, not_false_eq_true, if_true, Bool.false_eq_true, false_iff]
        rintro (h0 | ⟨h1, h2⟩)
        · omega
        · apply hv
          rw [h2, exact_volume_eq_one_of_no_large xs hxs (by omega)]
    · have hx1 : x = 1 := by omega
      simp only [hx, false_and, if_false, decide_False, Bool.false_eq_true, not_false_eq_true,
        List.filter_cons_of_neg]
      rw [hih, hx1, mul_one]

/-! ## Transposition -/

theorem transpose_permutation_succ (k : Nat) :
    transpose_permutation (k + 1) = (k : Int) :: transpose_permutation k := by
  unfold transpose_permutation
  rw [List.range_succ_eq_map]
  simp only [List.map_cons, List.map_map, List.cons.injEq]
  constructor
  · simp
  · apply List.map_congr_left
    intro i _
    simp only [Function.comp]
    push_cast
    ring

theorem transpose_permutation_length (k : Nat) : (transpose_permutation k).length = k := by
  unfold transpose_permutation
  rw [List.length_map, List.length_range]

theorem dimshuffle_loop_transpose (A : List Int) :
    ∀ (SA : List Int), A.length = SA.length → (∀ x ∈ A, x ≠ -1) →
      ∀ (m : Nat) (SB : List Int),
        dimshuffle_loop (SA ++ SB) (transpose_permutation A.length)
            (A ++ List.replicate m (-1)) = .ok (A.reverse, SA.reverse) := by
  induction A using List.reverseRecOn with
  | nil =>
    intro SA hlen _ m SB
    have : SA = [] := List.length_eq_zero.mp hlen.symm
    subst this
    simp [transpose_permutation, dimshuffle_loop]
  | append_singleton A x ih =>
    intro SA hlen hne m SB
    rcases SA.eq_nil_or_concat with hnil | ⟨SA', y, rfl⟩
    · subst hnil; simp at hlen
    · simp only [List.concat_eq_append] at hlen ⊢
      have hlen' : A.length = SA'.length := by simpa using hlen
      have hx : x ≠ -1 := hne x (by simp)
      have hA : ∀ z ∈ A, z ≠ -1 := fun z hz => hne z (by simp [hz])
      have hpat : transpose_permutation (A ++ [x]).length =
          (A.length : Int) :: transpose_permutation A.length := by
        rw [List.length_append, List.length_singleton, transpose_permutation_succ]
      rw [hpat]
      unfold dimshuffle_loop
      have hnn : ¬ ((A.length : Int) < 0) := by omega
      have hget : (A ++ [x] ++ List.replicate m (-1)).getD A.length 0 = x := by
        rw [List.getD_eq_getElem?_getD, List.append_assoc,
          List.getElem?_append_right (le_refl _)]
        simp
      have hgetS : (SA' ++ [y] ++ SB).getD A.length 0 = y := by
        rw [List.getD_eq_getElem?_getD, List.append_assoc, hlen',
          List.getElem?_append_right (le_refl _)]
        simp
      have hset : (A ++ [x] ++ List.replicate m (-1)).set A.length (-1) =
          A ++ List.replicate (m + 1) (-1) := by
        rw [List.append_assoc, List.set_append_right _ _ (le_refl _)]
        simp [List.replicate_succ]
      have hrange : (0 : Int) ≤ (A.length : Int) ∧
          (A.length : Int) < ((A ++ [x] ++ List.replicate m (-1)).length : Int) := by
        constructor
        · omega
        · simp only [List.length_append, List.length_singleton, List.length_replicate]
          omega
      simp only [hnn, if_false, hrange, and_self, not_true_eq_false, Int.toNat_ofNat, hget, hx,
        hgetS, hset]
      have := ih SA' hlen' hA (m + 1) ([y] ++ SB)
      rw [← List.append_assoc] at this
      rw [this]
      simp

/-! ## Handles and the heap -/

theorem deref_of_state (a : Array) (h : Heap) (p : Nat) (st : ArrayState) (f : String)
    (hp : a.state = some p) (hst : h.states[p]? = some st) : a.deref h f = .ok st := by
  simp [Array.deref, hp, hst]

theorem alloc_state_lookup (h : Heap) (st : ArrayState) :
    (h.alloc_state st).1.state = some h.states.length ∧
      (h.alloc_state st).2.states[h.states.length]? = some st ∧
      (h.alloc_state st).2.memories = h.memories := by
  simp [Heap.alloc_state]

theorem contiguous_memory_of_state (a : Array) (h : Heap) (p : Nat) (st : ArrayState)
    (hp : a.state = some p) (hst : h.states[p]? = some st) :
    a.contiguous_memory h = .ok st.contiguous_memory := by
  simp [Array.contiguous_memory, hp, Array.deref, hst, Except.map]

theorem ndim_of_state (a : Array) (h : Heap) (p : Nat) (st : ArrayState)
    (hp : a.state = some p) (hst : h.states[p]? = some st) :
    a.ndim h = st.shape.length := by
  simp [Array.ndim, Array.deref, hp, hst]

theorem shape_strictly_positive_reverse (shape : List Int) :
    shape_strictly_positive shape.reverse = shape_strictly_positive shape := by
  simp [shape_strictly_positive, List.all_reverse]

theorem shape_strictly_positive_ne (shape : List Int)
    (hpos : shape_strictly_positive shape = true) : ∀ x ∈ shape, x ≠ -1 := by
  intro x hx
  simp only [shape_strictly_positive, List.all_eq_true, decide_eq_true_eq] at hpos
  have := hpos x hx
  omega

theorem from_memory_spec (shape : List Int) (m : Nat) (off : Int) (strides : List Int)
    (dt : DType) (h : Heap) (hpos : shape_strictly_positive shape = true)
    (hlen : strides = [] ∨ strides.length = shape.length) :
    ∃ cs, Array.from_memory shape m off strides dt h =
        .ok (h.alloc_state
          { shape := shape, memory := m, offset := off, strides := cs, dtype := dt }) ∧
      ((cs = [] ∧ (strides = [] ∨ strides = shape_to_trivial_strides shape)) ∨
        (cs = strides ∧ strides ≠ [] ∧ strides ≠ shape_to_trivial_strides shape)) := by
  unfold Array.from_memory compact_strides
  simp only [hpos, Bool.true_eq_false, if_false]
  rcases hlen with hnil | hlen
  · subst hnil
    exact ⟨[], by simp, Or.inl ⟨rfl, Or.inl rfl⟩⟩
  · by_cases hn : strides.length = 0
    · have hnil : strides = [] := List.length_eq_zero.mp hn
      subst hnil
      exact ⟨[], by simp, Or.inl ⟨rfl, Or.inl rfl⟩⟩
    · have hne : strides ≠ [] := fun hh => hn (by simp [hh])
      by_cases heq : shape_to_trivial_strides shape = strides
      · refine ⟨[], ?_, Or.inl ⟨rfl, Or.inr heq.symm⟩⟩
        rw [if_neg hn, if_neg (by simpa using hlen), if_pos heq]
        simp
      · refine ⟨strides, ?_, Or.inr ⟨rfl, hne, fun hh => heq hh.symm⟩⟩
        rw [if_neg hn, if_neg (by simpa using hlen), if_neg heq]
        simp [hlen]

theorem contiguous_after_compaction (shape : List Int) (m : Nat) (off : Int)
    (strides cs : List Int) (dt : DType)
    (hcs : (cs = [] ∧ (strides = [] ∨ strides = shape_to_trivial_strides shape)) ∨
        (cs = strides ∧ strides ≠ [] ∧ strides ≠ shape_to_trivial_strides shape)) :
    ({ shape := shape, memory := m, offset := off, strides := cs, dtype := dt } :
        ArrayState).contiguous_memory =
      contiguous_memory_loop shape (shape_to_trivial_strides shape) strides := by
  rcases hcs with ⟨hnil, hs | hs⟩ | ⟨heq, hne, _⟩
  · subst hnil; subst hs
    cases shape with
    | nil => simp [ArrayState.contiguous_memory, contiguous_memory_loop]
    | cons x xs =>
      simp [ArrayState.contiguous_memory, contiguous_memory_loop, shape_to_trivial_strides_cons]
  · subst hnil
    rw [hs, contiguous_memory_loop_self]
    simp [ArrayState.contiguous_memory]
  · subst heq
    have : cs.isEmpty = false := by
      cases cs with
      | nil => exact absurd rfl hne
      | cons _ _ => rfl
    simp [ArrayState.contiguous_memory, this]

/-- The transpose of a fresh array whose number of elements fits in an `int`: its
descriptor and its contiguity. -/
theorem transpose_of_trivial (a : Array) (h : Heap) (p : Nat) (st : ArrayState)
    (hp : a.state = some p) (hst : h.states[p]? = some st) (hstr : st.strides = [])
    (hpos : shape_strictly_positive st.shape = true)
    (hfit : fits_int (exact_volume st.shape) = true) :
    ∃ t h2, a.transpose h = .ok (t, h2) ∧
      t.contiguous_memory h2 =
        .ok (decide ((st.shape.filter (fun x => decide (1 < x))).length ≤ 1)) := by
  have hts : shape_to_trivial_strides st.shape = exact_trivial_strides st.shape :=
    shape_to_trivial_strides_of_fits _ hpos hfit
  have htr : shape_to_trivial_strides st.shape.reverse =
      exact_trivial_strides st.shape.reverse :=
    shape_to_trivial_strides_of_fits _ (by rw [shape_strictly_positive_reverse]; exact hpos)
      (by rw [exact_volume_reverse]; exact hfit)
  have hloop := dimshuffle_loop_transpose st.shape (exact_trivial_strides st.shape)
    (by rw [exact_trivial_strides_length]) (shape_strictly_positive_ne _ hpos) 0 []
  simp only [List.replicate_zero, List.append_nil] at hloop
  have hns : st.normalized_strides = exact_trivial_strides st.shape := by
    simp [ArrayState.normalized_strides, hstr, hts]
  have hkey : contiguous_memory_loop st.shape.reverse
      (exact_trivial_strides st.shape.reverse) (exact_trivial_strides st.shape).reverse =
        decide ((st.shape.filter (fun x => decide (1 < x))).length ≤ 1) := by
    have h1 := contiguous_memory_loop_reverse st.shape
      (exact_trivial_strides st.shape.reverse).reverse (exact_trivial_strides st.shape)
      (by simp [exact_trivial_strides_length]) (by simp [exact_trivial_strides_length])
    rw [List.reverse_reverse] at h1
    rw [h1]
    have h2 := transposed_contiguous_iff st.shape 1 (le_refl 1) hpos
    simp only [one_mul, List.map_id', and_true] at h2
    rw [Bool.eq_iff_iff, h2, decide_eq_true_eq]
    omega
  obtain ⟨cs, hfm, hcs⟩ := from_memory_spec st.shape.reverse st.memory st.offset
    (exact_trivial_strides st.shape).reverse st.dtype h
    (by rw [shape_strictly_positive_reverse]; exact hpos)
    (Or.inr (by simp [exact_trivial_strides_length]))
  have hl := alloc_state_lookup h
    { shape := st.shape.reverse, memory := st.memory, offset := st.offset, strides := cs,
      dtype := st.dtype }
  generalize h.alloc_state
    { shape := st.shape.reverse, memory := st.memory, offset := st.offset, strides := cs,
      dtype := st.dtype } = X at hfm hl
  refine ⟨X.1, X.2, ?_, ?_⟩
  · unfold Array.transpose Array.dimshuffle
    rw [ndim_of_state a h p st hp hst, transpose_permutation_length]
    simp only [ne_eq, not_true_eq_false, if_false, deref_of_state a h p st _ hp hst, hns, hloop]
    exact hfm
  · rw [contiguous_memory_of_state _ _ _ _ hl.1 hl.2.1,
      contiguous_after_compaction _ _ _ _ _ _ hcs, htr, hkey]

/-- C3, amended: a freshly constructed array whose number of elements fits in an `int` is
contiguous, its transpose exists, and the transpose is contiguous exactly when at most
one axis has a size above one; so `contiguous_memory()` of the transpose is false
exactly for the arrays with at least two axes wider than one. -/
theorem fresh_array_contiguity (shape : List Int) (dtype : DType) (contents : Int → Int)
    (h : Heap) (hpos : shape_strictly_positive shape = true)
    (hfit : fits_int (exact_volume shape) = true) :
    ∃ a h1, Array.fresh shape dtype contents h = .ok (a, h1) ∧
      a.contiguous_memory h1 = .ok true ∧
      ∃ t h2, a.transpose h1 = .ok (t, h2) ∧
        t.contiguous_memory h2 =
          .ok (decide ((shape.filter (fun x => decide (1 < x))).length ≤ 1)) := by
  have hfresh : Array.fresh shape dtype contents h =
      .ok ((h.alloc_memory contents).2.alloc_state
        { shape := shape, memory := (h.alloc_memory contents).1, offset := 0, strides := [],
          dtype := dtype }) := by
    simp [Array.fresh, Array.initialize_shape, hpos]
  have hl := alloc_state_lookup (h.alloc_memory contents).2
    { shape := shape, memory := (h.alloc_memory contents).1, offset := 0, strides := [],
      dtype := dtype }
  generalize (h.alloc_memory contents).2.alloc_state
    { shape := shape, memory := (h.alloc_memory contents).1, offset := 0, strides := [],
      dtype := dtype } = X at hfresh hl
  refine ⟨X.1, X.2, hfresh, ?_, ?_⟩
  · rw [contiguous_memory_of_state _ _ _ _ hl.1 hl.2.1]
    simp [ArrayState.contiguous_memory]
  · exact transpose_of_trivial _ _ _ _ hl.1 hl.2.1 rfl hpos hfit

/-- C3, counterexample: the transpose of the fresh vector `Array({3})` is contiguous; and
the transpose of the fresh `Array({9, 954437177, 9})`, which has three axes wider than
one, is contiguous as well: `9 * 954437177` is `2^33 + 1`, so the `int` strides of the
array are `{1, 9, 1}`, those of the reversed shape too, and the constructor drops them. -/
theorem transpose_of_fresh_array_is_contiguous :
    (∃ a h1 t h2, Array.fresh [3] DType.DTYPE_FLOAT (fun _ => 0) Heap.empty = .ok (a, h1) ∧
      a.transpose h1 = .ok (t, h2) ∧ t.contiguous_memory h2 = .ok true) ∧
    (∃ a h1 t h2,
      Array.fresh [9, 954437177, 9] DType.DTYPE_FLOAT (fun _ => 0) Heap.empty = .ok (a, h1) ∧
      a.normalized_strides h1 = .ok [1, 9, 1] ∧
      a.transpose h1 = .ok (t, h2) ∧ t.strides h2 = .ok [] ∧
      t.contiguous_memory h2 = .ok true) :=
  ⟨⟨_, _, _, _, rfl, rfl, rfl⟩, ⟨_, _, _, _, rfl, rfl, rfl, rfl, rfl⟩⟩

/-- C3, witness: the fresh array `Array({3, 2})` of the test `ascontiguousarray` is
contiguous and its transpose is not. -/
theorem fresh_array_contiguity_witness :
    shape_strictly_positive [3, 2] = true ∧ fits_int (exact_volume [3, 2]) = true ∧
    ∃ a h1, Array.fresh [3, 2] DType.DTYPE_FLOAT (fun _ => 0) Heap.empty = .ok (a, h1) ∧
      a.contiguous_memory h1 = .ok true ∧
      ∃ t h2, a.transpose h1 = .ok (t, h2) ∧ t.contiguous_memory h2 = .ok false :=
  ⟨by decide, by decide,
    fresh_array_contiguity [3, 2] DType.DTYPE_FLOAT (fun _ => 0) Heap.empty (by decide)
      (by decide)⟩

/-! ## Contiguous views -/

theorem strided_offset_of_contiguous (shape : List Int) :
    ∀ (ts ns idx : List Int), shape.length = ts.length → shape.length = ns.length →
      contiguous_memory_loop shape ts ns = true → in_bounds idx shape = true →
      strided_offset idx ns = strided_offset idx ts := by
  induction shape with
  | nil =>
    intro ts ns idx h1 h2 _ _
    have ht : ts = [] := List.length_eq_zero.mp h1.symm
    have hn : ns = [] := List.length_eq_zero.mp h2.symm
    subst ht; subst hn; rfl
  | cons s shape ih =>
    intro ts ns idx h1 h2 hc hb
    cases ts with
    | nil => simp at h1
    | cons t ts =>
      cases ns with
      | nil => simp at h2
      | cons n ns =>
        cases idx with
        | nil => simp [in_bounds] at hb
        | cons i idx =>
          simp only [List.length_cons, add_left_inj] at h1 h2
          simp only [in_bounds, Bool.and_eq_true, decide_eq_true_eq] at hb
          simp only [contiguous_memory_loop] at hc
          by_cases hbad : 1 < s ∧ t ≠ n
          · simp [hbad] at hc
          · simp only [hbad, if_false] at hc
            simp only [strided_offset, ih ts ns idx h1 h2 hc hb.2.2]
            by_cases hs : 1 < s
            · have : t = n := by
                by_contra hne
                exact hbad ⟨hs, hne⟩
              rw [this]
            · have : i = 0 := by omega
              simp [this]

theorem element_offset_of_contiguous (st : ArrayState) (idx : List Int)
    (hwf : st.well_formed = true) (hc : st.contiguous_memory = true)
    (hb : in_bounds idx st.shape = true) :
    st.element_offset idx = st.offset + strided_offset idx (shape_to_trivial_strides st.shape) := by
  unfold ArrayState.element_offset ArrayState.normalized_strides
  by_cases hs : st.strides.length > 0
  · simp only [hs, if_true]
    have hne : st.strides.isEmpty = false := by
      cases hstr : st.strides with
      | nil => simp [hstr] at hs
      | cons _ _ => rfl
    simp only [ArrayState.well_formed, hne, Bool.false_or, Bool.and_eq_true,
      decide_eq_true_eq] at hwf
    simp only [ArrayState.contiguous_memory, hne, Bool.false_eq_true, if_false] at hc
    rw [strided_offset_of_contiguous st.shape _ _ idx
      (shape_to_trivial_strides_length _).symm hwf.2.symm hc hb]
  · simp [hs]

theorem set_strides_lookup (h : Heap) (p : Nat) (st : ArrayState) (strides : List Int)
    (hst : h.states[p]? = some st) :
    (h.set_strides p strides).states[p]? = some { st with strides := strides } ∧
      (h.set_strides p strides).memories = h.memories := by
  have hlt : p < h.states.length := by
    by_contra hge
    rw [List.getElem?_eq_none (by omega)] at hst
    cases hst
  simp [Heap.set_strides, hst, List.getElem?_set, hlt]

/-- C9. `ascontiguousarray` on a contiguous array: the call returns the same handle; after
it the descriptor has the same memory block, shape and offset and no strides, the
memory blocks are untouched, and every in-bounds multi-index has the same element
offset as before the call. -/
theorem ascontiguousarray_of_contiguous (a : Array) (h : Heap) (st : ArrayState)
    (hst : a.points_to h st) (hwf : st.well_formed = true)
    (hc : a.contiguous_memory h = .ok true) :
    ∃ h1 st1, a.ascontiguousarray h = .ok (a, h1) ∧ a.points_to h1 st1 ∧
      st1.memory = st.memory ∧ h1.memories = h.memories ∧
      st1.shape = st.shape ∧ st1.offset = st.offset ∧ st1.strides = [] ∧
      ∀ idx, in_bounds idx st.shape = true → st1.element_offset idx = st.element_offset idx := by
  obtain ⟨p, hp, hlook⟩ := hst
  have hc' : st.contiguous_memory = true := by
    rw [contiguous_memory_of_state a h p st hp hlook] at hc
    exact Except.ok.inj hc
  obtain ⟨hl1, hl2⟩ := set_strides_lookup h p st [] hlook
  refine ⟨h.set_strides p [], { st with strides := [] }, ?_, ⟨p, hp, hl1⟩, rfl, hl2, rfl, rfl,
    rfl, ?_⟩
  · simp [Array.ascontiguousarray, hc, hp]
  · intro idx hb
    rw [element_offset_of_contiguous st idx hwf hc' hb]
    simp [ArrayState.element_offset, ArrayState.normalized_strides]

/-- C9, witness: the view of shape `{1, 3}` with strides `{0, 1}` is contiguous, and
`ascontiguousarray` returns it with its strides dropped. -/
theorem ascontiguousarray_of_contiguous_witness :
    Array.points_to { state := some 0 } broadcast_row_heap broadcast_row_state ∧
    broadcast_row_state.well_formed = true ∧
    Array.contiguous_memory { state := some 0 } broadcast_row_heap = .ok true ∧
    ∃ h1 st1, Array.ascontiguousarray { state := some 0 } broadcast_row_heap =
        .ok ({ state := some 0 }, h1) ∧
      Array.points_to { state := some 0 } h1 st1 ∧
      st1.memory = broadcast_row_state.memory ∧ h1.memories = broadcast_row_heap.memories ∧
      st1.shape = broadcast_row_state.shape ∧ st1.offset = broadcast_row_state.offset ∧
      st1.strides = [] ∧
      ∀ idx, in_bounds idx broadcast_row_state.shape = true →
        st1.element_offset idx = broadcast_row_state.element_offset idx :=
  ⟨⟨0, rfl, rfl⟩, by decide, rfl,
    ascontiguousarray_of_contiguous { state := some 0 } broadcast_row_heap broadcast_row_state
      ⟨0, rfl, rfl⟩ (by decide) rfl⟩

/-! ## Equality -/

/-- The short-circuits of `Array::allclose`, and those of `Array::equals` that the code
reaches. -/
theorem equality_short_circuits (cmp : Array → Array → Heap → Bool) (l r : Array) (h : Heap) :
    (l.is_stateless = true → r.is_stateless = true →
      Array.equals cmp l r h = .ok true ∧ Array.allclose cmp l r h = .ok true) ∧
    (l.is_stateless ≠ r.is_stateless → Array.allclose cmp l r h = .ok false) ∧
    (∀ sl sr, l.points_to h sl → r.points_to h sr → sl.shape ≠ sr.shape →
      Array.equals cmp l r h = .ok false ∧ Array.allclose cmp l r h = .ok false) := by
  refine ⟨?_, ?_, ?_⟩
  · intro hl hr
    simp [Array.equals, Array.allclose, Array.state_equals, hl, hr]
  · intro hne
    cases hl : l.is_stateless <;> cases hr : r.is_stateless <;>
      simp [Array.allclose, hl, hr] at hne ⊢
  · rintro sl sr ⟨p, hp, hsl⟩ ⟨q, hq, hsr⟩ hne
    have hpq : p ≠ q := by
      intro hpq
      subst hpq
      rw [hsl] at hsr
      exact hne (by cases hsr; rfl)
    simp [Array.equals, Array.allclose, Array.state_equals, Array.is_stateless, hp, hq, hpq,
      Array.shape, Array.deref, hsl, hsr, Except.map, hne]

/-- C10, failing input: with exactly one stateless argument `Array::equals` raises, in
either order of the arguments, where `Array::allclose` returns false. -/
theorem equals_raises_on_stateless_mismatch :
    Array.is_stateless { state := none } = true ∧
    Array.is_stateless { state := some 0 } = false ∧
    raises (Array.equals (fun _ _ _ => true) { state := none } { state := some 0 }
      (vector_heap 3)) = true ∧
    raises (Array.equals (fun _ _ _ => true) { state := some 0 } { state := none }
      (vector_heap 3)) = true ∧
    Array.allclose (fun _ _ _ => true) { state := none } { state := some 0 } (vector_heap 3) =
      .ok false := by
  refine ⟨rfl, rfl, rfl, rfl, rfl⟩

/-! ## dali/array/function/function.h: the output shape check -/

theorem output_bshape_compatible_iff (output_bshape : List Int) :
    ∀ out_shape : List Int,
      (out_shape.length = output_bshape.length ∧
          output_bshape_compatible_loop output_bshape out_shape = true) ↔
        List.Forall₂ (fun b s => b = -1 ∨ (b.natAbs : Int) = s) output_bshape out_shape := by
  induction output_bshape with
  | nil =>
    intro out_shape
    cases out_shape with
    | nil => simp [output_bshape_compatible_loop]
    | cons s ss => simp
  | cons b bs ih =>
    intro out_shape
    cases out_shape with
    | nil => simp
    | cons s ss =>
      simp only [List.length_cons, add_left_inj, output_bshape_compatible_loop,
        List.forall₂_cons, ← ih ss]
      by_cases hb : b ≠ -1 ∧ (b.natAbs : Int) ≠ s
      · rw [if_pos hb]
        constructor
        · rintro ⟨_, hf⟩
          cases hf
        · rintro ⟨h | h, _⟩
          · exact absurd h hb.1
          · exact absurd h hb.2
      · rw [if_neg hb]
        have : b = -1 ∨ (b.natAbs : Int) = s := by
          by_cases h1 : b = -1
          · exact Or.inl h1
          · right
            by_contra h2
            exact hb ⟨h1, h2⟩
        constructor
        · rintro ⟨h1, h2⟩
          exact ⟨this, h1, h2⟩
        · rintro ⟨_, h1, h2⟩
          exact ⟨h1, h2⟩

/-- C4, counterexample: a result of deduced broadcast shape `{-1}` is accepted by a
destination of shape `{5}`, although the absolute value of the deduced size is not `5`. -/
theorem initialize_output_array_accepts_broadcast :
    Array.points_to { state := some 0 } (vector_heap 5) (vector_state 5) ∧
    initialize_output_array false false { state := some 0 } DType.DTYPE_FLOAT [-1]
        (fun _ => 0) (vector_heap 5) = .ok ({ state := some 0 }, vector_heap 5) ∧
    (vector_state 5).shape = [5] ∧ (((-1 : Int).natAbs : Nat) : Int) ≠ 5 := by
  refine ⟨⟨0, rfl, rfl⟩, rfl, rfl, by decide⟩

/-- C4, amended: for a destination that has a shape, with the checks of `Function` enabled,
`initialize_output_array` returns without raising exactly when no broadcast dimension
of the destination is below `-1`, the deduced broadcast shape has the rank of the
destination with, on every axis, a deduced size that is `-1` or whose absolute value is
the size of the destination, and the dtypes agree; it then leaves the destination as
it is. -/
theorem initialize_output_array_checks (out : Array) (h : Heap) (st : ArrayState)
    (output_dtype : DType) (output_bshape : List Int) (contents : Int → Int)
    (hst : out.points_to h st) :
    (raises (initialize_output_array false false out output_dtype output_bshape contents h)
        = false ↔
      ((∀ d ∈ st.bshape, ¬ d < -1) ∧
        List.Forall₂ (fun b s => b = -1 ∨ (b.natAbs : Int) = s) output_bshape st.shape ∧
        st.dtype = output_dtype)) ∧
    (raises (initialize_output_array false false out output_dtype output_bshape contents h)
        = false →
      initialize_output_array false false out output_dtype output_bshape contents h
        = .ok (out, h)) := by
  obtain ⟨p, hp, hlook⟩ := hst
  have hstateful : out.is_stateless = false := by simp [Array.is_stateless, hp]
  have hderef := deref_of_state out h p st "shape" hp hlook
  rw [← output_bshape_compatible_iff]
  unfold initialize_output_array
  rw [hstateful, if_neg (by decide), hderef]
  simp only [Bool.false_eq_true, not_false_eq_true, true_and, false_or]
  by_cases h1 : broadcast_reshaped_output st.bshape = true
  · have hex : ¬ ∀ d ∈ st.bshape, ¬ d < -1 := by
      simp only [broadcast_reshaped_output, List.any_eq_true, decide_eq_true_eq] at h1
      obtain ⟨d, hd, hlt⟩ := h1
      intro hall
      exact hall d hd hlt
    rw [if_pos h1]
    exact ⟨⟨fun hr => (by cases hr), fun hc => absurd hc.1 hex⟩, fun hr => (by cases hr)⟩
  · have hall : ∀ d ∈ st.bshape, ¬ d < -1 := by
      intro d hd hlt
      apply h1
      simp only [broadcast_reshaped_output, List.any_eq_true, decide_eq_true_eq]
      exact ⟨d, hd, hlt⟩
    rw [if_neg h1]
    by_cases h2 : st.shape.length = output_bshape.length ∧
        output_bshape_compatible_loop output_bshape st.shape = true
    · rw [if_neg (not_not.mpr h2)]
      by_cases h3 : st.dtype = output_dtype
      · rw [if_pos h3]
        exact ⟨⟨fun _ => ⟨hall, h2, h3⟩, fun _ => rfl⟩, fun _ => rfl⟩
      · rw [if_neg h3]
        exact ⟨⟨fun hr => (by cases hr), fun hc => absurd hc.2.2 h3⟩, fun hr => (by cases hr)⟩
    · rw [if_pos h2]
      exact ⟨⟨fun hr => (by cases hr), fun hc => absurd hc.2.1 h2⟩, fun hr => (by cases hr)⟩

/-- C4, witness: a destination of shape `{12}` rejects a result of shape `{3, 2, 2}`, and for
a result of shape `{12}` the characterisation applies. -/
theorem initialize_output_array_checks_witness :
    Array.points_to { state := some 0 } (vector_heap 12) (vector_state 12) ∧
    raises (initialize_output_array false false { state := some 0 } DType.DTYPE_FLOAT
        [3, 2, 2] (fun _ => 0) (vector_heap 12)) = true ∧
    ((raises (initialize_output_array false false { state := some 0 } DType.DTYPE_FLOAT
          [12] (fun _ => 0) (vector_heap 12)) = false ↔
        ((∀ d ∈ (vector_state 12).bshape, ¬ d < -1) ∧
          List.Forall₂ (fun b s => b = -1 ∨ (b.natAbs : Int) = s) [12] (vector_state 12).shape ∧
          (vector_state 12).dtype = DType.DTYPE_FLOAT)) ∧
      (raises (initialize_output_array false false { state := some 0 } DType.DTYPE_FLOAT
          [12] (fun _ => 0) (vector_heap 12)) = false →
        initialize_output_array false false { state := some 0 } DType.DTYPE_FLOAT
          [12] (fun _ => 0) (vector_heap 12) = .ok ({ state := some 0 }, vector_heap 12))) :=
  ⟨⟨0, rfl, rfl⟩, rfl,
    initialize_output_array_checks { state := some 0 } (vector_heap 12) (vector_state 12)
      DType.DTYPE_FLOAT [12] (fun _ => 0) ⟨0, rfl, rfl⟩⟩

/-! ## Row-major positions and multi-indices -/

theorem row_major_position_unravel (shape : List Int) :
    ∀ j : Int, shape_strictly_positive shape = true → 0 ≤ j → j < exact_volume shape →
      in_bounds (unravel_index shape j) shape = true ∧
        strided_offset (unravel_index shape j) (exact_trivial_strides shape) = j := by
  induction shape with
  | nil =>
    intro j _ h0 h1
    have : j = 0 := by simp [exact_volume] at h1; omega
    simp [unravel_index, in_bounds, strided_offset, this]
  | cons s shape ih =>
    intro j hpos h0 h1
    rw [shape_strictly_positive_cons] at hpos
    have hV := exact_volume_pos shape hpos.2
    rw [exact_volume_cons] at h1
    have hm0 : 0 ≤ j % exact_volume shape := Int.emod_nonneg _ (by omega)
    have hm1 : j % exact_volume shape < exact_volume shape := Int.emod_lt_of_pos _ hV
    obtain ⟨hb, hf⟩ := ih (j % exact_volume shape) hpos.2 hm0 hm1
    have hd0 : 0 ≤ j / exact_volume shape := Int.ediv_nonneg h0 (by omega)
    have hd1 : j / exact_volume shape < s :=
      Int.ediv_lt_of_lt_mul hV h1
    constructor
    · simp only [unravel_index, in_bounds, Bool.and_eq_true, decide_eq_true_eq]
      exact ⟨hd0, hd1, hb⟩
    · rw [exact_trivial_strides_cons]
      simp only [unravel_index, strided_offset, hf]
      exact Int.ediv_add_emod' j (exact_volume shape)

/-! ## The heap under allocation and stride updates -/

/-- C5. The hash under which `JITRunner::compile` caches a kernel is the same for any two
runners of one computation rank on one device type, whatever their roots are: the
hash of the root is not part of it.  So the compilation of a second runner after a
first one finds the module of the first and hands back its function. -/
theorem jit_cache_key_ignores_root (hasher : Hasher) (optype_hash : Nat)
    (runner1 runner2 : JITRunner) (rank device_type : Int) (shape1 shape2 : List Int)
    (info : node_to_info_t) (code1 code2 : String) :
    runner1.compile_hash hasher device_type
        (runner1.compute_node_compilation_info hasher optype_hash rank shape1 info) =
      runner2.compile_hash hasher device_type
        (runner2.compute_node_compilation_info hasher optype_hash rank shape2 info) ∧
    (runner2.compile hasher device_type
        (runner2.compute_node_compilation_info hasher optype_hash rank shape2 info) code2 false
        (runner1.compile hasher device_type
          (runner1.compute_node_compilation_info hasher optype_hash rank shape1 info) code1 false
          { modules := [] }).2).1 = some code1 := by
  have hkey : ∀ (r : JITRunner) (s : List Int),
      r.compile_hash hasher device_type
        (r.compute_node_compilation_info hasher optype_hash rank s info) =
      hasher.combine (hasher.combine hasher.seed device_type)
        ((hasher.combine (hasher.combine hasher.seed (optype_hash : Int)) rank : Nat) : Int) := by
    intro r s
    simp [JITRunner.compile_hash, JITRunner.compute_node_compilation_info, set_hash]
  refine ⟨by rw [hkey, hkey], ?_⟩
  simp only [JITRunner.compile, hkey]
  simp [Compiler.load, Compiler.compile, Compiler.get_function, List.lookup]

/-- C5, concrete run: two runners whose roots have the structural hashes 111 and 222 get
the same compilation hash, and the second is served the kernel of the first. -/
theorem jit_cache_serves_earlier_kernel :
    ((example_runner_a.compute_node_compilation_info example_hasher 5 2 [3, 4]
        empty_node_to_info) example_runner_a.root).hash = 111 ∧
    ((example_runner_b.compute_node_compilation_info example_hasher 5 2 [3, 4]
        empty_node_to_info) example_runner_b.root).hash = 222 ∧
    example_runner_a.compile_hash example_hasher 0
        (example_runner_a.compute_node_compilation_info example_hasher 5 2 [3, 4]
          empty_node_to_info) =
      example_runner_b.compile_hash example_hasher 0
        (example_runner_b.compute_node_compilation_info example_hasher 5 2 [3, 4]
          empty_node_to_info) ∧
    (example_runner_b.compile example_hasher 0
        (example_runner_b.compute_node_compilation_info example_hasher 5 2 [3, 4]
          empty_node_to_info) "kernel of b" false
        (example_runner_a.compile example_hasher 0
          (example_runner_a.compute_node_compilation_info example_hasher 5 2 [3, 4]
            empty_node_to_info) "kernel of a" false { modules := [] }).2).1 =
      some "kernel of a" := by
  refine ⟨by decide, by decide, by decide, by decide⟩

/-! ## The backward rule of the division of a scalar by a tensor -/

/-- C6, failing input: for `scalar = 1`, `t.w = {2}`, `t.dw = {0}` and `out.dw = {1}` the
registered closure leaves `t.dw = {-1}`, where the derivative rule
`out.dw * (-scalar / t.w^2)` gives `{-1/4}`. -/
theorem scalar_div_backward_differs_from_rule :
    (scalar_div_forward 1 { w := [2], dw := [0], constant := false }).w = [1 / 2] ∧
    (scalar_div_backward 1 { w := [2], dw := [0], constant := false }
        { w := [1 / 2], dw := [1], constant := false }).dw = [-1] ∧
    scalar_div_gradient_rule 1 { w := [2], dw := [0], constant := false }
        { w := [1 / 2], dw := [1], constant := false } = [-1 / 4] ∧
    (scalar_div_backward 1 { w := [2], dw := [0], constant := false }
        { w := [1 / 2], dw := [1], constant := false }).dw ≠
      scalar_div_gradient_rule 1 { w := [2], dw := [0], constant := false }
        { w := [1 / 2], dw := [1], constant := false } := by
  refine ⟨?_, ?_, ?_, ?_⟩
  · norm_num [scalar_div_forward]
  · norm_num [scalar_div_backward, functor_square]
  · norm_num [scalar_div_gradient_rule]
  · norm_num [scalar_div_backward, functor_square, scalar_div_gradient_rule]

/-! ## Loading arrays saved by numpy -/

/-- The pairs on which `npy_detect_dtype` raises: every pair except the float kind with word
size 8 or 4 and the integer kind with word size 4 or 8. -/
theorem npy_detect_dtype_raises_iff (dtype : Char) (word_size : Int) :
    raises (npy_detect_dtype dtype word_size) = true ↔
      ¬ ((dtype = 'f' ∨ dtype = 'i') ∧ (word_size = 8 ∨ word_size = 4)) := by
  unfold npy_detect_dtype sizeof_double sizeof_float sizeof_int32_t
  by_cases hf : dtype = 'f'
  · subst hf
    by_cases h8 : word_size = 8
    · simp [h8, raises]
    · by_cases h4 : word_size = 4
      · simp [h4, raises]
      · simp [h8, h4, raises]
  · by_cases hi : dtype = 'i'
    · subst hi
      by_cases h4 : word_size = 4
      · simp [h4, raises]
      · by_cases h8 : word_size = 8
        · simp [h8, raises]
        · simp [h8, h4, raises]
    · simp [hf, hi, raises]

/-- C11 (code defect): `npy_detect_dtype` returns double for the float kind with word size 8,
float for the float kind with word size 4 and int32 for the integer kind with word size 4,
but the integer kind with word size 8 does not raise: the assertion of the integer branch
compares the word size with the sizes of `double` and `float`, so the pair passes it and
falls through to the final `return DTYPE_FLOAT`. -/
theorem npy_detect_dtype_int64_returns_float :
    npy_detect_dtype 'f' 8 = .ok DType.DTYPE_DOUBLE ∧
    npy_detect_dtype 'f' 4 = .ok DType.DTYPE_FLOAT ∧
    npy_detect_dtype 'i' 4 = .ok DType.DTYPE_INT32 ∧
    npy_detect_dtype 'i' 8 = .ok DType.DTYPE_FLOAT ∧
    raises (npy_detect_dtype 'i' 8) = false :=
  ⟨rfl, rfl, rfl, rfl, rfl⟩

/-! ## Ranges -/

theorem rat_floor_eq (x : ℚ) : Rat.floor x = ⌊x⌋ := rfl

/-- The conversion to `int` is the floor of a non-negative value and the ceiling of a
negative one. -/
theorem double_to_int_eq (x : ℚ) : double_to_int x = if 0 ≤ x then ⌊x⌋ else ⌈x⌉ := by
  unfold double_to_int
  rw [rat_floor_eq, rat_floor_eq, Int.floor_neg, neg_neg]

/-- For whole numbers with `start < stop` and a step of at least one, the length computed by
`arange` is the ceiling of `(stop - start) / step`. -/
theorem arange_length_of_whole_numbers (start stop step : Int) (hstep : 1 ≤ step)
    (hlt : start < stop) :
    arange_length start stop step = ⌈((stop : ℚ) - start) / step⌉ := by
  have hs : (0 : ℚ) < step := by exact_mod_cast (by omega : (0 : Int) < step)
  have hnum : (0 : ℚ) ≤ (stop - start) + step - 1 := by
    have : (0 : Int) ≤ (stop - start) + step - 1 := by omega
    exact_mod_cast this
  unfold arange_length
  rw [double_to_int_eq, if_pos (div_nonneg hnum hs.le)]
  obtain ⟨q, hq⟩ : ∃ q, q = ((stop - start) + step - 1) / step := ⟨_, rfl⟩
  have hmod := Int.emod_add_ediv ((stop - start) + step - 1) step
  have hr0 := Int.emod_nonneg ((stop - start) + step - 1) (by omega : step ≠ 0)
  have hr1 := Int.emod_lt_of_pos ((stop - start) + step - 1) (by omega : 0 < step)
  rw [← hq] at hmod
  generalize ((stop - start) + step - 1) % step = r at hmod hr0 hr1
  have hfloor : ⌊(((stop : ℚ) - start) + step - 1) / step⌋ = q := by
    rw [Int.floor_eq_iff, le_div_iff₀ hs, div_lt_iff₀ hs]
    constructor
    · have : q * step ≤ (stop - start) + step - 1 := by nlinarith
      exact_mod_cast this
    · have : (stop - start) + step - 1 < (q + 1) * step := by nlinarith
      exact_mod_cast this
  have hceil : ⌈((stop : ℚ) - start) / step⌉ = q := by
    rw [Int.ceil_eq_iff, lt_div_iff₀ hs, div_le_iff₀ hs]
    constructor
    · have : (q - 1) * step < stop - start := by nlinarith
      exact_mod_cast this
    · have : stop - start ≤ q * step := by nlinarith
      exact_mod_cast this
  rw [hfloor, hceil]

/-- C13 (code defect): `Array::arange(0, 1, 0.5)` allocates one element although
`ceil((1 - 0) / 0.5)` is two, and `Array::arange(0, 0.5, 1)` raises although
`ceil((0.5 - 0) / 1)` is one: the length is `((stop - start) + step - 1) / step` evaluated
in doubles and truncated, which is the ceiling only for whole numbers. -/
theorem arange_length_is_truncated :
    (∃ a h, Array.arange 0 1 (1 / 2) DType.DTYPE_FLOAT (fun _ => 0) Heap.empty = .ok (a, h) ∧
      a.number_of_elements h = 1) ∧
    ⌈((1 : ℚ) - 0) / (1 / 2)⌉ = 2 ∧
    raises (Array.arange 0 (1 / 2) 1 DType.DTYPE_FLOAT (fun _ => 0) Heap.empty) = true ∧
    ⌈((1 / 2 : ℚ) - 0) / 1⌉ = 1 := by
  refine ⟨?_, by simp, ?_, ?_⟩
  · simp [Array.arange, arange_length, double_to_int_eq, Array.fresh, Array.initialize_shape]
    exact ⟨_, _, rfl, rfl⟩
  · norm_num [Array.arange, arange_length, double_to_int_eq, raises]
  · simp
    norm_num [Int.ceil_eq_iff]

/-! ## String helpers -/

/-- What the scan of `is_number` accepts: digits and points only, with at most one point,
counting a point already seen. -/
theorem is_number_scan_iff (s : List Char) (is_decimal : Bool) :
    is_number_scan is_decimal s = true ↔
      (∀ c ∈ s, c = '.' ∨ c.isDigit = true) ∧
        s.count '.' + (if is_decimal then 1 else 0) ≤ 1 := by
  induction s generalizing is_decimal with
  | nil => cases is_decimal <;> simp [is_number_scan]
  | cons c rest ih =>
    have hpoint : ('.' : Char).isDigit = false := by decide
    by_cases hc : c = '.'
    · subst hc
      cases is_decimal
      · simp [is_number_scan, ih]
      · simp [is_number_scan]
    · have hcount : (c :: rest).count '.' = rest.count '.' := by
        rw [List.count_cons]
        simp [hc]
      cases hd : c.isDigit
      · cases is_decimal <;> simp [is_number_scan, hc, hd]
      · cases is_decimal <;> simp [is_number_scan, hc, hd, ih, hcount]

/-- What `is_number` accepts: an optional leading minus sign followed by a non-empty run of
digits and points with at most one point. The run need not contain a digit. -/
theorem is_number_iff (s : List Char) :
    is_number s = true ↔
      ∃ body, (s = body ∨ s = '-' :: body) ∧ body ≠ [] ∧
        (∀ c ∈ body, c = '.' ∨ c.isDigit = true) ∧ body.count '.' ≤ 1 := by
  have hminus : ¬ (('-' : Char) = '.' ∨ ('-' : Char).isDigit = true) := by decide
  cases s with
  | nil => simp [is_number]
  | cons c rest =>
    by_cases hc : c = '-'
    · subst hc
      cases rest with
      | nil =>
        simp only [is_number]
        constructor
        · intro h
          simp at h
        · rintro ⟨body, hb | hb, hne, hall, _⟩
          · subst hb
            exact absurd (hall '-' (by simp)) hminus
          · simp at hb
            exact absurd hb hne
      | cons d rest2 =>
        have hscan := is_number_scan_iff (d :: rest2) false
        simp only [Bool.false_eq_true, if_false, add_zero] at hscan
        constructor
        · intro h
          have h2 : is_number_scan false (d :: rest2) = true := by
            simpa [is_number] using h
          exact ⟨d :: rest2, Or.inr rfl, by simp, hscan.mp h2⟩
        · rintro ⟨body, hb | hb, hne, hall, hcnt⟩
          · subst hb
            exact absurd (hall '-' (by simp)) hminus
          · simp only [List.cons.injEq, true_and] at hb
            subst hb
            have h2 := hscan.mpr ⟨hall, hcnt⟩
            simpa [is_number] using h2
    · have hscan := is_number_scan_iff (c :: rest) false
      simp only [Bool.false_eq_true, if_false, add_zero] at hscan
      constructor
      · intro h
        have h2 : is_number_scan false (c :: rest) = true := by
          simpa [is_number, hc] using h
        exact ⟨c :: rest, Or.inl rfl, by simp, hscan.mp h2⟩
      · rintro ⟨body, hb | hb, hne, hall, hcnt⟩
        · subst hb
          have h2 := hscan.mpr ⟨hall, hcnt⟩
          simpa [is_number, hc] using h2
        · simp only [List.cons.injEq] at hb
          exact absurd hb.1 hc

/-- C19 (code defect): `utils::is_number` accepts the strings "." and "-.", which contain no
digit: the function guards the empty string and the lone minus sign, but not the lone
decimal point. -/
theorem is_number_accepts_lone_point :
    is_number ['.'] = true ∧ is_number ['-', '.'] = true ∧
    is_number ['-'] = false ∧ is_number [] = false := by
  decide

/-- `utils::startswith` is the prefix relation on strings, character by character. -/
theorem startswith_iff (full beginning : List Char) :
    startswith full beginning = true ↔ beginning <+: full := by
  unfold startswith
  constructor
  · intro h
    split_ifs at h with hlen
    have h2 : full.take beginning.length = beginning := by simpa using h
    exact h2 ▸ List.take_prefix _ _
  · intro h
    have hlen : full.length ≥ beginning.length := h.length_le
    rw [if_pos hlen]
    simp only [decide_eq_true_eq]
    exact List.prefix_iff_eq_take.mp h |>.symm

/-- The loop of `prefix_match` finds the first candidate with `input` as a prefix. -/
theorem prefix_match_loop_spec (candidates : List (List Char)) (input : List Char) :
    (∀ c, prefix_match_loop candidates input = .ok c ↔
        candidates.find? (fun d => startswith d input) = some c) ∧
      (raises (prefix_match_loop candidates input) = true ↔
        ∀ d ∈ candidates, startswith d input = false) := by
  induction candidates with
  | nil => simp [prefix_match_loop, raises]
  | cons d rest ih =>
    by_cases hs : startswith d input = true
    · have hlen : ¬ d.length < input.length := by
        have := ((startswith_iff d input).mp hs).length_le
        omega
      simp [prefix_match_loop, hs, hlen, raises, List.find?_cons]
    · have hs2 : startswith d input = false := by simpa using hs
      have hloop : prefix_match_loop (d :: rest) input = prefix_match_loop rest input := by
        simp [prefix_match_loop, hs2]
      rw [hloop]
      simp only [List.find?_cons, hs2, List.mem_cons, forall_eq_or_imp, true_and]
      exact ih

/-- C20, counterexample: with the single candidate "Hello" and the input "hello", which is a
prefix of the candidate when case is ignored, `prefix_match` raises. -/
theorem prefix_match_is_case_sensitive :
    starts_ignoring_case ['H', 'e', 'l', 'l', 'o'] ['h', 'e', 'l', 'l', 'o'] = true ∧
    raises (prefix_match [['H', 'e', 'l', 'l', 'o']] ['h', 'e', 'l', 'l', 'o']) = true := by
  decide

/-- C20, amended: `utils::prefix_match(candidates, input)` returns the first candidate in
list order that has `input` as a prefix, the characters compared as they are, and raises
if and only if no candidate has. -/
theorem prefix_match_first_exact (candidates : List (List Char)) (input : List Char) :
    (∀ c, prefix_match candidates input = .ok c ↔
        candidates.find? (fun d => decide (input <+: d)) = some c) ∧
      (raises (prefix_match candidates input) = true ↔ ∀ d ∈ candidates, ¬ input <+: d) := by
  have hfun : (fun d => decide (input <+: d)) = fun d => startswith d input := by
    funext d
    rw [Bool.eq_iff_iff]
    simp [startswith_iff]
  have hspec := prefix_match_loop_spec candidates input
  rw [hfun]
  cases candidates with
  | nil => simp [prefix_match, raises]
  | cons d rest =>
    have hm : prefix_match (d :: rest) input = prefix_match_loop (d :: rest) input := by
      simp [prefix_match]
    rw [hm]
    refine ⟨hspec.1, hspec.2.trans ?_⟩
    constructor
    · intro h e he
      have := h e he
      rw [← startswith_iff, this]
      simp
    · intro h e he
      have := h e he
      rw [← startswith_iff] at this
      simpa using this

/-! ## The memory bank -/

theorem get_bank_ok (use_cuda : Bool) (banks : Banks) (device : Device)
    (hdev : device = Device.DEVICE_CPU ∨ use_cuda = true) :
    ∃ bank, get_bank use_cuda banks device = .ok bank := by
  cases device
  · exact ⟨_, rfl⟩
  · rcases hdev with h | h
    · cases h
    · exact ⟨banks.gpu_bank, by simp [get_bank, h]⟩

theorem get_bank_set_bank (use_cuda : Bool) (banks : Banks) (device : Device)
    (bank0 bank : DeviceBank) (hbank : get_bank use_cuda banks device = .ok bank0) :
    get_bank use_cuda (set_bank banks device bank) device = .ok bank := by
  cases device
  · simp [get_bank, set_bank]
  · cases use_cuda
    · simp [get_bank] at hbank
    · simp [get_bank, set_bank]

/-- The state of a bank after a deposit. -/
theorem deposit_spec (use_cuda : Bool) (banks : Banks) (device : Device) (ptr : Nat)
    (amount inner_dimension : Int) (bank : DeviceBank)
    (hbank : get_bank use_cuda banks device = .ok bank) :
    deposit use_cuda banks ⟨device, ptr⟩ amount inner_dimension =
      .ok (set_bank banks device
        { bank with
          blobs := upsert bank.blobs (to_unsigned_long_long amount)
            (fun deposit_box => deposit_box ++ [ptr]) [ptr] }) := by
  simp [deposit, hbank]

/-- After a deposit the box of the size ends with the pointer. -/
theorem upsert_lookup (blobs : Nat → Option (List Nat)) (key ptr : Nat) :
    upsert blobs key (fun deposit_box => deposit_box ++ [ptr]) [ptr] key =
      some ((blobs key).getD [] ++ [ptr]) := by
  unfold upsert
  cases blobs key <;> simp

theorem upsert_other (blobs : Nat → Option (List Nat)) (key k : Nat)
    (fn : List Nat → List Nat) (val : List Nat) (hk : k ≠ key) :
    upsert blobs key fn val k = blobs k := by
  simp [upsert, hk]

/-- An allocation served by the pool: the back of the box is returned and removed, the
counters stay. -/
theorem allocate_from_pool (use_cuda : Bool) (mo : Device → Int → Int → DevicePtr)
    (banks : Banks) (device : Device) (amount inner_dimension : Int) (bank : DeviceBank)
    (box : List Nat) (ptr : Nat) (hbank : get_bank use_cuda banks device = .ok bank)
    (hbox : bank.blobs (to_unsigned_long_long amount) = some (box ++ [ptr]))
    (hptr : ptr ≠ NULL) :
    allocate use_cuda mo banks device amount inner_dimension =
      .ok (⟨device, ptr⟩, set_bank banks device
        { bank with
          blobs := fun k => if k = to_unsigned_long_long amount then some box
            else bank.blobs k }) := by
  have hupd : update_fn bank.blobs (to_unsigned_long_long amount)
      (fun deposit_box => if deposit_box.isEmpty then deposit_box else deposit_box.dropLast) =
      fun k => if k = to_unsigned_long_long amount then some box else bank.blobs k := by
    funext k
    unfold update_fn
    by_cases hk : k = to_unsigned_long_long amount
    · simp [hk, hbox]
    · simp [hk]
  simp only [allocate, hbank, hbox, hupd]
  simp [hptr]

/-- An allocation that finds no pointer of the size: it is passed on to the device and
counted, and the pool stays as it is. -/
theorem allocate_miss (use_cuda : Bool) (mo : Device → Int → Int → DevicePtr)
    (banks : Banks) (device : Device) (amount inner_dimension : Int) (bank : DeviceBank)
    (hbank : get_bank use_cuda banks device = .ok bank)
    (hbox : bank.pooled amount = []) :
    ∃ banks1 bank1, allocate use_cuda mo banks device amount inner_dimension =
        .ok (mo device amount inner_dimension, banks1) ∧
      get_bank use_cuda banks1 device = .ok bank1 ∧
      bank1.num_allocations = (bank.num_allocations + 1) % 2 ^ 64 ∧
      (bank1.total_memory : Int) = ((bank.total_memory : Int) + amount) % 2 ^ 64 ∧
      ∀ size, bank1.pooled size = bank.pooled size := by
  have hmem : (match bank.blobs (to_unsigned_long_long amount) with
      | some deposit_box => if deposit_box.isEmpty then NULL else deposit_box.getLastD NULL
      | none => NULL) = NULL := by
    unfold DeviceBank.pooled at hbox
    cases hb : bank.blobs (to_unsigned_long_long amount) with
    | none => rfl
    | some box =>
      rw [hb] at hbox
      have hnil : box = [] := by simpa using hbox
      simp [hnil]
  obtain ⟨B, hB⟩ : ∃ B : DeviceBank, B =
      { blobs := update_fn bank.blobs (to_unsigned_long_long amount)
          (fun deposit_box => if deposit_box.isEmpty then deposit_box else deposit_box.dropLast)
        num_allocations := (bank.num_allocations + 1) % 2 ^ 64
        total_memory := to_unsigned_long_long ((bank.total_memory : Int) + amount) } :=
    ⟨_, rfl⟩
  refine ⟨set_bank banks device B, B, ?_,
    get_bank_set_bank use_cuda banks device bank B hbank, ?_, ?_, ?_⟩
  · simp only [allocate, hbank, hmem, hB]
    simp
  · rw [hB]
  · rw [hB]
    simp only [to_unsigned_long_long]
    rw [Int.toNat_of_nonneg (Int.emod_nonneg _ (by norm_num))]
  · intro size
    rw [hB]
    unfold DeviceBank.pooled at hbox ⊢
    simp only [update_fn]
    by_cases hk : to_unsigned_long_long size = to_unsigned_long_long amount
    · rw [if_pos hk, hk]
      cases hb : bank.blobs (to_unsigned_long_long amount) with
      | none => rfl
      | some box =>
        rw [hb] at hbox
        have hnil : box = [] := by simpa using hbox
        simp [hnil]
    · rw [if_neg hk]

/-- C16, amended: on a device that has a bank, after `deposit(ptr, amount)` of a pointer
that is not null the box of the size ends with `ptr`, the next `allocate(device, amount, _)` returns `ptr`
whatever else is pooled, the pool is afterwards what it was before the deposit, and both
counters are unchanged; an `allocate` for which the pool holds no pointer of that size
returns the allocation of the device, increments `num_allocations` by one and
`total_memory` by `amount` (both are 64-bit counters). -/
theorem memory_bank_pool_reuse (use_cuda : Bool) (mo : Device → Int → Int → DevicePtr)
    (banks : Banks) (device : Device) (ptr : Nat) (amount inner_dimension : Int)
    (bank : DeviceBank) (hbank : get_bank use_cuda banks device = .ok bank)
    (hptr : ptr ≠ NULL) :
    (∃ banks1 bank1 banks2 bank2,
      deposit use_cuda banks ⟨device, ptr⟩ amount inner_dimension = .ok banks1 ∧
      get_bank use_cuda banks1 device = .ok bank1 ∧
      bank1.pooled amount = bank.pooled amount ++ [ptr] ∧
      allocate use_cuda mo banks1 device amount inner_dimension =
        .ok (⟨device, ptr⟩, banks2) ∧
      get_bank use_cuda banks2 device = .ok bank2 ∧
      (∀ size, bank2.pooled size = bank.pooled size) ∧
      bank2.num_allocations = bank.num_allocations ∧
      bank2.total_memory = bank.total_memory) ∧
    (bank.pooled amount = [] →
      ∃ banks1 bank1, allocate use_cuda mo banks device amount inner_dimension =
          .ok (mo device amount inner_dimension, banks1) ∧
        get_bank use_cuda banks1 device = .ok bank1 ∧
        bank1.num_allocations = (bank.num_allocations + 1) % 2 ^ 64 ∧
        (bank1.total_memory : Int) = ((bank.total_memory : Int) + amount) % 2 ^ 64) := by
  constructor
  · obtain ⟨B1, hB1⟩ : ∃ B1 : DeviceBank, B1 =
        { bank with
          blobs := upsert bank.blobs (to_unsigned_long_long amount)
            (fun deposit_box => deposit_box ++ [ptr]) [ptr] } := ⟨_, rfl⟩
    have hdep := deposit_spec use_cuda banks device ptr amount inner_dimension bank hbank
    rw [← hB1] at hdep
    have hget1 := get_bank_set_bank use_cuda banks device bank B1 hbank
    have hlook : B1.blobs (to_unsigned_long_long amount) =
        some (bank.pooled amount ++ [ptr]) := by
      rw [hB1]
      exact upsert_lookup bank.blobs _ ptr
    have halloc := allocate_from_pool use_cuda mo (set_bank banks device B1) device amount
      inner_dimension B1 (bank.pooled amount) ptr hget1 hlook hptr
    obtain ⟨B2, hB2⟩ : ∃ B2 : DeviceBank, B2 =
        { B1 with
          blobs := fun k => if k = to_unsigned_long_long amount then some (bank.pooled amount)
            else B1.blobs k } := ⟨_, rfl⟩
    rw [← hB2] at halloc
    refine ⟨_, B1, _, B2, hdep, hget1, ?_, halloc,
      get_bank_set_bank use_cuda _ device B1 B2 hget1, ?_, ?_, ?_⟩
    · unfold DeviceBank.pooled
      rw [hlook]
      rfl
    · intro size
      rw [hB2]
      unfold DeviceBank.pooled
      by_cases hk : to_unsigned_long_long size = to_unsigned_long_long amount
      · simp only [hk, if_true, Option.getD_some]
      · simp only [hk, if_false]
        rw [hB1]
        simp only [upsert_other _ _ _ _ _ hk]
    · rw [hB2, hB1]
    · rw [hB2, hB1]
  · intro hempty
    obtain ⟨banks1, bank1, h1, h2, h3, h4, _⟩ :=
      allocate_miss use_cuda mo banks device amount inner_dimension bank hbank hempty
    exact ⟨banks1, bank1, h1, h2, h3, h4⟩

/-- C16, witness: the pointer `5` deposited with the size `16` in the empty bank of the CPU
comes back from the next `allocate` of that size, and an `allocate` on the empty bank
counts one allocation of `16` bytes. -/
theorem memory_bank_pool_reuse_witness :
    get_bank false Banks.empty Device.DEVICE_CPU = .ok DeviceBank.empty ∧ (5 : Nat) ≠ NULL ∧
    ((∃ banks1 bank1 banks2 bank2,
      deposit false Banks.empty ⟨Device.DEVICE_CPU, 5⟩ 16 1 = .ok banks1 ∧
      get_bank false banks1 Device.DEVICE_CPU = .ok bank1 ∧
      bank1.pooled 16 = DeviceBank.empty.pooled 16 ++ [5] ∧
      allocate false (fun d _ _ => ⟨d, 7⟩) banks1 Device.DEVICE_CPU 16 1 =
        .ok (⟨Device.DEVICE_CPU, 5⟩, banks2) ∧
      get_bank false banks2 Device.DEVICE_CPU = .ok bank2 ∧
      (∀ size, bank2.pooled size = DeviceBank.empty.pooled size) ∧
      bank2.num_allocations = DeviceBank.empty.num_allocations ∧
      bank2.total_memory = DeviceBank.empty.total_memory) ∧
    (DeviceBank.empty.pooled 16 = [] →
      ∃ banks1 bank1, allocate false (fun d _ _ => ⟨d, 7⟩) Banks.empty Device.DEVICE_CPU 16 1 =
          .ok ((fun d _ _ => ⟨d, 7⟩) Device.DEVICE_CPU 16 1, banks1) ∧
        get_bank false banks1 Device.DEVICE_CPU = .ok bank1 ∧
        bank1.num_allocations = (DeviceBank.empty.num_allocations + 1) % 2 ^ 64 ∧
        (bank1.total_memory : Int) =
          ((DeviceBank.empty.total_memory : Int) + 16) % 2 ^ 64)) :=
  ⟨rfl, by decide,
    memory_bank_pool_reuse false (fun d _ _ => ⟨d, 7⟩) Banks.empty Device.DEVICE_CPU 5 16 1
      DeviceBank.empty rfl (by decide)⟩

/-- C16, counterexample: after `deposit(NULL, 16)` on the CPU, whose bank is empty, the
next `allocate` of the size `16` does not return the deposited pointer: the null pointer
is taken out of the pool and treated as a miss, so the call returns the allocation of the
device and counts one more allocation and `16` more bytes. -/
theorem allocate_after_null_deposit :
    DeviceBank.empty.num_allocations = 0 ∧ DeviceBank.empty.total_memory = 0 ∧
    get_bank false Banks.empty Device.DEVICE_CPU = .ok DeviceBank.empty ∧
    (⟨Device.DEVICE_CPU, 7⟩ : DevicePtr) ≠ ⟨Device.DEVICE_CPU, NULL⟩ ∧
    ∃ banks1 banks2 bank2,
      deposit false Banks.empty ⟨Device.DEVICE_CPU, NULL⟩ 16 1 = .ok banks1 ∧
      allocate false (fun d _ _ => ⟨d, 7⟩) banks1 Device.DEVICE_CPU 16 1 =
        .ok (⟨Device.DEVICE_CPU, 7⟩, banks2) ∧
      get_bank false banks2 Device.DEVICE_CPU = .ok bank2 ∧
      bank2.num_allocations = 1 ∧ bank2.total_memory = 16 :=
  ⟨rfl, rfl, rfl, by decide, _, _, _, rfl, rfl, rfl, rfl, rfl⟩

/-! ## Broadcasting an axis -/

/-- What `broadcast_axis` does on a valid non-negative axis of size one: the handle returned
holds the descriptor of `a` itself, and the stride of the axis is set to zero in it. -/
theorem broadcast_axis_spec (a : Array) (h : Heap) (p : Nat) (st : ArrayState) (axis : Int)
    (hp : a.state = some p) (hst : h.states[p]? = some st)
    (h0 : 0 ≤ axis) (hlt : axis < (st.shape.length : Int))
    (hone : st.shape.getD axis.toNat 0 = 1) :
    a.broadcast_axis axis h =
      .ok (a, h.set_strides p (st.normalized_strides.set axis.toNat 0)) := by
  obtain ⟨s⟩ := a
  simp only at hp
  subst hp
  have hnd := ndim_of_state { state := some p } h p st rfl hst
  have hnorm : Array.normalize_axis { state := some p } axis h = axis := by
    simp [Array.normalize_axis, not_lt.mpr h0]
  have hshape : Array.shape { state := some p } h = .ok st.shape := by
    simp [Array.shape, deref_of_state { state := some p } h p st "shape" rfl hst, Except.map]
  have hns : Array.normalized_strides { state := some p } h = .ok st.normalized_strides := by
    simp [Array.normalized_strides, deref_of_state { state := some p } h p st _ rfl hst,
      Except.map]
  simp only [Array.broadcast_axis, hnorm, hnd, hshape, Array.broadcast_axis_internal, hns]
  rw [if_neg (by simp [h0, hlt]), if_neg (not_not.mpr hone), if_neg (by simp [h0, hlt])]

/-- C17 (code defect): for a new array `a` of shape `{1, 3}`, `b = a.broadcast_axis(0)` holds
the descriptor of `a` itself, and after the call the strides of `a` have changed from
empty to `{0, 1}` and its broadcast shape from `{1, 3}` to `{-1, 3}`: the copy made by
`Array out(*this, false)` shares the descriptor, and `broadcast_axis_internal` writes to
it. -/
theorem broadcast_axis_changes_receiver :
    ∃ a h1 b h2,
      Array.fresh [1, 3] DType.DTYPE_FLOAT (fun _ => 0) Heap.empty = .ok (a, h1) ∧
      a.broadcast_axis 0 h1 = .ok (b, h2) ∧ b.state = a.state ∧
      a.shape h1 = .ok [1, 3] ∧ a.shape h2 = .ok [1, 3] ∧
      a.strides h1 = .ok [] ∧ a.strides h2 = .ok [0, 1] ∧
      a.bshape h1 = .ok [1, 3] ∧ a.bshape h2 = .ok [-1, 3] :=
  ⟨_, _, _, _, rfl, rfl, rfl, rfl, rfl, rfl, rfl, rfl, rfl⟩

/-! ## Concatenation -/

/-- C14 (code defect): with a `3 x 2` array and a `1 x 2` array broadcast on its first axis,
concatenated along axis 1, `deduce_output_bshape` returns `{3, 4}` when the broadcast array
comes first and raises when it comes second: a broadcast size is replaced by a real one
only when it is the size accumulated so far, and a real accumulated size met by a
broadcast one fails the assertion. -/
theorem concatenate_bshape_depends_on_order :
    Array.bshape { state := some 0 } concatenate_heap = .ok [3, 2] ∧
    Array.bshape { state := some 1 } concatenate_heap = .ok [-1, 2] ∧
    ConcatenateFunction.deduce_output_bshape [{ state := some 1 }, { state := some 0 }] 1
      concatenate_heap = .ok [3, 4] ∧
    raises (ConcatenateFunction.deduce_output_bshape [{ state := some 0 }, { state := some 1 }] 1
      concatenate_heap) = true :=
  ⟨rfl, rfl, rfl, rfl⟩

/-! ## Gathering from rows -/

/-- C15, counterexample: for a source of broadcast shape `{5, 4}` and int32 indices of
broadcast shape `{3, 2}`, of rank 2, `gather_from_rows` raises. -/
theorem gather_from_rows_rejects_rank_two :
    raises (gather_from_rows { ndim := 2, dtype := DType.DTYPE_FLOAT, bshape := [5, 4] }
      { ndim := 2, dtype := DType.DTYPE_INT32, bshape := [3, 2] }) = true := by
  decide

/-- C15, amended: for a source of rank 2 or more and int32 indices, `op2::gather_from_rows`
raises exactly when the indices have rank 2 or more, or rank 1 with a first size that
exceeds the first size of the source while neither is broadcast; otherwise it returns an
operation whose broadcast shape is the shape of the indices, or `{1}` for indices of rank
0, followed by the shape of the source without its first two axes, of rank one less than
the source and of the dtype of the source. -/
theorem gather_from_rows_rank_at_most_one (source indices : Operation)
    (hsource : 1 < source.ndim) (hdtype : indices.dtype = DType.DTYPE_INT32)
    (hrank : indices.ndim = (indices.bshape.length : Int)) :
    (raises (gather_from_rows source indices) = true ↔
      (1 < indices.ndim ∨ (indices.ndim = 1 ∧
        ¬ (indices.bshape.getD 0 0 ≤ source.bshape.getD 0 0 ∨ indices.bshape.getD 0 0 = -1 ∨
          source.bshape.getD 0 0 = -1)))) ∧
    (raises (gather_from_rows source indices) = false →
      ∃ op, gather_from_rows source indices = .ok op ∧
        op.bshape = (if indices.ndim = 0 then [1] else indices.bshape) ++
          source.bshape.drop 2 ∧
        op.ndim = source.ndim - 1 ∧ op.dtype = source.dtype) := by
  unfold gather_from_rows
  rw [if_neg (not_not.mpr hsource), if_neg (not_not.mpr hdtype)]
  by_cases hle : indices.ndim ≤ 1
  · rw [if_neg (not_not.mpr hle)]
    have hnot : ¬ 1 < indices.ndim := not_lt.mpr hle
    by_cases hlen : indices.bshape.length > 0
    · have hone : indices.ndim = 1 := by omega
      have hne : ¬ indices.ndim = 0 := by omega
      by_cases hsize : indices.bshape.getD 0 0 ≤ source.bshape.getD 0 0 ∨
          indices.bshape.getD 0 0 = -1 ∨ source.bshape.getD 0 0 = -1
      · rw [if_neg (by tauto)]
        refine ⟨by simp only [raises]; tauto, fun _ => ⟨_, rfl, ?_, rfl, rfl⟩⟩
        simp only [GatherFromRowsState.bshape, if_pos hlen, if_neg hne]
      · rw [if_pos ⟨hlen, hsize⟩]
        refine ⟨by simp only [raises]; tauto, fun hr => by simp [raises] at hr⟩
    · have hzero : indices.ndim = 0 := by omega
      rw [if_neg (by tauto)]
      refine ⟨by simp only [raises]; constructor <;> intro hx <;> [cases hx; omega],
        fun _ => ⟨_, rfl, ?_, rfl, rfl⟩⟩
      simp only [GatherFromRowsState.bshape, if_neg hlen, if_pos hzero, List.singleton_append]
  · rw [if_pos hle]
    refine ⟨by simp only [raises]; constructor <;> intro _ <;> [(left; omega); trivial],
      fun hr => by simp [raises] at hr⟩

theorem gather_from_rows_rank_at_most_one_witness :
    (1 : Int) < 2 ∧ DType.DTYPE_INT32 = DType.DTYPE_INT32 ∧
    (1 : Int) = (([3] : List Int).length : Int) ∧
    ∃ op, gather_from_rows { ndim := 2, dtype := DType.DTYPE_FLOAT, bshape := [5, 4] }
        { ndim := 1, dtype := DType.DTYPE_INT32, bshape := [3] } = .ok op ∧
      op.bshape = [3] ∧ op.ndim = 1 ∧ op.dtype = DType.DTYPE_FLOAT := by
  have h := gather_from_rows_rank_at_most_one
    { ndim := 2, dtype := DType.DTYPE_FLOAT, bshape := [5, 4] }
    { ndim := 1, dtype := DType.DTYPE_INT32, bshape := [3] } (by decide) rfl rfl
  obtain ⟨op, hop, hb, hn, hd⟩ := h.2 (by decide)
  exact ⟨by decide, rfl, rfl, op, hop, by simpa using hb, by simpa using hn, hd⟩

/-! ## Text files of key and values -/

theorem getline_loop_delim (delim : Char) (rest item : List Char) :
    getline_loop delim (delim :: rest) item = item :: getline_loop delim rest [] := by
  simp [getline_loop]

theorem getline_loop_other (delim c : Char) (rest item : List Char) (hc : c ≠ delim) :
    getline_loop delim (c :: rest) item = getline_loop delim rest (item ++ [c]) := by
  simp [getline_loop, hc]

theorem getline_loop_append (delim : Char) (l : List Char) (hl : delim ∉ l) :
    ∀ (rest item : List Char),
      getline_loop delim (l ++ rest) item = getline_loop delim rest (item ++ l) := by
  induction l with
  | nil => intro rest item; simp
  | cons c l ih =>
    intro rest item
    have hc : c ≠ delim := fun h => hl (by simp [h])
    have hl2 : delim ∉ l := fun h => hl (by simp [h])
    rw [List.cons_append, getline_loop_other delim c _ _ hc, ih hl2]
    simp

/-- Reading back lines that were each written with a final line break. -/
theorem getline_loop_lines (lines : List (List Char)) (h : ∀ l ∈ lines, '\n' ∉ l) :
    getline_loop '\n' (lines.flatMap (fun l => l ++ ['\n'])) [] = lines := by
  induction lines with
  | nil => rfl
  | cons l lines ih =>
    have hl : '\n' ∉ l := h l (by simp)
    rw [List.flatMap_cons, List.append_assoc, getline_loop_append '\n' l hl,
      List.singleton_append, getline_loop_delim, List.nil_append,
      ih (fun l2 hl2 => h l2 (by simp [hl2]))]

/-- Splitting a line of words that were each written after a space. -/
theorem getline_loop_words (values : List (List Char))
    (h : ∀ v ∈ values, v ≠ [] ∧ ' ' ∉ v) :
    ∀ item : List Char, item ≠ [] →
      getline_loop ' ' (values.flatMap (fun v => ' ' :: v)) item = item :: values := by
  induction values with
  | nil =>
    intro item hitem
    simp [getline_loop, hitem]
  | cons v values ih =>
    intro item _
    have hv := h v (by simp)
    rw [List.flatMap_cons, List.cons_append, getline_loop_delim,
      getline_loop_append ' ' v hv.2, List.nil_append,
      ih (fun w hw => h w (by simp [hw])) v hv.1]

/-- The tokens of a line written by `map_to_file`. -/
theorem split_written_line (keep_empty_strings : Bool) (key : List Char)
    (values : List (List Char)) (hkey : key ≠ [] ∧ ' ' ∉ key)
    (h : ∀ v ∈ values, v ≠ [] ∧ ' ' ∉ v) :
    split (key ++ values.flatMap (fun v => ' ' :: v)) ' ' keep_empty_strings =
      key :: values := by
  unfold split
  rw [getline_loop_append ' ' key hkey.2, List.nil_append, getline_loop_words values h key hkey.1]
  rw [List.filter_eq_self]
  intro w hw
  have hne : w ≠ [] := by
    rcases List.mem_cons.mp hw with rfl | hw
    · exact hkey.1
    · exact (h w hw).1
  simp [hne]

theorem map_emplace_back_new (map : List (List Char × List (List Char))) (key value : List Char)
    (hkey : key ∉ map.map Prod.fst) :
    map_emplace_back map key value = map ++ [(key, [value])] := by
  induction map with
  | nil => rfl
  | cons kv map ih =>
    obtain ⟨k, values⟩ := kv
    have hk : k ≠ key := fun h => hkey (by simp [h])
    rw [map_emplace_back, if_neg hk, ih (fun h => hkey (by simp [h])), List.cons_append]

theorem map_emplace_back_last (map : List (List Char × List (List Char)))
    (key value : List Char) (values : List (List Char)) (hkey : key ∉ map.map Prod.fst) :
    map_emplace_back (map ++ [(key, values)]) key value = map ++ [(key, values ++ [value])] := by
  induction map with
  | nil => simp [map_emplace_back]
  | cons kv map ih =>
    obtain ⟨k, vs⟩ := kv
    have hk : k ≠ key := fun h => hkey (by simp [h])
    rw [List.cons_append, map_emplace_back, if_neg hk, ih (fun h => hkey (by simp [h]))]
    rfl

theorem map_emplace_back_all (map : List (List Char × List (List Char))) (key : List Char)
    (hkey : key ∉ map.map Prod.fst) (values : List (List Char)) :
    ∀ seen : List (List Char),
      values.foldl (fun m token => map_emplace_back m key token) (map ++ [(key, seen)]) =
        map ++ [(key, seen ++ values)] := by
  induction values with
  | nil => intro seen; simp
  | cons v values ih =>
    intro seen
    simp only [List.foldl_cons]
    rw [map_emplace_back_last map key v seen hkey, ih]
    simp

/-- Reading one line written by `map_to_file` for a key that is not yet in the map and does
not start with one of the comment characters adds the entry at the end. -/
theorem text_to_map_line_written (keep_empty_strings : Bool)
    (map : List (List Char × List (List Char))) (key : List Char) (values : List (List Char))
    (hkey : key ≠ [] ∧ ' ' ∉ key)
    (hstart : key.head? ≠ some '=' ∧ key.head? ≠ some '-' ∧ key.head? ≠ some '#')
    (hvalues : values ≠ []) (h : ∀ v ∈ values, v ≠ [] ∧ ' ' ∉ v)
    (hnew : key ∉ map.map Prod.fst) :
    text_to_map_line keep_empty_strings map (key ++ values.flatMap (fun v => ' ' :: v)) =
      map ++ [(key, values)] := by
  obtain ⟨c, key2, rfl⟩ : ∃ c key2, key = c :: key2 := by
    cases key with
    | nil => exact absurd rfl hkey.1
    | cons c key2 => exact ⟨c, key2, rfl⟩
  have hhead : ((c :: key2) ++ values.flatMap (fun v => ' ' :: v)).headD (Char.ofNat 0) = c := rfl
  have hc : c ≠ '=' ∧ c ≠ '-' ∧ c ≠ '#' := by
    simpa using hstart
  obtain ⟨v, values2, rfl⟩ : ∃ v values2, values = v :: values2 := by
    cases values with
    | nil => exact absurd rfl hvalues
    | cons v values2 => exact ⟨v, values2, rfl⟩
  unfold text_to_map_line
  rw [hhead, if_pos hc, split_written_line keep_empty_strings (c :: key2) (v :: values2) hkey h]
  simp only [List.length_cons, List.drop_succ_cons, List.drop_zero, List.headD_cons,
    List.foldl_cons]
  rw [if_pos (by omega), map_emplace_back_new map (c :: key2) v hnew,
    map_emplace_back_all map (c :: key2) hnew values2 [v]]
  simp

theorem map_to_file_lines (m : List (List Char × List (List Char))) :
    map_to_file m =
      (m.map (fun kv => kv.1 ++ kv.2.flatMap (fun v => ' ' :: v))).flatMap
        (fun l => l ++ ['\n']) := by
  induction m with
  | nil => rfl
  | cons kv m ih =>
    obtain ⟨key, values⟩ := kv
    rw [map_to_file, ih, List.map_cons, List.flatMap_cons]

theorem written_line_no_break (key : List Char) (values : List (List Char))
    (hkey : '\n' ∉ key) (h : ∀ v ∈ values, '\n' ∉ v) :
    '\n' ∉ key ++ values.flatMap (fun v => ' ' :: v) := by
  intro hmem
  rcases List.mem_append.mp hmem with hk | hv
  · exact hkey hk
  · obtain ⟨v, hv1, hv2⟩ := List.mem_flatMap.mp hv
    rcases List.mem_cons.mp hv2 with hc | hc
    · exact absurd hc (by decide)
    · exact h v hv1 hc

/-- Reading the lines written for a map with distinct keys adds its entries, in order, after
the entries already read. -/
theorem text_to_map_fold (keep_empty_strings : Bool) (m : List (List Char × List (List Char))) :
    (m.map Prod.fst).Nodup →
    (∀ kv ∈ m, kv.1 ≠ [] ∧ ' ' ∉ kv.1) →
    (∀ kv ∈ m, kv.1.head? ≠ some '=' ∧ kv.1.head? ≠ some '-' ∧ kv.1.head? ≠ some '#') →
    (∀ kv ∈ m, kv.2 ≠ [] ∧ ∀ v ∈ kv.2, v ≠ [] ∧ ' ' ∉ v) →
    ∀ acc : List (List Char × List (List Char)),
      (∀ kv ∈ m, kv.1 ∉ acc.map Prod.fst) →
      (m.map (fun kv => kv.1 ++ kv.2.flatMap (fun v => ' ' :: v))).foldl
        (text_to_map_line keep_empty_strings) acc = acc ++ m := by
  induction m with
  | nil => intro _ _ _ _ acc _; simp
  | cons kv m ih =>
    intro hnodup hkeys hstart hvalues acc hacc
    obtain ⟨key, values⟩ := kv
    rw [List.map_cons, List.nodup_cons] at hnodup
    have hk := hkeys (key, values) (by simp)
    have hs := hstart (key, values) (by simp)
    have hv := hvalues (key, values) (by simp)
    have hnew := hacc (key, values) (by simp)
    rw [List.map_cons, List.foldl_cons]
    simp only
    rw [text_to_map_line_written keep_empty_strings acc key values hk hs hv.1 hv.2 hnew]
    rw [ih hnodup.2 (fun kv hkv => hkeys kv (by simp [hkv]))
      (fun kv hkv => hstart kv (by simp [hkv])) (fun kv hkv => hvalues kv (by simp [hkv]))]
    · simp
    · intro kv hkv hmem
      rw [List.map_append, List.mem_append] at hmem
      rcases hmem with hmem | hmem
      · exact hacc kv (by simp [hkv]) hmem
      · simp only [List.map_cons, List.map_nil, List.mem_singleton] at hmem
        exact hnodup.1 (by rw [← hmem]; exact List.mem_map.mpr ⟨kv, hkv, rfl⟩)

/-- C18, counterexample: the map with the single key "-x" and the single value "1" is
written as the line "-x 1", which `text_to_map` skips because it starts with a minus sign:
the map read back is empty. -/
theorem text_to_map_skips_dash_key :
    map_to_file [(['-', 'x'], [['1']])] = ['-', 'x', ' ', '1', '\n'] ∧
    text_to_map false (map_to_file [(['-', 'x'], [['1']])]) = [] ∧
    text_to_map true (map_to_file [(['-', 'x'], [['1']])]) = [] ∧
    map_find (text_to_map false (map_to_file [(['-', 'x'], [['1']])])) ['-', 'x'] = none ∧
    map_find [(['-', 'x'], [['1']])] ['-', 'x'] = some [['1']] := by
  decide

/-- C18, amended: for every map whose keys and values are non-empty strings without spaces
or line breaks, in which every key has at least one value and no key starts with one of
the characters `=`, `-` and `#`, `text_to_map` applied to the file written by `map_to_file`
returns the map. -/
theorem text_to_map_round_trip (keep_empty_strings : Bool)
    (m : List (List Char × List (List Char)))
    (hnodup : (m.map Prod.fst).Nodup)
    (hkeys : ∀ kv ∈ m, kv.1 ≠ [] ∧ ' ' ∉ kv.1 ∧ '\n' ∉ kv.1)
    (hstart : ∀ kv ∈ m,
      kv.1.head? ≠ some '=' ∧ kv.1.head? ≠ some '-' ∧ kv.1.head? ≠ some '#')
    (hvalues : ∀ kv ∈ m, kv.2 ≠ [] ∧ ∀ v ∈ kv.2, v ≠ [] ∧ ' ' ∉ v ∧ '\n' ∉ v) :
    text_to_map keep_empty_strings (map_to_file m) = m ∧
      ∀ key, map_find (text_to_map keep_empty_strings (map_to_file m)) key = map_find m key := by
  have hround : text_to_map keep_empty_strings (map_to_file m) = m := by
    unfold text_to_map
    rw [map_to_file_lines, getline_loop_lines]
    · have h := text_to_map_fold keep_empty_strings m hnodup
        (fun kv hkv => ⟨(hkeys kv hkv).1, (hkeys kv hkv).2.1⟩) hstart
        (fun kv hkv => ⟨(hvalues kv hkv).1, fun v hv =>
          ⟨((hvalues kv hkv).2 v hv).1, ((hvalues kv hkv).2 v hv).2.1⟩⟩) []
        (fun _ _ => by simp)
      simpa using h
    · intro l hl
      obtain ⟨kv, hkv, rfl⟩ := List.mem_map.mp hl
      exact written_line_no_break kv.1 kv.2 (hkeys kv hkv).2.2
        (fun v hv => ((hvalues kv hkv).2 v hv).2.2)
  exact ⟨hround, fun key => by rw [hround]⟩

theorem text_to_map_round_trip_witness :
    text_to_map false (map_to_file [(['l', 'r'], [['0', '.', '1']]), (['n'], [['2'], ['3']])]) =
      [(['l', 'r'], [['0', '.', '1']]), (['n'], [['2'], ['3']])] :=
  (text_to_map_round_trip false [(['l', 'r'], [['0', '.', '1']]), (['n'], [['2'], ['3']])]
    (by decide) (by decide) (by decide) (by decide)).1

/-! ## Loading a Fortran-ordered array -/

theorem column_major_strides_concat (shape : List Int) (x : Int) :
    column_major_strides (shape ++ [x]) = column_major_strides shape ++ [shape.prod] := by
  unfold column_major_strides
  rw [List.length_append, List.length_singleton, List.range_succ, List.map_append]
  congr 1
  · apply List.map_congr_left
    intro i hi
    rw [List.mem_range] at hi
    rw [List.take_append_of_le_length (le_of_lt hi)]
  · simp

/-- The row-major strides of the reversed shape, reversed, are the column-major strides. -/
theorem reversed_trivial_strides (shape : List Int) :
    (exact_trivial_strides shape.reverse).reverse = column_major_strides shape := by
  induction shape using List.reverseRecOn with
  | nil => rfl
  | append_singleton xs x ih =>
    rw [List.reverse_append, List.reverse_singleton, List.singleton_append,
      exact_trivial_strides_cons, List.reverse_cons, ih, column_major_strides_concat,
      exact_volume_eq_prod, List.prod_reverse]

/-- The normalized strides of a descriptor built by the constructor are the strides passed
to it, whether the constructor removed them or not. -/
theorem normalized_after_compaction (shape : List Int) (m : Nat) (off : Int)
    (strides cs : List Int) (dt : DType) (hlen : strides.length = shape.length)
    (hcs : (cs = [] ∧ (strides = [] ∨ strides = shape_to_trivial_strides shape)) ∨
        (cs = strides ∧ strides ≠ [] ∧ strides ≠ shape_to_trivial_strides shape)) :
    ({ shape := shape, memory := m, offset := off, strides := cs, dtype := dt } :
        ArrayState).normalized_strides = strides := by
  rcases hcs with ⟨hnil, hs | hs⟩ | ⟨heq, hne, _⟩
  · subst hnil; subst hs
    have hshape : shape = [] := List.length_eq_zero.mp hlen.symm
    subst hshape
    rfl
  · subst hnil
    simp [ArrayState.normalized_strides, hs]
  · subst heq
    have hpos : cs.length > 0 := List.length_pos.mpr hne
    simp [ArrayState.normalized_strides, hpos]

/-- The descriptor of the transpose of an array without strides: the shape reversed, the
same memory block and offset, and the row-major strides reversed. -/
theorem transpose_descriptor (a : Array) (h : Heap) (p : Nat) (st : ArrayState)
    (hp : a.state = some p) (hst : h.states[p]? = some st) (hstr : st.strides = [])
    (hpos : shape_strictly_positive st.shape = true) :
    ∃ t h2 st2, a.transpose h = .ok (t, h2) ∧ t.points_to h2 st2 ∧
      st2.shape = st.shape.reverse ∧ st2.memory = st.memory ∧ st2.offset = st.offset ∧
      st2.dtype = st.dtype ∧
      st2.normalized_strides = (shape_to_trivial_strides st.shape).reverse ∧
      h2.memories = h.memories := by
  have hloop := dimshuffle_loop_transpose st.shape (shape_to_trivial_strides st.shape)
    (by rw [shape_to_trivial_strides_length]) (shape_strictly_positive_ne _ hpos) 0 []
  simp only [List.replicate_zero, List.append_nil] at hloop
  have hns : st.normalized_strides = shape_to_trivial_strides st.shape := by
    simp [ArrayState.normalized_strides, hstr]
  obtain ⟨cs, hfm, hcs⟩ := from_memory_spec st.shape.reverse st.memory st.offset
    (shape_to_trivial_strides st.shape).reverse st.dtype h
    (by rw [shape_strictly_positive_reverse]; exact hpos)
    (Or.inr (by simp [shape_to_trivial_strides_length]))
  have hnorm := normalized_after_compaction st.shape.reverse st.memory st.offset
    (shape_to_trivial_strides st.shape).reverse cs st.dtype
    (by simp [shape_to_trivial_strides_length]) hcs
  have hl := alloc_state_lookup h
    { shape := st.shape.reverse, memory := st.memory, offset := st.offset, strides := cs,
      dtype := st.dtype }
  generalize h.alloc_state
    { shape := st.shape.reverse, memory := st.memory, offset := st.offset, strides := cs,
      dtype := st.dtype } = X at hfm hl
  refine ⟨X.1, X.2, _, ?_, ⟨_, hl.1, hl.2.1⟩, rfl, rfl, rfl, rfl, hnorm, hl.2.2⟩
  unfold Array.transpose Array.dimshuffle
  rw [ndim_of_state a h p st hp hst, transpose_permutation_length]
  simp only [ne_eq, not_true_eq_false, if_false, deref_of_state a h p st _ hp hst, hns, hloop]
  exact hfm

theorem strided_offset_eq_sum (indices : List Int) :
    ∀ strides : List Int, indices.length = strides.length →
      strided_offset indices strides =
        ((List.range strides.length).map
          (fun (k : Nat) => indices.getD k 0 * strides.getD k 0)).sum := by
  induction indices with
  | nil =>
    intro strides hlen
    have : strides = [] := List.length_eq_zero.mp hlen.symm
    subst this
    rfl
  | cons i indices ih =>
    intro strides hlen
    cases strides with
    | nil => simp at hlen
    | cons d strides =>
      simp only [List.length_cons, Nat.add_right_cancel_iff] at hlen
      rw [strided_offset, ih strides hlen, List.length_cons, List.range_succ_eq_map,
        List.map_cons, List.sum_cons, List.map_map]
      rfl

theorem in_bounds_length (indices : List Int) :
    ∀ shape : List Int, in_bounds indices shape = true → indices.length = shape.length := by
  induction indices with
  | nil =>
    intro shape h
    cases shape with
    | nil => rfl
    | cons s shape => simp [in_bounds] at h
  | cons i indices ih =>
    intro shape h
    cases shape with
    | nil => simp [in_bounds] at h
    | cons s shape =>
      simp only [in_bounds, Bool.and_eq_true] at h
      simp [ih shape h.2.2]

/-- The strided offset under column-major strides is the position the specification
states. -/
theorem strided_offset_column_major (shape indices : List Int)
    (hlen : indices.length = shape.length) :
    strided_offset indices (column_major_strides shape) =
      column_major_position shape indices := by
  have hl : (column_major_strides shape).length = shape.length := by
    simp [column_major_strides]
  rw [strided_offset_eq_sum indices _ (by rw [hl, hlen]), hl]
  unfold column_major_position
  congr 1
  apply List.map_congr_left
  intro k hk
  rw [List.mem_range] at hk
  simp [column_major_strides, List.getD_eq_getElem?_getD, hk]

/-- C12, counterexample: for the declared shape `{65536, 65536, 2}` the column-major
strides are `{1, 65536, 4294967296}`, while the loaded array has the normalized strides
`{1, 65536, 0}`: the last one is the `int` product of `65536` and `65536`. -/
theorem load_fortran_order_wraps_stride :
    (∀ s ∈ ([65536, 65536, 2] : List Int), 0 < s) ∧
    column_major_strides [65536, 65536, 2] = [1, 65536, 4294967296] ∧
    ∃ a h2 st, load_npy_from_npyarray
        { data := fun i => i, shape := [65536, 65536, 2], word_size := 8, dtype := 'f',
          fortran_order := true } (fun _ => 0) Heap.empty = .ok (a, h2) ∧
      a.points_to h2 st ∧ st.shape = [65536, 65536, 2] ∧ st.offset = 0 ∧
      st.normalized_strides = [1, 65536, 0] ∧
      st.normalized_strides ≠ column_major_strides [65536, 65536, 2] :=
  ⟨by decide, by decide, _, _, _, rfl, ⟨_, rfl, rfl⟩, rfl, rfl, rfl, by decide⟩

/-- C12, amended: loading a Fortran-ordered array whose kind and word size are accepted
and whose sizes are all positive, with a product that fits in an `int`, returns an array
of the declared shape and offset zero whose normalized strides are the column-major
strides, the stride of axis `i` being the product of the sizes of the axes before `i`;
its memory holds the buffer of the file, and the element at an in-bounds multi-index sits
at the buffer position that is the sum over the axes `k` of `i_k` times the product of
the sizes of the axes before `k`. -/
theorem load_fortran_order_layout (arr : NpyArray) (contents : Int → Int) (h : Heap)
    (dtype : DType) (hdtype : npy_detect_dtype arr.dtype arr.word_size = .ok dtype)
    (hfortran : arr.fortran_order = true) (hpos : ∀ s ∈ arr.shape, 0 < s)
    (hfit : fits_int (exact_volume arr.shape) = true) :
    ∃ a h2 st, load_npy_from_npyarray arr contents h = .ok (a, h2) ∧ a.points_to h2 st ∧
      st.shape = arr.shape ∧ st.offset = 0 ∧
      st.normalized_strides = column_major_strides arr.shape ∧
      st.dtype = dtype ∧ h2.contents st.memory = arr.data ∧
      ∀ idx, in_bounds idx arr.shape = true →
        st.element_offset idx = column_major_position arr.shape idx ∧
        st.element h2 idx = arr.data (column_major_position arr.shape idx) := by
  have hsp : shape_strictly_positive arr.shape.reverse = true := by
    rw [shape_strictly_positive_reverse]
    simpa [shape_strictly_positive] using hpos
  have hfresh : Array.fresh arr.shape.reverse dtype contents h =
      .ok ((h.alloc_memory contents).2.alloc_state
        { shape := arr.shape.reverse, memory := (h.alloc_memory contents).1, offset := 0,
          strides := [], dtype := dtype }) := by
    simp [Array.fresh, Array.initialize_shape, hsp]
  have hl := alloc_state_lookup (h.alloc_memory contents).2
    { shape := arr.shape.reverse, memory := (h.alloc_memory contents).1, offset := 0,
      strides := [], dtype := dtype }
  generalize (h.alloc_memory contents).2.alloc_state
    { shape := arr.shape.reverse, memory := (h.alloc_memory contents).1, offset := 0,
      strides := [], dtype := dtype } = X at hfresh hl
  obtain ⟨t, h2, st2, htr, ⟨q, hq, hst2⟩, hshape, hmem, hoff, hdt, hnorm, hmems⟩ :=
    transpose_descriptor X.1 X.2 _ _ hl.1 hl.2.1 rfl hsp
  simp only [List.reverse_reverse] at hshape hnorm
  have hmemory : t.memory h2 = some st2.memory := by
    simp [Array.memory, deref_of_state t h2 q st2 _ hq hst2]
  have hm : st2.memory = h.memories.length := hmem
  have hcolumn : st2.normalized_strides = column_major_strides arr.shape := by
    rw [hnorm, shape_to_trivial_strides_of_fits _ hsp (by rw [exact_volume_reverse]; exact hfit),
      reversed_trivial_strides]
  have hbuffer : (h2.adopt_buffer st2.memory arr.data).contents st2.memory = arr.data := by
    have hlen : h2.memories = h.memories ++ [contents] := by
      rw [hmems, hl.2.2]
      rfl
    simp [Heap.contents, Heap.adopt_buffer, hm, hlen]
  refine ⟨t, h2.adopt_buffer st2.memory arr.data, st2, ?_, ⟨q, hq, hst2⟩, hshape, hoff,
    hcolumn, hdt, hbuffer, ?_⟩
  · unfold load_npy_from_npyarray
    simp only [hdtype, hfortran, if_true, hfresh]
    have hX : X = (X.1, X.2) := rfl
    rw [hX]
    simp only [htr, hmemory]
  · intro idx hin
    have hposition : st2.element_offset idx = column_major_position arr.shape idx := by
      unfold ArrayState.element_offset
      rw [hoff, hcolumn, strided_offset_column_major _ _ (in_bounds_length idx _ hin)]
      simp
    refine ⟨hposition, ?_⟩
    unfold ArrayState.element
    rw [hbuffer, hposition]

/-- C12, witness: the Fortran-ordered array of shape `{2, 3, 4}` is loaded with the strides
`{1, 2, 6}`. -/
theorem load_fortran_order_layout_witness :
    npy_detect_dtype 'f' 8 = .ok DType.DTYPE_DOUBLE ∧ (∀ s ∈ ([2, 3, 4] : List Int), 0 < s) ∧
    fits_int (exact_volume [2, 3, 4]) = true ∧
    ∃ a h2 st, load_npy_from_npyarray
        { data := fun i => i, shape := [2, 3, 4], word_size := 8, dtype := 'f',
          fortran_order := true } (fun _ => 0) Heap.empty = .ok (a, h2) ∧
      a.points_to h2 st ∧ st.shape = [2, 3, 4] ∧ st.offset = 0 ∧
      st.normalized_strides = [1, 2, 6] ∧ st.dtype = DType.DTYPE_DOUBLE := by
  obtain ⟨a, h2, st, hload, hpt, hshape, hoff, hnorm, hdt, _, _⟩ :=
    load_fortran_order_layout
      { data := fun i => i, shape := [2, 3, 4], word_size := 8, dtype := 'f',
        fortran_order := true } (fun _ => 0) Heap.empty DType.DTYPE_DOUBLE rfl rfl (by decide)
      (by decide)
  exact ⟨rfl, by decide, by decide, a, h2, st, hload, hpt, hshape, hoff,
    by rw [hnorm]; decide, hdt⟩

/-! ## More helpers of `utils` -/

/-- What `utils::arange` returns for `start <= end`: the integers from zero on, whatever
`start` is. -/
theorem arange_from_zero (start end_ : Int) (h : start ≤ end_) :
    arange start end_ = .ok (consecutive_from 0 (end_ - start).toNat) := by
  have hneg : ¬ end_ - start < 0 := by omega
  simp [arange, consecutive_from, hneg]

/-- C30 (code defect): `utils::arange(2, 5)` returns `0, 1, 2` and not the consecutive
integers `2, 3, 4`: the loop stores `i` at index `i` and never adds `start`. -/
theorem arange_ignores_start :
    arange 2 5 = .ok [0, 1, 2] ∧ consecutive_from 2 (5 - 2) = [2, 3, 4] :=
  ⟨rfl, by decide⟩

/-- C21 (code defect): `utils::split_str("aab", "ab")` returns the single piece "aab", which
contains the delimiter: after the partial match of the first "a" fails on the second "a",
the matcher restarts behind that character instead of at it, and the occurrence of "ab"
that starts there is missed. -/
theorem split_str_misses_overlapping_match :
    split_str ['a', 'a', 'b'] ['a', 'b'] = [['a', 'a', 'b']] ∧
    ['a', 'b'] <:+: ['a', 'a', 'b'] ∧
    split_str ['a', '-', '-', '-', '>', 'b'] ['-', '-', '>'] =
      [['a', '-', '-', '-', '>', 'b']] ∧
    split_str ['a', '-', '-', '>', 'b'] ['-', '-', '>'] = [['a'], ['b']] :=
  ⟨by decide, ⟨['a'], [], rfl⟩, by decide, by decide⟩

/-! ## Flat indices of kernel views -/

/-- C28 (code defect): for the shape `{2, 3}` and the flat index 1, which is below
`numel() = 6`, `index_to_dim` returns `(1, 0)` and `indices_to_offset` maps that back to 3:
`index_to_dim` takes the remainders from the first axis on, `indices_to_offset` weighs the
axes from the last one on. -/
theorem index_round_trip_fails :
    numel [2, 3] = 6 ∧ index_to_dim 1 [2, 3] = [1, 0] ∧
    indices_to_offset [2, 3] (index_to_dim 1 [2, 3]) = 3 := by
  decide

/-! ## The patience of the sentiment driver -/

/-- C23, counterexample: with a best recall of 50 and a new recall of 50, which does not
exceed the best by `1e-6`, a patience of 1 is lowered to 0 and not raised to 2. -/
theorem patience_recovers_on_equal_recall :
    ¬ exceeds_best 50 50 ∧
    (validation_update
      { patience := 1, best_validation_score := (50, 40), epoch := 3, best_epoch := 2 }
      (50, 40)).patience = 0 := by
  constructor
  · unfold exceeds_best
    norm_num
  · norm_num [validation_update]

/-- C23, amended: after each validation pass patience is increased by 1, the best score
being kept, when the new recall is below the best recall by more than `1e-6`; otherwise
it is decreased by 1 but never below 0 and the best score is set to the new one. -/
theorem validation_update_patience (s : TrainingState) (new_validation : ℚ × ℚ) :
    (new_validation.1 + 1 / 1000000 < s.best_validation_score.1 →
      (validation_update s new_validation).patience = s.patience + 1 ∧
      (validation_update s new_validation).best_validation_score = s.best_validation_score) ∧
    (¬ new_validation.1 + 1 / 1000000 < s.best_validation_score.1 →
      (validation_update s new_validation).patience = max (s.patience - 1) 0 ∧
      0 ≤ (validation_update s new_validation).patience ∧
      (validation_update s new_validation).best_validation_score = new_validation) := by
  constructor
  · intro h
    unfold validation_update
    simp only [h, if_true]
    split_ifs <;> exact ⟨rfl, rfl⟩
  · intro h
    unfold validation_update
    simp only [h, if_false]
    split_ifs <;> exact ⟨rfl, le_max_right _ _, rfl⟩

theorem validation_update_patience_witness :
    ((40 : ℚ) + 1 / 1000000 < 50 ∧
      (validation_update
        { patience := 1, best_validation_score := (50, 40), epoch := 3, best_epoch := 2 }
        (40, 30)).patience = 1 + 1) ∧
    (¬ ((60 : ℚ) + 1 / 1000000 < 50) ∧
      (validation_update
        { patience := 1, best_validation_score := (50, 40), epoch := 3, best_epoch := 2 }
        (60, 30)).best_validation_score = (60, 30)) :=
  ⟨⟨by norm_num,
      ((validation_update_patience
        { patience := 1, best_validation_score := (50, 40), epoch := 3, best_epoch := 2 }
        (40, 30)).1 (by norm_num)).1⟩,
    ⟨by norm_num,
      ((validation_update_patience
        { patience := 1, best_validation_score := (50, 40), epoch := 3, best_epoch := 2 }
        (60, 30)).2 (by norm_num)).2.2⟩⟩

/-! ## The visualizer -/

/-- C24, counterexample: constructing a `Visualizer` without a connection, when the
connection made on the fly fails, raises an error. -/
theorem visualizer_raises_without_connection :
    raises (Visualizer.create "training" none
      { connect_result := false, exists_reply := fun _ => some 0, published := [] }) = true :=
  rfl

/-- C24, amended: when the initial connection fails the constructor of `Visualizer` raises an
error, so no visualizer is constructed; every visualizer that the constructor returns
is connected; and `feed` on a visualizer that is not connected changes nothing and
publishes nothing. -/
theorem visualizer_connection_failure (my_namespace : String) (new_rdx : Redox)
    (hfail : new_rdx.connect_result = false) :
    raises (Visualizer.create my_namespace none new_rdx) = true ∧
    (∀ (other_rdx : Option Redox) (rdx : Redox) (v : Visualizer),
      Visualizer.create my_namespace other_rdx rdx = .ok v → v.connected = true) ∧
    (∀ (v : Visualizer) (dump : String), v.connected = false →
      v.feed dump = v ∧ (v.feed dump).rdx.published = v.rdx.published) := by
  refine ⟨by simp [Visualizer.create, hfail, raises], ?_, ?_⟩
  · intro other_rdx rdx v hv
    unfold Visualizer.create at hv
    cases other_rdx with
    | none =>
      cases hc : rdx.connect_result with
      | false => simp [hc] at hv
      | true =>
        simp only [hc, Bool.not_true, Bool.false_eq_true, if_false] at hv
        cases hr : rdx.exists_reply ("namespace_" ++ my_namespace) with
        | none => simp [hr] at hv
        | some reply =>
          simp only [hr] at hv
          split_ifs at hv
          cases hv
          rfl
    | some other =>
      simp only [Bool.not_true, Bool.false_eq_true, if_false] at hv
      cases hr : other.exists_reply ("namespace_" ++ my_namespace) with
      | none => simp [hr] at hv
      | some reply =>
        simp only [hr] at hv
        split_ifs at hv
        cases hv
        rfl
  · intro v dump hv
    have h1 : v.feed dump = v := by simp [Visualizer.feed, hv]
    exact ⟨h1, by rw [h1]⟩

theorem visualizer_connection_failure_witness :
    raises (Visualizer.create "training" none
      { connect_result := false, exists_reply := fun _ => some 0, published := [] }) = true :=
  (visualizer_connection_failure "training"
    { connect_result := false, exists_reply := fun _ => some 0, published := [] } rfl).1

/-! ## Redirection lists -/

/-- Scanning a text without "->" finds nothing, provided the text does not start with `>`
when a dash was seen just before it. -/
theorem find_if_checker_skip (l : List Char) :
    ∀ (saw_dash : Bool) (pos : Nat) (rest : List Char), ¬ ['-', '>'] <:+: l →
      (saw_dash = true → l.head? ≠ some '>') →
      ∃ final, find_if_checker saw_dash (l ++ rest) pos =
        find_if_checker final rest (pos + l.length) := by
  induction l with
  | nil => intro saw_dash pos rest _ _; exact ⟨saw_dash, rfl⟩
  | cons c l ih =>
    intro saw_dash pos rest hnoarrow hhead
    have hcheck : checker saw_dash c = (false, decide (c = '-')) := by
      cases saw_dash with
      | false => simp [checker]
      | true =>
        have hc : c ≠ '>' := by simpa using hhead rfl
        simp [checker, hc]
    have hrest : ¬ ['-', '>'] <:+: l := fun h => hnoarrow (h.trans (List.suffix_cons c l).isInfix)
    have hhead2 : decide (c = '-') = true → l.head? ≠ some '>' := by
      intro hdash hl
      have hcd : c = '-' := by simpa using hdash
      cases l with
      | nil => simp at hl
      | cons d l2 =>
        have hd : d = '>' := by simpa using hl
        exact hnoarrow ⟨[], l2, by simp [hcd, hd]⟩
    obtain ⟨final, hfinal⟩ := ih (decide (c = '-')) (pos + 1) rest hrest hhead2
    refine ⟨final, ?_⟩
    rw [List.cons_append, find_if_checker, hcheck]
    simp only [Bool.false_eq_true, if_false]
    rw [hfinal, List.length_cons]
    congr 1
    omega

/-- The arrow that follows such a text is found at its `>`. -/
theorem find_if_checker_arrow (l rest : List Char) (saw_dash : Bool)
    (hnoarrow : ¬ ['-', '>'] <:+: l) (hhead : l.head? ≠ some '>') :
    find_if_checker saw_dash (l ++ ['-', '>'] ++ rest) 0 = (some (l.length + 1), true) := by
  obtain ⟨final, hfinal⟩ := find_if_checker_skip l saw_dash 0 (['-', '>'] ++ rest) hnoarrow
    (fun _ => hhead)
  rw [List.append_assoc, hfinal]
  have hdash : checker final '-' = (false, true) := by
    cases final <;> simp [checker]
  have harrow : checker true '>' = (true, true) := by simp [checker]
  rw [List.cons_append, find_if_checker, hdash]
  simp only [Bool.false_eq_true, if_false]
  rw [List.cons_append, find_if_checker, harrow]
  simp

/-- C22, counterexample: the line "a-->b" is read as the mapping from "a-" to "b", and not
from "a" to "b". -/
theorem redirection_key_keeps_dash :
    stream_to_redirection_list ['a', '-', '-', '>', 'b', '\n'] [] =
      .ok [(['a', '-'], ['b'])] :=
  rfl

/-- C22, amended: for every line of the form `L ++ "->" ++ R` in which `L` contains no "->"
and does not start with `>`, the loop of `stream_to_redirection_list` inserts the mapping
from `L` to `R`, unless the key `L` is already present, whatever was read before. -/
theorem redirection_line_arrow (saw_dash : Bool) (mapping : List (List Char × List Char))
    (L R : List Char) (hnoarrow : ¬ ['-', '>'] <:+: L) (hhead : L.head? ≠ some '>') :
    redirection_line (saw_dash, mapping) (L ++ ['-', '>'] ++ R) =
      .ok (true, if L ∈ mapping.map Prod.fst then mapping else mapping ++ [(L, R)]) := by
  unfold redirection_line
  simp only [find_if_checker_arrow L R saw_dash hnoarrow hhead]
  have hne : ¬ L.length + 1 = 0 := by omega
  rw [if_neg hne]
  have htake : (L ++ ['-', '>'] ++ R).take (L.length + 1 - 1) = L := by
    simp [List.append_assoc, List.take_append_eq_append_take]
  have hdrop : (L ++ ['-', '>'] ++ R).drop (L.length + 1 + 1) = R := by
    have h2 : L.length + 1 + 1 - L.length = 2 := by omega
    rw [List.append_assoc, List.drop_append_eq_append_drop, h2,
      List.drop_eq_nil_of_le (by omega)]
    rfl
  rw [htake, hdrop]
  have hany : (mapping.any fun kv => decide (kv.1 = L)) = decide (L ∈ mapping.map Prod.fst) := by
    rw [Bool.eq_iff_iff, List.any_eq_true, decide_eq_true_eq, List.mem_map]
    constructor
    · rintro ⟨kv, hkv, h⟩
      exact ⟨kv, hkv, by simpa using h⟩
    · rintro ⟨kv, hkv, h⟩
      exact ⟨kv, hkv, by simpa using h⟩
  unfold map_emplace
  rw [hany]
  by_cases hmem : L ∈ mapping.map Prod.fst
  · simp [hmem]
  · simp [hmem]

theorem redirection_line_arrow_witness :
    redirection_line (true, [(['x'], ['y'])]) (['a'] ++ ['-', '>'] ++ ['b', '>']) =
      .ok (true, [(['x'], ['y']), (['a'], ['b', '>'])]) :=
  redirection_line_arrow true [(['x'], ['y'])] ['a'] ['b', '>'] (by decide) (by decide)

/-! ## Flat element access -/

theorem split_digits (idx V x : Int) (hV : 0 < V) (hx : 0 < x) :
    idx / (V * x) = idx / x / V ∧ idx % (V * x) / x = idx / x % V ∧
      idx % (V * x) % x = idx % x := by
  have h3 : idx % (V * x) % x = idx % x := Int.emod_emod_of_dvd idx (Dvd.intro_left V rfl)
  have hr0 := Int.emod_nonneg idx hx.ne'
  have hr1 := Int.emod_lt_of_pos idx hx
  have hq := Int.emod_add_ediv idx x
  have hs0 := Int.emod_nonneg (idx / x) hV.ne'
  have hs1 := Int.emod_lt_of_pos (idx / x) hV
  have hp := Int.emod_add_ediv (idx / x) V
  have hu := (Int.ediv_emod_unique (mul_pos hV hx)).mpr
    (show (x * (idx / x % V) + idx % x) + V * x * (idx / x / V) = idx ∧
        0 ≤ x * (idx / x % V) + idx % x ∧ x * (idx / x % V) + idx % x < V * x from
      ⟨by nlinarith, by nlinarith, by nlinarith⟩)
  refine ⟨hu.1, ?_, h3⟩
  rw [hu.2]
  exact ((Int.ediv_emod_unique hx).mpr ⟨by ring, hr0, hr1⟩).1

/-- The multi-index of a position, the last axis split off. -/
theorem unravel_index_concat (xs : List Int) (x : Int) (hx : 0 < x) :
    ∀ idx : Int, shape_strictly_positive xs = true → 0 ≤ idx →
      idx < exact_volume xs * x →
      unravel_index (xs ++ [x]) idx = unravel_index xs (idx / x) ++ [idx % x] := by
  induction xs with
  | nil =>
    intro idx _ h0 h1
    have hlt : idx < x := by simpa [exact_volume] using h1
    simp [unravel_index, exact_volume, Int.emod_eq_of_lt h0 hlt]
  | cons y ys ih =>
    intro idx hpos h0 h1
    rw [shape_strictly_positive_cons] at hpos
    have hV := exact_volume_pos ys hpos.2
    have hd := split_digits idx (exact_volume ys) x hV hx
    have hmod0 := Int.emod_nonneg idx (mul_pos hV hx).ne'
    have hmod1 := Int.emod_lt_of_pos idx (mul_pos hV hx)
    rw [List.cons_append, unravel_index, exact_volume_append,
      show exact_volume [x] = x from by simp [exact_volume],
      ih (idx % (exact_volume ys * x)) hpos.2 hmod0 hmod1, unravel_index, hd.1, hd.2.1,
      hd.2.2]
    rfl

theorem strided_offset_concat (u : List Int) :
    ∀ (ms : List Int) (d n : Int), u.length = ms.length →
      strided_offset (u ++ [d]) (ms ++ [n]) = strided_offset u ms + d * n := by
  induction u with
  | nil =>
    intro ms d n hlen
    have : ms = [] := List.length_eq_zero.mp hlen.symm
    subst this
    simp [strided_offset]
  | cons i u ih =>
    intro ms d n hlen
    cases ms with
    | nil => simp at hlen
    | cons m ms =>
      simp only [List.length_cons, Nat.add_right_cancel_iff] at hlen
      rw [List.cons_append, List.cons_append, strided_offset, ih ms d n hlen, strided_offset]
      ring

theorem unravel_index_length (shape : List Int) :
    ∀ idx : Int, (unravel_index shape idx).length = shape.length := by
  induction shape with
  | nil => intro idx; rfl
  | cons s shape ih => intro idx; simp [unravel_index, ih]

/-- The loop of `operator()` computes the strided offset of the multi-index of the
position. -/
theorem flat_access_loop_spec (shape : List Int) :
    ∀ (ns : List Int) (idx delta : Int), shape.length = ns.length →
      shape_strictly_positive shape = true → 0 ≤ idx → idx < exact_volume shape →
      flat_access_loop shape.reverse ns.reverse idx delta =
        delta + strided_offset (unravel_index shape idx) ns := by
  induction shape using List.reverseRecOn with
  | nil =>
    intro ns idx delta hlen _ _ _
    have : ns = [] := List.length_eq_zero.mp hlen.symm
    subst this
    simp [flat_access_loop, unravel_index, strided_offset]
  | append_singleton xs x ih =>
    intro ns idx delta hlen hpos h0 h1
    obtain ⟨ms, n, rfl⟩ : ∃ ms n, ns = ms ++ [n] := by
      cases hns : ns.reverse with
      | nil =>
        have : ns = [] := by simpa using hns
        subst this
        simp at hlen
      | cons n rest =>
        exact ⟨rest.reverse, n, by rw [← List.reverse_reverse ns, hns, List.reverse_cons]⟩
    have hlen2 : xs.length = ms.length := by simpa using hlen
    have hposx : shape_strictly_positive xs = true ∧ 0 < x := by
      simpa [shape_strictly_positive, and_comm] using hpos
    rw [exact_volume_append, show exact_volume [x] = x from by simp [exact_volume]]
      at h1
    have hVx := exact_volume_pos xs hposx.1
    have hq0 : 0 ≤ idx / x := Int.ediv_nonneg h0 hposx.2.le
    have hq1 : idx / x < exact_volume xs := by
      apply Int.ediv_lt_of_lt_mul hposx.2
      exact h1
    rw [List.reverse_append, List.reverse_append, List.reverse_singleton,
      List.reverse_singleton, List.singleton_append, List.singleton_append, flat_access_loop,
      Int.tdiv_eq_ediv h0 hposx.2.le, Int.tmod_eq_emod h0 hposx.2.le,
      ih ms (idx / x) _ hlen2 hposx.1 hq0 hq1,
      unravel_index_concat xs x hposx.2 idx hposx.1 h0 h1,
      strided_offset_concat _ ms _ n (by rw [unravel_index_length, hlen2])]
    ring

/-- Inside the range `[0, number_of_elements())` `operator()(idx)` returns a rank-0 view of
the same memory whose offset is that of the element at the row-major position `idx`. -/
theorem flat_access_in_range (a : Array) (h : Heap) (st : ArrayState) (idx : Int)
    (hpt : a.points_to h st) (hwf : st.well_formed = true)
    (hfit : fits_int (exact_volume st.shape) = true) (h0 : 0 ≤ idx)
    (h1 : idx < a.number_of_elements h) :
    ∃ r h2 sr, a.operator_call idx h = .ok (r, h2) ∧ r.points_to h2 sr ∧
      sr.shape = [] ∧ sr.memory = st.memory ∧
      in_bounds (unravel_index st.shape idx) st.shape = true ∧
      sr.offset = st.element_offset (unravel_index st.shape idx) := by
  obtain ⟨p, hp, hst⟩ := hpt
  have hnum : a.number_of_elements h = exact_volume st.shape := by
    simp [Array.number_of_elements, deref_of_state a h p st _ hp hst,
      hypercube_volume_of_fits _ hfit]
  rw [hnum] at h1
  have hwf2 := hwf
  simp only [ArrayState.well_formed, Bool.and_eq_true, Bool.or_eq_true, decide_eq_true_eq] at hwf2
  obtain ⟨hpos, hstr⟩ := hwf2
  obtain ⟨hin, hrow⟩ := row_major_position_unravel st.shape idx hpos h0 h1
  have hdelta : st.offset + st.delta_offset idx =
      st.element_offset (unravel_index st.shape idx) := by
    unfold ArrayState.delta_offset
    by_cases hc : st.contiguous_memory = true
    · rw [if_pos hc, element_offset_of_contiguous st _ hwf hc hin,
        shape_to_trivial_strides_of_fits _ hpos hfit, hrow]
    · rw [if_neg hc]
      have hnslen : st.shape.length = st.normalized_strides.length := by
        unfold ArrayState.normalized_strides
        split_ifs with hl
        · rcases hstr with h2 | h2
          · have : st.strides = [] := List.isEmpty_iff.mp h2
            simp [this] at hl
          · exact h2.symm
        · rw [shape_to_trivial_strides_length]
      rw [flat_access_loop_spec st.shape st.normalized_strides idx 0 hnslen hpos h0 h1]
      simp [ArrayState.element_offset]
  obtain ⟨cs, hfm, hcs⟩ := from_memory_spec [] st.memory (st.offset + st.delta_offset idx) []
    st.dtype h (by decide) (Or.inl rfl)
  have hcs2 : cs = [] := by
    rcases hcs with ⟨hc, _⟩ | ⟨_, hne, _⟩
    · exact hc
    · exact absurd rfl hne
  subst hcs2
  have hl := alloc_state_lookup h
    { shape := [], memory := st.memory, offset := st.offset + st.delta_offset idx,
      strides := [], dtype := st.dtype }
  generalize h.alloc_state
    { shape := [], memory := st.memory, offset := st.offset + st.delta_offset idx,
      strides := [], dtype := st.dtype } = X at hfm hl
  refine ⟨X.1, X.2, _, ?_, ⟨_, hl.1, hl.2.1⟩, rfl, rfl, hin, hdelta⟩
  unfold Array.operator_call
  rw [hnum, if_neg (by simp only [not_not]; exact ⟨h0, h1.le⟩),
    contiguous_memory_of_state a h p st hp hst, deref_of_state a h p st _ hp hst]
  exact hfm

/-- The indices on which `operator()(idx)` raises on a stateful array: the negative ones and
those above `number_of_elements()`. -/
theorem flat_access_raises_iff (a : Array) (h : Heap) (st : ArrayState) (idx : Int)
    (hpt : a.points_to h st) :
    raises (a.operator_call idx h) = true ↔ idx < 0 ∨ a.number_of_elements h < idx := by
  obtain ⟨p, hp, hst⟩ := hpt
  unfold Array.operator_call
  by_cases hr : 0 ≤ idx ∧ idx ≤ a.number_of_elements h
  · rw [if_neg (not_not.mpr hr), contiguous_memory_of_state a h p st hp hst,
      deref_of_state a h p st _ hp hst]
    obtain ⟨cs, hfm, _⟩ := from_memory_spec [] st.memory (st.offset + st.delta_offset idx) []
      st.dtype h (by decide) (Or.inl rfl)
    simp only [hfm, raises]
    constructor
    · intro hx
      cases hx
    · intro hx
      omega
  · rw [if_pos hr]
    simp only [raises, true_iff]
    by_contra hcon
    exact hr ⟨by omega, by omega⟩

/-- C29 (code defect): on a new array of three elements `operator()(3)` does not raise; it
returns a rank-0 view at offset 3, one past the last element: the assertion accepts
`idx <= number_of_elements()`. -/
theorem flat_access_accepts_end_index :
    ∃ a h1 r h2,
      Array.fresh [3] DType.DTYPE_FLOAT (fun _ => 0) Heap.empty = .ok (a, h1) ∧
      a.number_of_elements h1 = 3 ∧
      a.operator_call 3 h1 = .ok (r, h2) ∧
      r.shape h2 = .ok [] ∧ r.offset h2 = .ok 3 ∧
      raises (a.operator_call 4 h1) = true ∧ raises (a.operator_call (-1) h1) = true :=
  ⟨_, _, _, _, rfl, rfl, rfl, rfl, rfl, rfl, rfl⟩

/-! ## The meaning of contiguity -/

theorem trivial_stride_at (shape : List Int) :
    ∀ k : Nat, k < shape.length →
      (exact_trivial_strides shape).getD k 0 = (shape.drop (k + 1)).prod := by
  induction shape with
  | nil => intro k hk; simp at hk
  | cons s shape ih =>
    intro k hk
    rw [exact_trivial_strides_cons]
    cases k with
    | zero => simp [exact_volume_eq_prod]
    | succ k =>
      simp only [List.length_cons, Nat.add_lt_add_iff_right] at hk
      have := ih k hk
      simpa using this

/-- The strided offset under the row-major strides is the row-major flat index. -/
theorem strided_offset_row_major (shape indices : List Int)
    (hlen : indices.length = shape.length) :
    strided_offset indices (exact_trivial_strides shape) =
      row_major_flat_index shape indices := by
  have hl := exact_trivial_strides_length shape
  rw [strided_offset_eq_sum indices _ (by rw [hl, hlen]), hl]
  unfold row_major_flat_index
  congr 1
  apply List.map_congr_left
  intro k hk
  rw [List.mem_range] at hk
  rw [trivial_stride_at shape k hk]

theorem strided_offset_zeros (n : Nat) :
    ∀ strides : List Int, strided_offset (List.replicate n 0) strides = 0 := by
  induction n with
  | zero => intro strides; cases strides <;> rfl
  | succ n ih =>
    intro strides
    cases strides with
    | nil => rfl
    | cons d strides => simp [List.replicate_succ, strided_offset, ih]

theorem in_bounds_zeros (shape : List Int) (hpos : shape_strictly_positive shape = true) :
    in_bounds (List.replicate shape.length 0) shape = true := by
  induction shape with
  | nil => rfl
  | cons s shape ih =>
    rw [shape_strictly_positive_cons] at hpos
    simp [List.replicate_succ, in_bounds, hpos.1, ih hpos.2]

/-- When the two strides agree on every in-bounds multi-index, the loop of
`contiguous_memory` finds no axis to object to. -/
theorem contiguous_memory_loop_of_offsets (shape : List Int) :
    ∀ (ts ns : List Int), shape.length = ts.length → shape.length = ns.length →
      shape_strictly_positive shape = true →
      (∀ idx, in_bounds idx shape = true → strided_offset idx ns = strided_offset idx ts) →
      contiguous_memory_loop shape ts ns = true := by
  induction shape with
  | nil => intro ts ns _ _ _ _; simp [contiguous_memory_loop]
  | cons s shape ih =>
    intro ts ns h1 h2 hpos hall
    cases ts with
    | nil => simp at h1
    | cons t ts =>
      cases ns with
      | nil => simp at h2
      | cons n ns =>
        rw [shape_strictly_positive_cons] at hpos
        simp only [List.length_cons, Nat.add_right_cancel_iff] at h1 h2
        have htail : contiguous_memory_loop shape ts ns = true := by
          apply ih ts ns h1 h2 hpos.2
          intro idx hidx
          have h := hall (0 :: idx) (by simp [in_bounds, hpos.1, hidx])
          simpa [strided_offset] using h
        have hhead : 1 < s → t = n := by
          intro hs
          have h := hall (1 :: List.replicate shape.length 0)
            (by simp [in_bounds, hs, in_bounds_zeros shape hpos.2])
          simp only [strided_offset, strided_offset_zeros, one_mul, add_zero] at h
          exact h.symm
        unfold contiguous_memory_loop
        rw [htail]
        by_cases hs : 1 < s
        · simp [hhead hs]
        · simp [hs]

/-- C26, counterexample: the fresh `Array({2, 65536, 65536})` reports contiguous memory, and
so does the view of that shape with the strides `{0, 65536, 1}`, yet the in-bounds
multi-index `(1, 0, 0)` has the strided offset `0` and the row-major flat index `2^32`:
the stride of the first axis is the `int` product of `65536` and `65536`. -/
theorem contiguous_memory_with_wrapped_stride :
    (∃ a h1 st, Array.fresh [2, 65536, 65536] DType.DTYPE_FLOAT (fun _ => 0) Heap.empty =
        .ok (a, h1) ∧
      a.points_to h1 st ∧ st.well_formed = true ∧ a.contiguous_memory h1 = .ok true ∧
      st.normalized_strides = [0, 65536, 1] ∧ in_bounds [1, 0, 0] st.shape = true ∧
      strided_offset [1, 0, 0] st.normalized_strides = 0 ∧
      row_major_flat_index st.shape [1, 0, 0] = 4294967296 ∧
      strided_offset [1, 0, 0] st.normalized_strides ≠
        row_major_flat_index st.shape [1, 0, 0]) ∧
    (Array.points_to { state := some 0 } wrapped_heap wrapped_state ∧
      wrapped_state.well_formed = true ∧
      Array.contiguous_memory { state := some 0 } wrapped_heap = .ok true ∧
      in_bounds [1, 0, 0] wrapped_state.shape = true ∧
      strided_offset [1, 0, 0] wrapped_state.normalized_strides = 0 ∧
      row_major_flat_index wrapped_state.shape [1, 0, 0] = 4294967296 ∧
      strided_offset [1, 0, 0] wrapped_state.normalized_strides ≠
        row_major_flat_index wrapped_state.shape [1, 0, 0]) :=
  ⟨⟨_, _, _, rfl, ⟨_, rfl, rfl⟩, by decide, rfl, by decide, by decide, by decide, by decide,
      by decide⟩,
    ⟨⟨0, rfl, rfl⟩, by decide, rfl, by decide, by decide, by decide, by decide⟩⟩

/-- C26, amended: for a stateful array with a well-formed descriptor whose sizes multiply to
a number that fits in an `int`, `contiguous_memory()` returns, and it returns true if and
only if every in-bounds multi-index has a strided offset, the sum of `i_k` times the
normalized stride of axis `k`, equal to its row-major flat index, the sum of `i_k` times
the product of the sizes of the axes after `k`. -/
theorem contiguous_memory_meaning (a : Array) (h : Heap) (st : ArrayState)
    (hpt : a.points_to h st) (hwf : st.well_formed = true)
    (hfit : fits_int (exact_volume st.shape) = true) :
    ∃ c, a.contiguous_memory h = .ok c ∧
      (c = true ↔ ∀ idx, in_bounds idx st.shape = true →
        strided_offset idx st.normalized_strides = row_major_flat_index st.shape idx) := by
  obtain ⟨p, hp, hst⟩ := hpt
  refine ⟨st.contiguous_memory, contiguous_memory_of_state a h p st hp hst, ?_⟩
  simp only [ArrayState.well_formed, Bool.and_eq_true, Bool.or_eq_true, decide_eq_true_eq] at hwf
  obtain ⟨hpos, hstr⟩ := hwf
  have hts : shape_to_trivial_strides st.shape = exact_trivial_strides st.shape :=
    shape_to_trivial_strides_of_fits _ hpos hfit
  have hrow : ∀ idx, in_bounds idx st.shape = true →
      row_major_flat_index st.shape idx =
        strided_offset idx (exact_trivial_strides st.shape) := fun idx hidx =>
    (strided_offset_row_major st.shape idx (in_bounds_length idx _ hidx)).symm
  by_cases hempty : st.strides = []
  · have hns : st.normalized_strides = exact_trivial_strides st.shape := by
      simp [ArrayState.normalized_strides, hempty, hts]
    have hc : st.contiguous_memory = true := by simp [ArrayState.contiguous_memory, hempty]
    rw [hc, hns]
    exact ⟨fun _ idx hidx => (hrow idx hidx).symm, fun _ => rfl⟩
  · have hlen : st.strides.length = st.shape.length := by
      rcases hstr with h1 | h1
      · exact absurd (List.isEmpty_iff.mp h1) hempty
      · exact h1
    have hposlen : st.strides.length > 0 := List.length_pos.mpr hempty
    have hns : st.normalized_strides = st.strides := by
      simp [ArrayState.normalized_strides, hposlen]
    have hc : st.contiguous_memory =
        contiguous_memory_loop st.shape (exact_trivial_strides st.shape) st.strides := by
      have : st.strides.isEmpty = false := by
        cases hs : st.strides with
        | nil => exact absurd hs hempty
        | cons _ _ => rfl
      simp [ArrayState.contiguous_memory, this, hts]
    rw [hc, hns]
    constructor
    · intro hloop idx hidx
      rw [hrow idx hidx]
      exact strided_offset_of_contiguous st.shape _ _ idx
        (by rw [exact_trivial_strides_length]) hlen.symm hloop hidx
    · intro hall
      apply contiguous_memory_loop_of_offsets st.shape _ _
        (by rw [exact_trivial_strides_length]) hlen.symm hpos
      intro idx hidx
      rw [hall idx hidx, hrow idx hidx]

/-- C26, witness: the statement on the transposed view of shape `{2, 3}` with strides
`{1, 2}`. -/
theorem contiguous_memory_meaning_witness :
    Array.points_to { state := some 0 } transposed_heap transposed_state ∧
    transposed_state.well_formed = true ∧
    fits_int (exact_volume transposed_state.shape) = true ∧
    ∃ c, Array.contiguous_memory { state := some 0 } transposed_heap = .ok c ∧
      (c = true ↔ ∀ idx, in_bounds idx transposed_state.shape = true →
        strided_offset idx transposed_state.normalized_strides =
          row_major_flat_index transposed_state.shape idx) :=
  ⟨⟨0, rfl, rfl⟩, by decide, by decide,
    contiguous_memory_meaning { state := some 0 } transposed_heap transposed_state
      ⟨0, rfl, rfl⟩ (by decide) (by decide)⟩

/-! ## Reductions of `op2` -/

/-- C27 (code defect): for a buffer of shape `{2, 3, 4}` and axis 0, `op2::argmax` and
`op2::argmin` have dtype int32 and the shape `{4, 3}`, not `{3, 4}`: the axis is swapped
with the last axis before the last axis is reduced, so the last axis takes the place of the
reduced one. For axis 1, next to the last axis, the shape is `{2, 4}` as expected. -/
theorem argmax_swaps_last_axis :
    (∃ r, argmax (.array [2, 3, 4] DType.DTYPE_FLOAT true) 0 = .ok r ∧
      r.bshape = [4, 3] ∧ r.dtype = DType.DTYPE_INT32 ∧ r.ndim = 2) ∧
    (∃ r, argmin (.array [2, 3, 4] DType.DTYPE_FLOAT true) 0 = .ok r ∧
      r.bshape = [4, 3] ∧ r.dtype = DType.DTYPE_INT32 ∧ r.ndim = 2) ∧
    (∃ r, argmax (.array [2, 3, 4] DType.DTYPE_FLOAT true) 1 = .ok r ∧ r.bshape = [2, 4]) :=
  ⟨⟨_, rfl, rfl, rfl, rfl⟩, ⟨_, rfl, rfl, rfl, rfl⟩, ⟨_, rfl, rfl⟩⟩

/-- C25 (code defect): the sum over the axes 2 and 3 of an operand of shape `{2, 3, 4, 5}`
that is itself the sum over the last axis of a collapsible buffer of shape
`{2, 3, 4, 5, 6}` has the shape `{2, 12}`, not `{2, 3}`: to collapse its last two axes the
axis reducer collapses its argument at `dim - 1`, which merges the axes 1 and 2 of the
buffer instead of the axes 2 and 3. On the buffer itself the sum over the axes 1 and 3 of
the shape `{2, 3, 4, 5}` has the shape `{2, 4}`. -/
theorem axis_reduce_of_reduction_collapses_wrong_axes :
    (∃ inner outer,
      sum (.array [2, 3, 4, 5, 6] DType.DTYPE_FLOAT true) [4] = .ok inner ∧
      inner.bshape = [2, 3, 4, 5] ∧ inner.ndim = 4 ∧
      sum inner [2, 3] = .ok outer ∧ outer.bshape = [2, 12] ∧ outer.ndim = 2) ∧
    (∃ r, sum (.array [2, 3, 4, 5] DType.DTYPE_FLOAT true) [1, 3] = .ok r ∧
      r.bshape = [2, 4] ∧ r.ndim = 2) ∧
    raises (sum (.array [2, 3, 4, 5] DType.DTYPE_FLOAT true) [1, -3]) = true ∧
    raises (sum (.array [2, 3, 4, 5] DType.DTYPE_FLOAT true) [4]) = true :=
  ⟨⟨_, _, rfl, rfl, rfl, rfl, rfl, rfl⟩, ⟨_, rfl, rfl, rfl⟩, rfl, rfl⟩

theorem normalize_axes_ok (ndim : Int) (axes : List Int)
    (h : ∀ axis ∈ axes, 0 ≤ normalize_axis_value ndim axis ∧
      normalize_axis_value ndim axis < ndim) :
    normalize_axes ndim axes = .ok (axes.map (normalize_axis_value ndim)) := by
  induction axes with
  | nil => rfl
  | cons axis axes ih =>
    have h1 := h axis (by simp)
    unfold normalize_axis_value at h1
    have hcond : ¬ ¬ ((if axis < 0 then axis + ndim else axis) ≥ 0 ∧
        (if axis < 0 then axis + ndim else axis) < ndim) := not_not.mpr h1
    rw [normalize_axes]
    simp only [hcond, if_false, ih (fun x hx => h x (by simp [hx])), List.map_cons]
    rfl

theorem normalize_axes_error (ndim : Int) (axes : List Int)
    (h : ∃ axis ∈ axes, ¬ (0 ≤ normalize_axis_value ndim axis ∧
      normalize_axis_value ndim axis < ndim)) :
    raises (normalize_axes ndim axes) = true := by
  induction axes with
  | nil => simp at h
  | cons axis axes ih =>
    rw [normalize_axes]
    by_cases h1 : 0 ≤ normalize_axis_value ndim axis ∧ normalize_axis_value ndim axis < ndim
    · have hrest : ∃ x ∈ axes, ¬ (0 ≤ normalize_axis_value ndim x ∧
          normalize_axis_value ndim x < ndim) := by
        obtain ⟨x, hx, hbad⟩ := h
        rcases List.mem_cons.mp hx with rfl | hx
        · exact absurd h1 hbad
        · exact ⟨x, hx, hbad⟩
      have hr := ih hrest
      unfold normalize_axis_value at h1
      have hcond : ¬ ¬ ((if axis < 0 then axis + ndim else axis) ≥ 0 ∧
          (if axis < 0 then axis + ndim else axis) < ndim) := not_not.mpr h1
      simp only [hcond, if_false]
      cases hn : normalize_axes ndim axes with
      | error e => rfl
      | ok rest => rw [hn] at hr; simp [raises] at hr
    · unfold normalize_axis_value at h1
      have hcond : ¬ ((if axis < 0 then axis + ndim else axis) ≥ 0 ∧
          (if axis < 0 then axis + ndim else axis) < ndim) := h1
      simp only [hcond, not_false_eq_true, if_true]
      rfl

theorem mark_reduced_dims_raises_iff (l : List Int) :
    ∀ flags : List Bool, (∀ x ∈ l, 0 ≤ x ∧ x.toNat < flags.length) →
      (raises (mark_reduced_dims l flags) = true ↔
        (∃ x ∈ l, flags.getD x.toNat false = true) ∨ ¬ l.Nodup) := by
  induction l with
  | nil => intro flags _; simp [mark_reduced_dims, raises]
  | cons x l ih =>
    intro flags hrange
    have hx := hrange x (by simp)
    rw [mark_reduced_dims]
    by_cases hflag : flags.getD x.toNat false = true
    · rw [if_pos hflag]
      simp only [raises, true_iff]
      exact Or.inl ⟨x, by simp, hflag⟩
    · rw [if_neg hflag]
      have hrange2 : ∀ y ∈ l, 0 ≤ y ∧ y.toNat < (flags.set x.toNat true).length := by
        intro y hy
        rw [List.length_set]
        exact hrange y (by simp [hy])
      rw [ih (flags.set x.toNat true) hrange2, List.nodup_cons]
      have hget : ∀ y ∈ l, ((flags.set x.toNat true).getD y.toNat false = true ↔
          (y = x ∨ flags.getD y.toNat false = true)) := by
        intro y hy
        have hy2 := hrange y (by simp [hy])
        by_cases hyx : y = x
        · subst hyx
          simp [List.getD_eq_getElem?_getD, List.getElem?_set_self hx.2]
        · have hne : x.toNat ≠ y.toNat := by
            intro heq
            apply hyx
            have := hx.1
            have := hy2.1
            omega
          simp [List.getD_eq_getElem?_getD, List.getElem?_set_ne hne, hyx]
      constructor
      · rintro (⟨y, hy, hyf⟩ | hnd)
        · rcases (hget y hy).mp hyf with rfl | hf
          · exact Or.inr (fun hcon => hcon.1 hy)
          · exact Or.inl ⟨y, by simp [hy], hf⟩
        · exact Or.inr (fun hcon => hnd hcon.2)
      · rintro (⟨y, hy, hyf⟩ | hnd)
        · rcases List.mem_cons.mp hy with rfl | hy
          · exact absurd hyf hflag
          · exact Or.inl ⟨y, hy, (hget y hy).mpr (Or.inr hyf)⟩
        · by_cases hmem : x ∈ l
          · exact Or.inl ⟨x, hmem, (hget x hmem).mpr (Or.inl rfl)⟩
          · exact Or.inr (fun hcon => hnd ⟨hmem, hcon⟩)

/-- When `op2::axis_reduce` raises, for an operand of rank at least one and a non-empty list
of axes: some axis is out of range after negative values are shifted by the rank, or an
axis is repeated. -/
theorem axis_reduce_raises_iff (a : OperationState) (reducer_name : String) (axes : List Int)
    (hndim : 1 ≤ a.ndim) (haxes : axes ≠ []) :
    raises (axis_reduce a reducer_name axes) = true ↔
      ((∃ axis ∈ axes, ¬ (0 ≤ normalize_axis_value a.ndim axis ∧
          normalize_axis_value a.ndim axis < a.ndim)) ∨
        ¬ (axes.map (normalize_axis_value a.ndim)).Nodup) := by
  have hlen : ¬ axes.length = 0 := fun h => haxes (List.length_eq_zero.mp h)
  have hnz : ¬ a.ndim = 0 := by omega
  unfold axis_reduce
  rw [if_neg hlen, if_neg hnz]
  by_cases hall : ∀ axis ∈ axes, 0 ≤ normalize_axis_value a.ndim axis ∧
      normalize_axis_value a.ndim axis < a.ndim
  · rw [normalize_axes_ok a.ndim axes hall]
    simp only
    have hperm := List.perm_insertionSort (fun x y : Int => x ≤ y)
      (axes.map (normalize_axis_value a.ndim))
    have hrange : ∀ x ∈ (axes.map (normalize_axis_value a.ndim)).insertionSort
        (fun x y => x ≤ y),
        0 ≤ x ∧ x.toNat < (List.replicate a.ndim.toNat false).length := by
      intro x hx
      rw [hperm.mem_iff, List.mem_map] at hx
      obtain ⟨axis, haxis, rfl⟩ := hx
      have := hall axis haxis
      rw [List.length_replicate]
      omega
    have hmark := mark_reduced_dims_raises_iff _ _ hrange
    have hnoflag : ¬ ∃ x ∈ (axes.map (normalize_axis_value a.ndim)).insertionSort
        (fun x y => x ≤ y),
        (List.replicate a.ndim.toNat false).getD x.toNat false = true := by
      rintro ⟨x, _, hx⟩
      simp only [List.getD_eq_getElem?_getD, List.getElem?_replicate] at hx
      split_ifs at hx <;> simp at hx
    rw [hperm.nodup_iff] at hmark
    have hfirst : ¬ ∃ axis ∈ axes, ¬ (0 ≤ normalize_axis_value a.ndim axis ∧
        normalize_axis_value a.ndim axis < a.ndim) := by
      rintro ⟨axis, haxis, hbad⟩
      exact hbad (hall axis haxis)
    cases hm : mark_reduced_dims ((axes.map (normalize_axis_value a.ndim)).insertionSort
        (fun x y => x ≤ y)) (List.replicate a.ndim.toNat false) with
    | error e =>
      rw [hm] at hmark
      simp only [raises, true_iff]
      rcases hmark.mp rfl with hflag | hnd
      · exact absurd hflag hnoflag
      · exact Or.inr hnd
    | ok reduced_dims =>
      rw [hm] at hmark
      have hnd : (axes.map (normalize_axis_value a.ndim)).Nodup := by
        by_contra hcon
        have := hmark.mpr (Or.inr hcon)
        simp [raises] at this
      have hfalse : ¬ ((∃ axis ∈ axes, ¬ (0 ≤ normalize_axis_value a.ndim axis ∧
          normalize_axis_value a.ndim axis < a.ndim)) ∨
          ¬ (axes.map (normalize_axis_value a.ndim)).Nodup) := by
        rintro (h1 | h1)
        · exact hfirst h1
        · exact h1 hnd
      simp only
      split_ifs <;>
        exact ⟨fun h1 => by simp [raises] at h1, fun h1 => absurd h1 hfalse⟩
  · have hbad : ∃ axis ∈ axes, ¬ (0 ≤ normalize_axis_value a.ndim axis ∧
        normalize_axis_value a.ndim axis < a.ndim) := by
      by_contra hcon
      apply hall
      intro axis haxis
      by_contra hb
      exact hcon ⟨axis, haxis, hb⟩
    have hr := normalize_axes_error a.ndim axes hbad
    cases hn : normalize_axes a.ndim axes with
    | error e =>
      simp only [raises, true_iff]
      exact Or.inl hbad
    | ok l => rw [hn] at hr; simp [raises] at hr

/-- A reducer stacked `m` times on an operand. -/
theorem axis_reducer_iterate_bshape (reducer_name : String) (m : Nat) :
    ∀ res : OperationState,
      ((fun r => OperationState.axis_reducer reducer_name r)^[m] res).bshape =
        res.bshape.take (res.bshape.length - m) := by
  induction m with
  | zero => intro res; simp
  | succ m ih =>
    intro res
    rw [Function.iterate_succ_apply, ih]
    simp only [OperationState.bshape, List.length_dropLast]
    rw [List.dropLast_eq_take, List.take_take]
    congr 1
    omega

theorem reduce_low_axes_never_collapsible (reducer_name : String) (m : Nat) :
    ∀ (collapsed_ndim : Int) (res : OperationState),
      (∀ dim, res.is_dim_collapsible_with_dim_minus_one dim = false) →
      reduce_low_axes reducer_name m collapsed_ndim res =
        (fun r => OperationState.axis_reducer reducer_name r)^[m] res := by
  induction m with
  | zero => intro _ res _; rfl
  | succ m ih =>
    intro collapsed_ndim res hnever
    rw [reduce_low_axes, Function.iterate_succ_apply]
    have hnext : (if m + 1 = 1 then OperationState.axis_reducer reducer_name res
        else if res.is_dim_collapsible_with_dim_minus_one collapsed_ndim = true then
          res.collapse_dim_with_dim_minus_one collapsed_ndim
        else OperationState.axis_reducer reducer_name res) =
        OperationState.axis_reducer reducer_name res := by
      split_ifs with h1 h2
      · rfl
      · rw [hnever] at h2
        cases h2
      · rfl
    simp only [hnext]
    apply ih
    intro dim
    simp [OperationState.is_dim_collapsible_with_dim_minus_one, hnever]

theorem collapse_axes_last (bshape : List Int) (h2 : 2 ≤ bshape.length) :
    (collapse_axes bshape ((bshape.length : Int) - 1)).length = bshape.length - 1 ∧
      ∀ j, j ≤ bshape.length - 2 →
        (collapse_axes bshape ((bshape.length : Int) - 1)).take j = bshape.take j := by
  obtain ⟨n, hn⟩ : ∃ n, bshape.length = n + 2 := ⟨bshape.length - 2, by omega⟩
  have hdim : ((bshape.length : Int) - 1).toNat = n + 1 := by omega
  have hcond : 1 ≤ (bshape.length : Int) - 1 ∧
      (bshape.length : Int) - 1 < (bshape.length : Int) := by omega
  unfold collapse_axes
  rw [if_pos hcond, hdim, hn]
  constructor
  · rw [List.length_eraseIdx_of_lt (by rw [List.length_set]; omega), List.length_set, hn]
  · intro j hj
    have hj2 : j ≤ n := by omega
    apply List.ext_getElem?
    intro i
    by_cases hi : i < j
    · rw [List.getElem?_take_of_lt hi, List.getElem?_take_of_lt hi,
        List.getElem?_eraseIdx_of_lt _ _ _ (by omega), List.getElem?_set_ne (by omega)]
    · rw [List.getElem?_take_eq_none (by omega), List.getElem?_take_eq_none (by omega)]

theorem reduce_low_axes_collapsible (reducer_name : String) (dtype : DType) (m : Nat) :
    ∀ (bshape : List Int), m + 1 ≤ bshape.length →
      (reduce_low_axes reducer_name (m + 1) ((bshape.length : Int) - 1)
        (.array bshape dtype true)).bshape = bshape.take (bshape.length - (m + 1)) ∧
      (reduce_low_axes reducer_name (m + 1) ((bshape.length : Int) - 1)
        (.array bshape dtype true)).ndim = (bshape.length : Int) - ((m : Int) + 1) := by
  induction m with
  | zero =>
    intro bshape hlen
    simp only [reduce_low_axes, Nat.zero_add, if_true, OperationState.bshape,
      OperationState.ndim, List.dropLast_eq_take]
    refine ⟨trivial, ?_⟩
    rw [max_eq_left (by omega)]
    simp
  | succ m ih =>
    intro bshape hlen
    have hc := collapse_axes_last bshape (by omega)
    rw [reduce_low_axes]
    have hne : ¬ m + 1 + 1 = 1 := by omega
    simp only [hne, if_false, OperationState.is_dim_collapsible_with_dim_minus_one, if_true,
      OperationState.collapse_dim_with_dim_minus_one]
    have hlen2 : ((bshape.length : Int) - 1 - 1) =
        (((collapse_axes bshape ((bshape.length : Int) - 1)).length : Int) - 1) := by
      rw [hc.1]
      omega
    rw [hlen2]
    have hih := ih (collapse_axes bshape ((bshape.length : Int) - 1)) (by rw [hc.1]; omega)
    rw [hih.1, hih.2, hc.1, hc.2 _ (by omega)]
    constructor
    · congr 1
      omega
    · push_cast
      omega

theorem axis_reducer_iterate_ndim (reducer_name : String) (m : Nat) :
    ∀ res : OperationState, (m : Int) ≤ res.ndim →
      ((fun r => OperationState.axis_reducer reducer_name r)^[m] res).ndim =
        res.ndim - (m : Int) := by
  induction m with
  | zero => intro res _; simp
  | succ m ih =>
    intro res hm
    have h1 : (m : Int) ≤ (OperationState.axis_reducer reducer_name res).ndim := by
      simp only [OperationState.ndim]
      rw [max_eq_left (by omega)]
      push_cast at hm
      omega
    rw [Function.iterate_succ_apply, ih _ h1]
    simp only [OperationState.ndim]
    rw [max_eq_left (by push_cast at hm; omega)]
    push_cast
    omega

/-- The flags after the marking loop, when no axis is repeated: the flags before it and one
more for every axis of the list. -/
theorem mark_reduced_dims_ok (l : List Int) :
    ∀ flags : List Bool, (∀ x ∈ l, 0 ≤ x ∧ x.toNat < flags.length) → l.Nodup →
      (∀ x ∈ l, flags.getD x.toNat false = false) →
      ∃ marked, mark_reduced_dims l flags = .ok marked ∧ marked.length = flags.length ∧
        ∀ i : Nat, marked.getD i false = (flags.getD i false || decide ((i : Int) ∈ l)) := by
  induction l with
  | nil => intro flags _ _ _; exact ⟨flags, rfl, rfl, fun i => by simp⟩
  | cons x l ih =>
    intro flags hrange hnd hclear
    have hx := hrange x (by simp)
    rw [List.nodup_cons] at hnd
    rw [mark_reduced_dims, if_neg (by rw [hclear x (by simp)]; simp)]
    have hget : ∀ i : Nat, (flags.set x.toNat true).getD i false =
        (flags.getD i false || decide ((i : Int) = x)) := by
      intro i
      by_cases hix : (i : Int) = x
      · have hi : x.toNat = i := by omega
        subst hix
        simp [List.getD_eq_getElem?_getD, hi, List.getElem?_set_self (hi ▸ hx.2)]
      · have hne : x.toNat ≠ i := by
          intro heq
          apply hix
          have := hx.1
          omega
        simp [List.getD_eq_getElem?_getD, List.getElem?_set_ne hne, hix]
    obtain ⟨marked, hm, hlen, hflags⟩ := ih (flags.set x.toNat true)
      (fun y hy => by rw [List.length_set]; exact hrange y (by simp [hy])) hnd.2
      (fun y hy => by
        have hy0 := (hrange y (by simp [hy])).1
        have hyx : ¬ ((y.toNat : Int) = x) := by
          intro heq
          apply hnd.1
          have : y = x := by omega
          rw [← this]
          exact hy
        rw [hget, hclear y (by simp [hy]), decide_eq_false hyx]
        rfl)
    refine ⟨marked, hm, by rw [hlen, List.length_set], ?_⟩
    intro i
    rw [hflags i, hget i]
    simp only [List.mem_cons, Bool.decide_or, Bool.or_assoc]

/-- There are as many marked positions as axes in the list. -/
theorem marked_count (l : List Int) (n : Nat) (hrange : ∀ x ∈ l, 0 ≤ x ∧ x.toNat < n)
    (hnd : l.Nodup) :
    ((List.range n).filter (fun (i : Nat) => decide ((i : Int) ∈ l))).length = l.length := by
  have hnd2 : (l.map Int.toNat).Nodup := by
    apply List.Nodup.map_on _ hnd
    intro x hx y hy hxy
    have := (hrange x hx).1
    have := (hrange y hy).1
    omega
  have hperm : ((List.range n).filter (fun (i : Nat) => decide ((i : Int) ∈ l))).Perm
      (l.map Int.toNat) := by
    rw [List.perm_ext_iff_of_nodup ((List.nodup_range n).filter _) hnd2]
    intro i
    simp only [List.mem_filter, List.mem_range, decide_eq_true_eq, List.mem_map]
    constructor
    · rintro ⟨_, hi⟩
      exact ⟨(i : Int), hi, by simp⟩
    · rintro ⟨x, hx, rfl⟩
      have h := hrange x hx
      exact ⟨h.2, by rw [Int.toNat_of_nonneg h.1]; exact hx⟩
  rw [hperm.length_eq, List.length_map]

theorem takeWhile_index (l : List Bool) (j : Nat) (hj : j < (l.takeWhile (fun b => b)).length) :
    l[j]? = some true := by
  have hsplit := List.takeWhile_append_dropWhile (fun b => b) l
  have hget : l[j]? = (l.takeWhile (fun b => b))[j]? := by
    conv_lhs => rw [← hsplit]
    rw [List.getElem?_append_left hj]
  rw [hget, List.getElem?_eq_getElem hj]
  have hmem : (l.takeWhile (fun b => b))[j] ∈ l.takeWhile (fun b => b) := List.getElem_mem hj
  have := List.mem_takeWhile_imp hmem
  simp only at this
  rw [this]

theorem filter_range_lt (n : Nat) : ∀ m, m ≤ n →
    (List.range n).filter (fun (i : Nat) => decide (i < m)) = List.range m := by
  induction n with
  | zero => intro m hm; have : m = 0 := by omega
            subst this; rfl
  | succ n ih =>
    intro m hm
    rw [List.range_succ, List.filter_append]
    by_cases hmn : m ≤ n
    · rw [ih m hmn]
      have : ¬ n < m := by omega
      simp [this]
    · have hm2 : m = n + 1 := by omega
      subst hm2
      have hall : (List.range n).filter (fun (i : Nat) => decide (i < n + 1)) = List.range n := by
        rw [List.filter_eq_self]
        intro i hi
        rw [List.mem_range] at hi
        simp
        omega
      rw [hall, List.range_succ]
      simp

theorem map_range_getD (l : List Int) : ∀ m, m ≤ l.length →
    (List.range m).map (fun (i : Nat) => l.getD i 0) = l.take m := by
  intro m
  induction m with
  | zero => intro _; simp
  | succ m ih =>
    intro hm
    rw [List.range_succ, List.map_append, ih (by omega), List.take_succ]
    have hlt : m < l.length := by omega
    simp [List.getD_eq_getElem?_getD, List.getElem?_eq_getElem hlt]

/-- When the marked positions are as many as the trailing marked ones, they are the last
ones. -/
theorem trailing_marked (marked : List Bool) (n k : Nat) (hlen : marked.length = n)
    (hcount : ((List.range n).filter (fun (i : Nat) => marked.getD i false)).length = k)
    (hlow : (marked.reverse.takeWhile (fun b => b)).length = k) :
    k ≤ n ∧ ∀ i, i < n → marked.getD i false = decide (n - k ≤ i) := by
  have hkn : k ≤ n := by
    rw [← hcount]
    calc ((List.range n).filter (fun (i : Nat) => marked.getD i false)).length
        ≤ (List.range n).length := List.length_filter_le _ _
      _ = n := List.length_range n
  refine ⟨hkn, ?_⟩
  have hlast : ∀ i, n - k ≤ i → i < n → marked.getD i false = true := by
    intro i hi1 hi2
    have hj : n - 1 - i < (marked.reverse.takeWhile (fun b => b)).length := by omega
    have h := takeWhile_index marked.reverse (n - 1 - i) hj
    rw [List.getElem?_reverse (by omega)] at h
    have hidx : marked.length - 1 - (n - 1 - i) = i := by omega
    rw [hidx] at h
    simp [List.getD_eq_getElem?_getD, h]
  have hsub : List.range' (n - k) k ⊆
      (List.range n).filter (fun (i : Nat) => marked.getD i false) := by
    intro i hi
    rw [List.mem_range'_1] at hi
    rw [List.mem_filter, List.mem_range]
    exact ⟨by omega, hlast i hi.1 (by omega)⟩
  have hperm := (List.subperm_of_subset (List.nodup_range' (n - k) k) hsub).perm_of_length_le
    (by rw [hcount, List.length_range'])
  intro i hi
  by_cases hik : n - k ≤ i
  · rw [hlast i hik hi]
    simp [hik]
  · have hnot : i ∉ List.range' (n - k) k := by
      rw [List.mem_range'_1]
      omega
    rw [hperm.mem_iff, List.mem_filter] at hnot
    have hfalse : marked.getD i false = false := by
      cases hb : marked.getD i false with
      | false => rfl
      | true => exact absurd ⟨List.mem_range.mpr hi, hb⟩ hnot
    rw [hfalse]
    simp [hik]

/-- The last loop of `axis_reduce` on a buffer removes the last axes. -/
theorem reduce_low_axes_buffer (reducer_name : String) (dtype : DType) (collapsible : Bool)
    (m : Nat) (bshape : List Int) (hm : m + 1 ≤ bshape.length) :
    (reduce_low_axes reducer_name (m + 1) ((bshape.length : Int) - 1)
      (.array bshape dtype collapsible)).bshape = bshape.take (bshape.length - (m + 1)) ∧
    (reduce_low_axes reducer_name (m + 1) ((bshape.length : Int) - 1)
      (.array bshape dtype collapsible)).ndim = (bshape.length : Int) - ((m : Int) + 1) := by
  cases collapsible with
  | true => exact reduce_low_axes_collapsible reducer_name dtype m bshape hm
  | false =>
    rw [reduce_low_axes_never_collapsible reducer_name (m + 1) _ _
      (fun dim => by simp [OperationState.is_dim_collapsible_with_dim_minus_one]),
      axis_reducer_iterate_bshape, axis_reducer_iterate_ndim reducer_name (m + 1) _
        (by simp only [OperationState.ndim]; exact_mod_cast hm)]
    simp only [OperationState.bshape, OperationState.ndim]
    exact ⟨trivial, by push_cast; ring⟩

/-- On a buffer operand of rank at least one, for a non-empty list of axes that are in range
and distinct, `op2::axis_reduce` returns an operation whose shape is the shape of the buffer
with the reduced axes removed, the other axes in their order, and whose rank is the rank of
the buffer minus the number of axes. -/
theorem axis_reduce_buffer_shape (bshape : List Int) (dtype : DType) (collapsible : Bool)
    (reducer_name : String) (axes : List Int) (hrank : 1 ≤ bshape.length)
    (haxes : axes ≠ [])
    (hall : ∀ axis ∈ axes, 0 ≤ normalize_axis_value (bshape.length : Int) axis ∧
      normalize_axis_value (bshape.length : Int) axis < (bshape.length : Int))
    (hnd : (axes.map (normalize_axis_value (bshape.length : Int))).Nodup) :
    ∃ r, axis_reduce (.array bshape dtype collapsible) reducer_name axes = .ok r ∧
      r.bshape = remove_axes bshape (axes.map (normalize_axis_value (bshape.length : Int))) ∧
      r.ndim = (bshape.length : Int) - (axes.length : Int) := by
  obtain ⟨n, hn⟩ : ∃ n, n = bshape.length := ⟨_, rfl⟩
  obtain ⟨N, hN⟩ : ∃ N, N = axes.map (normalize_axis_value (bshape.length : Int)) := ⟨_, rfl⟩
  obtain ⟨S, hS⟩ : ∃ S, S = N.insertionSort (fun x y => x ≤ y) := ⟨_, rfl⟩
  have hperm : S.Perm N := by rw [hS]; exact List.perm_insertionSort _ _
  have hSlen : S.length = axes.length := by rw [hperm.length_eq, hN, List.length_map]
  have hk1 : 1 ≤ S.length := by
    rw [hSlen]
    exact List.length_pos.mpr haxes
  have hrangeS : ∀ x ∈ S, 0 ≤ x ∧ x.toNat < n := by
    intro x hx
    rw [hperm.mem_iff, hN, List.mem_map] at hx
    obtain ⟨axis, haxis, rfl⟩ := hx
    have := hall axis haxis
    omega
  have hndS : S.Nodup := hperm.nodup_iff.mpr (hN ▸ hnd)
  have hrep : ∀ i : Nat, (List.replicate n false).getD i false = false := by
    intro i
    simp only [List.getD_eq_getElem?_getD, List.getElem?_replicate]
    split_ifs <;> rfl
  obtain ⟨marked, hm, hmlen, hflags⟩ := mark_reduced_dims_ok S (List.replicate n false)
    (fun x hx => by rw [List.length_replicate]; exact hrangeS x hx) hndS
    (fun x _ => hrep _)
  rw [List.length_replicate] at hmlen
  have hflag : ∀ i : Nat, marked.getD i false = decide ((i : Int) ∈ S) := by
    intro i
    rw [hflags i, hrep i, Bool.false_or]
  have hcount : ((List.range n).filter (fun (i : Nat) => marked.getD i false)).length =
      S.length := by
    rw [← marked_count S n hrangeS hndS]
    congr 1
    apply List.filter_congr
    intro i _
    exact hflag i
  have hkept : (List.range n).filter (fun (i : Nat) => !marked.getD i false) =
      (List.range n).filter (fun (i : Nat) => decide ((i : Int) ∉ N)) := by
    apply List.filter_congr
    intro i _
    rw [hflag i]
    simp [hperm.mem_iff]
  have hkeptlen : ((List.range n).filter (fun (i : Nat) => !marked.getD i false)).length =
      n - S.length := by
    have h := List.length_eq_length_filter_add (l := List.range n)
      (fun (i : Nat) => marked.getD i false)
    rw [List.length_range, hcount] at h
    omega
  have hkn : S.length ≤ n := by
    rw [← hcount]
    calc ((List.range n).filter (fun (i : Nat) => marked.getD i false)).length
        ≤ (List.range n).length := List.length_filter_le _ _
      _ = n := List.length_range n
  have hndim : (OperationState.array bshape dtype collapsible).ndim = (n : Int) := by
    rw [hn]
    rfl
  have htoNat : ((n : Int)).toNat = n := Int.toNat_ofNat n
  unfold axis_reduce
  rw [if_neg (fun h => haxes (List.length_eq_zero.mp h)), hndim, if_neg (by omega), hn,
    normalize_axes_ok _ axes hall, ← hN, ← hn]
  simp only
  rw [← hS, htoNat, hm]
  simp only
  by_cases hk : (S.length : Int) = (n : Int)
  · rw [if_pos hk]
    have hkn2 : S.length = n := by exact_mod_cast hk
    refine ⟨_, rfl, ?_, ?_⟩
    · simp only [all_reduce, OperationState.bshape, remove_axes]
      rw [← hn, ← hkept]
      have hnil : (List.range n).filter (fun (i : Nat) => !marked.getD i false) = [] := by
        apply List.eq_nil_of_length_eq_zero
        rw [hkeptlen]
        omega
      rw [hnil]
      rfl
    · simp only [all_reduce, OperationState.ndim]
      rw [← hSlen, hk, hn]
      simp
  · rw [if_neg hk]
    have hklt : S.length < n := by
      have : S.length ≠ n := fun h => hk (by exact_mod_cast h)
      omega
    have hres : ∃ b' c', (if (!decide ((marked.reverse.takeWhile (fun b => b)).length =
          S.length)) = true then
          (OperationState.array bshape dtype collapsible).transpose
            (((List.range marked.length).filter (fun i => !marked.getD i false) ++
              (List.range marked.length).filter (fun i => marked.getD i false)).map
              (fun (i : Nat) => (i : Int)))
        else OperationState.array bshape dtype collapsible) = .array b' dtype c' ∧
        b'.length = n ∧ b'.take (n - S.length) = remove_axes bshape N := by
      by_cases hlow : (marked.reverse.takeWhile (fun b => b)).length = S.length
      · have hcond : ¬ (!decide ((marked.reverse.takeWhile (fun b => b)).length =
            S.length)) = true := by simp [hlow]
        rw [if_neg hcond]
        refine ⟨bshape, collapsible, rfl, hn.symm, ?_⟩
        have htr := trailing_marked marked n S.length hmlen hcount hlow
        have hk2 : (List.range n).filter (fun (i : Nat) => !marked.getD i false) =
            List.range (n - S.length) := by
          rw [← filter_range_lt n (n - S.length) (by omega)]
          apply List.filter_congr
          intro i hi
          rw [List.mem_range] at hi
          rw [htr.2 i hi]
          by_cases h1 : n - S.length ≤ i
          · have h2 : ¬ i < n - S.length := by omega
            simp [h1, h2]
          · have h2 : i < n - S.length := by omega
            simp [h1, h2]
        unfold remove_axes
        rw [← hn, ← hkept, hk2, map_range_getD bshape _ (by omega)]
      · have hcond : (!decide ((marked.reverse.takeWhile (fun b => b)).length =
            S.length)) = true := by simp [hlow]
        rw [if_pos hcond, hmlen]
        refine ⟨_, _, rfl, ?_, ?_⟩
        · rw [List.length_map, List.length_map, List.length_append, hkeptlen, hcount]
          omega
        · rw [List.map_map, List.map_append, List.take_append_eq_append_take,
            List.length_map, hkeptlen, Nat.sub_self, List.take_zero, List.append_nil,
            List.take_of_length_le (by rw [List.length_map, hkeptlen])]
          unfold remove_axes
          rw [← hn, ← hkept]
          apply List.map_congr_left
          intro i _
          simp
    obtain ⟨b', c', hres1, hb'len, hb'take⟩ := hres
    rw [hres1]
    obtain ⟨m, hmk⟩ : ∃ m, S.length = m + 1 := ⟨S.length - 1, by omega⟩
    have hloop := reduce_low_axes_buffer reducer_name dtype c' m b' (by omega)
    have hcol : (n : Int) - 1 = (b'.length : Int) - 1 := by rw [hb'len]
    rw [hcol, hmk]
    refine ⟨_, rfl, ?_, ?_⟩
    · rw [hloop.1, hb'len, ← hmk, hb'take]
    · rw [hloop.2, hb'len, ← hSlen, hmk, hn]
      push_cast
      ring

/-- The shape that `op2::argument_axis_reduce` gives on a buffer of rank at least two, for a
non-negative axis in range: the shape of the buffer with the size of the last axis in the
place of the reduced axis, and the last axis removed. -/
theorem argument_axis_reduce_buffer_shape (bshape : List Int) (dtype : DType)
    (collapsible : Bool) (reducer_name : String) (axis : Nat) (hrank : 2 ≤ bshape.length)
    (haxis : axis < bshape.length) :
    ∃ r, argument_axis_reduce (.array bshape dtype collapsible) reducer_name (axis : Int) =
        .ok r ∧
      r.bshape = (bshape.set axis (bshape.getD (bshape.length - 1) 0)).dropLast ∧
      r.dtype = DType.DTYPE_INT32 ∧ r.ndim = (bshape.length : Int) - 1 := by
  have hndim : (OperationState.array bshape dtype collapsible).ndim = (bshape.length : Int) :=
    rfl
  have hnorm : (if (axis : Int) < 0 then (axis : Int) + (bshape.length : Int)
      else (axis : Int)) = (axis : Int) := by
    rw [if_neg (by omega)]
  unfold argument_axis_reduce
  rw [hndim, if_neg (by omega)]
  simp only [hnorm]
  rw [if_neg (by omega), if_neg (by omega)]
  refine ⟨_, rfl, ?_, rfl, ?_⟩
  · by_cases hlast : (axis : Int) = (bshape.length : Int) - 1
    · have hax : axis = bshape.length - 1 := by omega
      rw [if_neg (not_not.mpr hlast)]
      simp only [OperationState.bshape]
      rw [hax, List.dropLast_eq_take, List.dropLast_eq_take, List.length_set]
      apply List.ext_getElem?
      intro i
      by_cases hi : i < bshape.length - 1
      · rw [List.getElem?_take_of_lt hi, List.getElem?_take_of_lt hi,
          List.getElem?_set_ne (by omega)]
      · rw [List.getElem?_take_eq_none (by omega), List.getElem?_take_eq_none (by omega)]
    · rw [if_pos hlast]
      simp only [OperationState.transpose, OperationState.bshape]
      rw [List.dropLast_eq_take, List.dropLast_eq_take]
      simp only [List.length_map, List.length_set, List.length_range, Int.toNat_ofNat]
      apply List.ext_getElem?
      intro i
      by_cases hi : i < bshape.length - 1
      · rw [List.getElem?_take_of_lt hi, List.getElem?_take_of_lt hi, List.getElem?_map]
        by_cases hia : i = axis
        · subst hia
          rw [List.getElem?_set_self (by simp; omega), List.getElem?_set_self haxis]
          simp
        · rw [List.getElem?_set_ne (fun h => hia h.symm),
            List.getElem?_set_ne (by omega), List.getElem?_set_ne (fun h => hia h.symm),
            List.getElem?_map, List.getElem?_range (by omega)]
          have hib : i < bshape.length := by omega
          simp [List.getD_eq_getElem?_getD, List.getElem?_eq_getElem hib]
      · rw [List.getElem?_take_eq_none (by omega), List.getElem?_take_eq_none (by omega)]
  · simp only [OperationState.ndim]
    split_ifs
    · simp only [OperationState.transpose, OperationState.ndim, List.length_map,
        List.length_set, List.length_range, Int.toNat_ofNat]
      rw [max_eq_left (by omega)]
    · simp only [OperationState.ndim]
      rw [max_eq_left (by omega)]

end Dali
